import Mathlib

/-!
# Verification of the `reinter` regular-expression intersection checker

This development gives a shallow embedding of the Go packages `dfa` and
`intersection` of the repository, together with a model of the external
`runerange` package (whose source is not part of the repository; its
operations are modelled from the specification's description of the
Range Partitioner), and proves or refutes the specified properties.

Rune ranges are represented exactly as in the Go code: a flat list of
boundaries `[l₁, h₁, l₂, h₂, …]` denoting the union of the inclusive
intervals `[lᵢ, hᵢ]`.  Go's `rune` (`int32`) is modelled as `Int`; the
code only ever compares boundaries, so no overflow is involved.

Functions that the Go code writes as unbounded recursion or loops are
written with an explicit structural fuel argument (so that they compute
by kernel reduction); the wrappers instantiate the fuel with a value
proved sufficient, and every lemma carries the corresponding size
bound as a hypothesis.
-/

namespace Reinter

namespace RuneRange

/-- View a flat boundary list as the list of its `(low, high)` pairs.
A trailing odd element (ill-formed in the Go code, which would index out
of range on it) is dropped. -/
def toPairs : List Int → List (Int × Int)
  | l :: h :: rest => (l, h) :: toPairs rest
  | _ => []

/-- A code point `c` is covered by a pair list. -/
def MemP (c : Int) (ps : List (Int × Int)) : Prop :=
  ∃ p ∈ ps, p.1 ≤ c ∧ c ≤ p.2

instance (c : Int) (ps : List (Int × Int)) : Decidable (MemP c ps) :=
  List.decidableBEx _ ps

/-- A code point `c` is covered by a flat boundary list. -/
def Mem (c : Int) (rs : List Int) : Prop := MemP c (toPairs rs)

instance (c : Int) (rs : List Int) : Decidable (Mem c rs) :=
  inferInstanceAs (Decidable (MemP c (toPairs rs)))

/-- Modelled from the spec: `runerange.Overlaps` (the `runerange` package
is external to the repository).  "`Overlaps(a, b) -> bool`: true iff any
inclusive range in `a` shares at least one character with any inclusive
range in `b`." -/
def Overlaps (a b : List Int) : Prop :=
  ∃ p ∈ toPairs a, ∃ q ∈ toPairs b, max p.1 q.1 ≤ min p.2 q.2

instance (a b : List Int) : Decidable (Overlaps a b) :=
  List.decidableBEx _ (toPairs a)

/-- Modelled from the spec: `runerange.Contains` (external package), "a
range-containment predicate equivalent to `Overlaps` restricted to a
single probe range"; the Go code probes it with single elementary
blocks. -/
def Contains (rs probe : List Int) : Prop := Overlaps rs probe

instance (rs probe : List Int) : Decidable (Contains rs probe) :=
  inferInstanceAs (Decidable (Overlaps rs probe))

/-- Fueled merge of two boundary lists by low boundary. -/
def SumF : Nat → List Int → List Int → List Int
  | fuel + 1, l1 :: h1 :: r1, l2 :: h2 :: r2 =>
    if l1 ≤ l2 then l1 :: h1 :: SumF fuel r1 (l2 :: h2 :: r2)
    else l2 :: h2 :: SumF fuel (l1 :: h1 :: r1) r2
  | _, a, [] => a
  | _, [], b => b
  | _, a, b => a ++ b

/-- Modelled from the spec: `runerange.Sum` (external package), "union /
accumulate two disjoint range lists into one disjoint range list"; the
ranges of the two lists are merged in order of their low boundaries. -/
def Sum (a b : List Int) : List Int := SumF (a.length + b.length) a b

/-- Fueled two-pointer walk; the fuel only serves structural recursion
and is always instantiated large enough (see `findOverlap`). -/
def findOverlapF : Nat → List Int → List Int → List Int
  | fuel + 1, l1 :: h1 :: r1, l2 :: h2 :: r2 =>
    let s := max l1 l2
    let e := min h1 h2
    let rest :=
      if h1 < h2 then findOverlapF fuel r1 (l2 :: h2 :: r2)
      else findOverlapF fuel (l1 :: h1 :: r1) r2
    if s ≤ e then s :: e :: rest else rest
  | _, _, _ => []

/-- `intersection.findOverlap` (from the source): two-pointer walk over
two flat boundary lists, emitting `max l₁ l₂ :: min h₁ h₂` whenever the
current ranges intersect, and advancing past whichever range ends first
(a tie advances the second list).  The Go loop runs while both indices
are in bounds, which is at most one iteration per two boundaries. -/
def findOverlap (a b : List Int) : List Int :=
  findOverlapF (a.length + b.length) a b

/-- The boundary list denotes ranges `lo ≤ l ≤ h` in increasing order
with disjoint (possibly adjacent) ranges, all lying at or above `lo`. -/
def sdFrom : Int → List Int → Prop
  | _, [] => True
  | lo, l :: h :: rest => lo ≤ l ∧ l ≤ h ∧ sdFrom (h + 1) rest
  | _, _ => False

instance sdFromDec : (lo : Int) → (rs : List Int) → Decidable (sdFrom lo rs)
  | _, [] => isTrue trivial
  | _, [_] => isFalse (fun h => h)
  | lo, l :: h :: rest =>
    haveI := sdFromDec (h + 1) rest
    inferInstanceAs (Decidable (lo ≤ l ∧ l ≤ h ∧ sdFrom (h + 1) rest))

/-- A sorted list of pairwise-disjoint inclusive ranges. -/
def sortedDisjoint : List Int → Prop
  | [] => True
  | l :: rest => sdFrom l (l :: rest)

instance (rs : List Int) : Decidable (sortedDisjoint rs) := by
  cases rs with
  | nil => exact isTrue trivial
  | cons l rest => exact inferInstanceAs (Decidable (sdFrom l (l :: rest)))

/-- Canonical form: like `sdFrom`, but successive ranges are separated by
a gap of at least one uncovered code point (no adjacency). -/
def canFrom : Int → List Int → Prop
  | _, [] => True
  | lo, l :: h :: rest => lo ≤ l ∧ l ≤ h ∧ canFrom (h + 2) rest
  | _, _ => False

instance canFromDec : (lo : Int) → (rs : List Int) → Decidable (canFrom lo rs)
  | _, [] => isTrue trivial
  | _, [_] => isFalse (fun h => h)
  | lo, l :: h :: rest =>
    haveI := canFromDec (h + 2) rest
    inferInstanceAs (Decidable (lo ≤ l ∧ l ≤ h ∧ canFrom (h + 2) rest))

/-- A canonical range list: sorted, disjoint and gap-separated. -/
def canonicalRR : List Int → Prop
  | [] => True
  | l :: rest => canFrom l (l :: rest)

instance (rs : List Int) : Decidable (canonicalRR rs) := by
  cases rs with
  | nil => exact isTrue trivial
  | cons l rest => exact inferInstanceAs (Decidable (canFrom l (l :: rest)))

theorem mem_nil (c : Int) : ¬ Mem c [] := by
  simp [Mem, MemP, toPairs]

theorem mem_single {c x : Int} : ¬ Mem c [x] := by
  simp [Mem, MemP, toPairs]

theorem mem_cons {c l h : Int} {rest : List Int} :
    Mem c (l :: h :: rest) ↔ (l ≤ c ∧ c ≤ h) ∨ Mem c rest := by
  simp [Mem, MemP, toPairs]

theorem overlaps_iff {a b : List Int} :
    Overlaps a b ↔ ∃ c : Int, Mem c a ∧ Mem c b := by
  constructor
  · rintro ⟨p, hp, q, hq, hle⟩
    refine ⟨max p.1 q.1, ⟨p, hp, le_max_left _ _, le_trans hle (min_le_left _ _)⟩,
      ⟨q, hq, le_max_right _ _, le_trans hle (min_le_right _ _)⟩⟩
  · rintro ⟨c, ⟨p, hp, hp1, hp2⟩, ⟨q, hq, hq1, hq2⟩⟩
    exact ⟨p, hp, q, hq, le_trans (max_le hp1 hq1) (le_min hp2 hq2)⟩

theorem sdFrom_mono {lo lo' : Int} {rs : List Int} (h : sdFrom lo rs)
    (hle : lo' ≤ lo) : sdFrom lo' rs := by
  cases rs with
  | nil => trivial
  | cons l rest =>
    cases rest with
    | nil => exact h.elim
    | cons hh rest' => exact ⟨le_trans hle h.1, h.2.1, h.2.2⟩

theorem sdFrom_cons_shape {lo x : Int} {rest : List Int}
    (h : sdFrom lo (x :: rest)) : ∃ hh t, rest = hh :: t := by
  cases rest with
  | nil => exact h.elim
  | cons hh t => exact ⟨hh, t, rfl⟩

theorem sdFrom_mem_lb {c : Int} :
    ∀ (lo : Int) (rs : List Int), sdFrom lo rs → Mem c rs → lo ≤ c := by
  intro lo rs
  induction lo, rs using sdFrom.induct with
  | case1 x => exact fun _ hc => absurd hc (mem_nil c)
  | case2 lo l h rest ih =>
    intro hsd hc
    rcases mem_cons.1 hc with ⟨h1, _⟩ | hr
    · exact le_trans hsd.1 h1
    · have h2 := ih hsd.2.2 hr
      rcases hsd with ⟨u, v, _⟩
      omega
  | case3 t x h1 h2 =>
    intro hsd _
    cases t with
    | nil => exact absurd rfl h1
    | cons a as =>
      cases as with
      | nil => exact hsd.elim
      | cons b bs => exact absurd rfl (h2 a b bs)

theorem sdFrom_of_canFrom :
    ∀ (lo : Int) (rs : List Int), canFrom lo rs → sdFrom lo rs := by
  intro lo rs
  induction lo, rs using canFrom.induct with
  | case1 x => exact fun _ => trivial
  | case2 lo l h rest ih =>
    exact fun hc => ⟨hc.1, hc.2.1, sdFrom_mono (ih hc.2.2) (by omega)⟩
  | case3 t x h1 h2 =>
    intro hc
    cases t with
    | nil => exact absurd rfl h1
    | cons a as =>
      cases as with
      | nil => exact hc.elim
      | cons b bs => exact absurd rfl (h2 a b bs)

theorem canFrom_mono {lo lo' : Int} {rs : List Int} (h : canFrom lo rs)
    (hle : lo' ≤ lo) : canFrom lo' rs := by
  cases rs with
  | nil => trivial
  | cons l rest =>
    cases rest with
    | nil => exact h.elim
    | cons hh rest' => exact ⟨le_trans hle h.1, h.2.1, h.2.2⟩

theorem sdFrom_even_length {lo : Int} :
    ∀ rs : List Int, sdFrom lo rs → rs.length % 2 = 0 := by
  intro rs
  induction lo, rs using sdFrom.induct with
  | case1 x => exact fun _ => rfl
  | case2 lo l h rest ih =>
    intro hsd
    have := ih hsd.2.2
    simp only [List.length_cons]
    omega
  | case3 t x h1 h2 =>
    intro hsd
    cases t with
    | nil => exact absurd rfl h1
    | cons a as =>
      cases as with
      | nil => exact hsd.elim
      | cons b bs => exact absurd rfl (h2 a b bs)

theorem SumF_nil_left : ∀ (fuel : Nat) (b : List Int), SumF fuel [] b = b := by
  intro fuel b
  match fuel, b with
  | 0, [] => rfl
  | 0, _ :: _ => rfl
  | _ + 1, [] => rfl
  | _ + 1, [_] => rfl
  | _ + 1, _ :: _ :: _ => rfl

theorem SumF_nil_right : ∀ (fuel : Nat) (a : List Int), SumF fuel a [] = a := by
  intro fuel a
  match fuel, a with
  | 0, [] => rfl
  | 0, _ :: _ => rfl
  | _ + 1, [] => rfl
  | _ + 1, [_] => rfl
  | _ + 1, _ :: _ :: _ => rfl

theorem SumF_cons_cons (n : Nat) (l1 h1 l2 h2 : Int) (r1 r2 : List Int) :
    SumF (n + 1) (l1 :: h1 :: r1) (l2 :: h2 :: r2) =
      if l1 ≤ l2 then l1 :: h1 :: SumF n r1 (l2 :: h2 :: r2)
      else l2 :: h2 :: SumF n (l1 :: h1 :: r1) r2 := rfl

/-- Membership in the merged list is membership in either input. -/
theorem mem_SumF {c : Int} :
    ∀ (fuel : Nat) (a b : List Int) (lo1 lo2 : Int),
      a.length + b.length ≤ fuel → sdFrom lo1 a → sdFrom lo2 b →
      (Mem c (SumF fuel a b) ↔ Mem c a ∨ Mem c b) := by
  intro fuel
  induction fuel with
  | zero =>
    intro a b lo1 lo2 hlen ha hb
    have h1 : a = [] := List.length_eq_zero.1 (by omega)
    have h2 : b = [] := List.length_eq_zero.1 (by omega)
    subst h1; subst h2
    simp [SumF_nil_left]
  | succ n ih =>
    intro a b lo1 lo2 hlen ha hb
    match a, b with
    | [], b =>
      rw [SumF_nil_left]
      exact ⟨Or.inr, fun h => h.elim (fun h => absurd h (mem_nil c)) id⟩
    | a, [] =>
      rw [SumF_nil_right]
      exact ⟨Or.inl, fun h => h.elim id (fun h => absurd h (mem_nil c))⟩
    | l1 :: h1 :: r1, l2 :: h2 :: r2 =>
      obtain ⟨hlo1, hlh1, hr1⟩ := ha
      obtain ⟨hlo2, hlh2, hr2⟩ := hb
      rw [SumF_cons_cons]
      by_cases hc12 : l1 ≤ l2
      · rw [if_pos hc12, mem_cons,
          ih r1 (l2 :: h2 :: r2) (h1 + 1) lo2
            (by simp at hlen ⊢; omega) hr1 ⟨hlo2, hlh2, hr2⟩]
        simp only [mem_cons]
        tauto
      · rw [if_neg hc12, mem_cons,
          ih (l1 :: h1 :: r1) r2 lo1 (h2 + 1)
            (by simp at hlen ⊢; omega) ⟨hlo1, hlh1, hr1⟩ hr2]
        simp only [mem_cons]
        tauto
    | [x], l2 :: h2 :: r2 => exact ha.elim
    | l1 :: h1 :: r1, [x] => exact hb.elim

theorem mem_Sum {c : Int} {a b : List Int} {lo1 lo2 : Int}
    (ha : sdFrom lo1 a) (hb : sdFrom lo2 b) :
    Mem c (Sum a b) ↔ Mem c a ∨ Mem c b :=
  mem_SumF _ a b lo1 lo2 le_rfl ha hb

/-- Merging semantically disjoint sorted lists yields a sorted list. -/
theorem sdFrom_SumF :
    ∀ (fuel : Nat) (a b : List Int) (lo1 lo2 : Int),
      a.length + b.length ≤ fuel → sdFrom lo1 a → sdFrom lo2 b →
      (∀ c : Int, ¬ (Mem c a ∧ Mem c b)) →
      sdFrom (min lo1 lo2) (SumF fuel a b) := by
  intro fuel
  induction fuel with
  | zero =>
    intro a b lo1 lo2 hlen ha hb _
    have h1 : a = [] := List.length_eq_zero.1 (by omega)
    have h2 : b = [] := List.length_eq_zero.1 (by omega)
    subst h1; subst h2
    exact trivial
  | succ n ih =>
    intro a b lo1 lo2 hlen ha hb hdisj
    match a, b with
    | [], b =>
      rw [SumF_nil_left]
      exact sdFrom_mono hb (min_le_right _ _)
    | a, [] =>
      rw [SumF_nil_right]
      exact sdFrom_mono ha (min_le_left _ _)
    | l1 :: h1 :: r1, l2 :: h2 :: r2 =>
      obtain ⟨hlo1, hlh1, hr1⟩ := ha
      obtain ⟨hlo2, hlh2, hr2⟩ := hb
      rw [SumF_cons_cons]
      by_cases hc12 : l1 ≤ l2
      · rw [if_pos hc12]
        -- the head of b must start after h1, otherwise l2 is common
        have hgap : h1 < l2 := by
          by_contra hle
          exact hdisj l2 ⟨mem_cons.2 (Or.inl (by omega)),
            mem_cons.2 (Or.inl (by omega))⟩
        have hb' : sdFrom (h1 + 1) (l2 :: h2 :: r2) := ⟨by omega, hlh2, hr2⟩
        have := ih r1 (l2 :: h2 :: r2) (h1 + 1) (h1 + 1)
          (by simp at hlen ⊢; omega) hr1 hb'
          (fun x ⟨hx1, hx2⟩ => hdisj x ⟨mem_cons.2 (Or.inr hx1), hx2⟩)
        refine ⟨min_le_of_left_le hlo1, hlh1, ?_⟩
        simpa using this
      · rw [if_neg hc12]
        have hgap : h2 < l1 := by
          by_contra hle
          exact hdisj l1 ⟨mem_cons.2 (Or.inl (by omega)),
            mem_cons.2 (Or.inl (by omega))⟩
        have ha' : sdFrom (h2 + 1) (l1 :: h1 :: r1) := ⟨by omega, hlh1, hr1⟩
        have := ih (l1 :: h1 :: r1) r2 (h2 + 1) (h2 + 1)
          (by simp at hlen ⊢; omega) ha' hr2
          (fun x ⟨hx1, hx2⟩ => hdisj x ⟨hx1, mem_cons.2 (Or.inr hx2)⟩)
        refine ⟨min_le_of_right_le hlo2, hlh2, ?_⟩
        simpa using this
    | [x], l2 :: h2 :: r2 => exact ha.elim
    | l1 :: h1 :: r1, [x] => exact hb.elim

theorem sdFrom_Sum {a b : List Int} {lo1 lo2 : Int}
    (ha : sdFrom lo1 a) (hb : sdFrom lo2 b)
    (hdisj : ∀ c : Int, ¬ (Mem c a ∧ Mem c b)) :
    sdFrom (min lo1 lo2) (Sum a b) :=
  sdFrom_SumF _ a b lo1 lo2 le_rfl ha hb hdisj

theorem findOverlapF_zero (a b : List Int) : findOverlapF 0 a b = [] := rfl

theorem findOverlapF_nil_left (fuel : Nat) (b : List Int) :
    findOverlapF fuel [] b = [] := by
  match fuel, b with
  | 0, _ => rfl
  | _ + 1, [] => rfl
  | _ + 1, [_] => rfl
  | _ + 1, _ :: _ :: _ => rfl

theorem findOverlapF_nil_right (fuel : Nat) (a : List Int) :
    findOverlapF fuel a [] = [] := by
  match fuel, a with
  | 0, _ => rfl
  | _ + 1, [] => rfl
  | _ + 1, [_] => rfl
  | _ + 1, _ :: _ :: _ => rfl

theorem findOverlapF_single_left (fuel : Nat) (x : Int) (b : List Int) :
    findOverlapF fuel [x] b = [] := by
  match fuel, b with
  | 0, _ => rfl
  | _ + 1, [] => rfl
  | _ + 1, [_] => rfl
  | _ + 1, _ :: _ :: _ => rfl

theorem findOverlapF_single_right (fuel : Nat) (x : Int) (a : List Int) :
    findOverlapF fuel a [x] = [] := by
  match fuel, a with
  | 0, _ => rfl
  | _ + 1, [] => rfl
  | _ + 1, [_] => rfl
  | _ + 1, _ :: _ :: _ => rfl

theorem findOverlapF_cons_cons (n : Nat) (l1 h1 l2 h2 : Int)
    (r1 r2 : List Int) :
    findOverlapF (n + 1) (l1 :: h1 :: r1) (l2 :: h2 :: r2) =
      if max l1 l2 ≤ min h1 h2 then
        max l1 l2 :: min h1 h2 ::
          (if h1 < h2 then findOverlapF n r1 (l2 :: h2 :: r2)
           else findOverlapF n (l1 :: h1 :: r1) r2)
      else
        (if h1 < h2 then findOverlapF n r1 (l2 :: h2 :: r2)
         else findOverlapF n (l1 :: h1 :: r1) r2) := by
  by_cases hse : max l1 l2 ≤ min h1 h2 <;>
    by_cases hlt : h1 < h2 <;>
    simp only [findOverlapF, hse, hlt, if_pos, if_neg, if_true, if_false,
      not_false_iff, not_true]

/-- The walk computes exactly the characters common to both inputs,
provided each input is a sorted disjoint range list. -/
theorem mem_findOverlapF {c : Int} :
    ∀ (fuel : Nat) (a b : List Int) (lo1 lo2 : Int),
      a.length + b.length ≤ fuel → sdFrom lo1 a → sdFrom lo2 b →
      (Mem c (findOverlapF fuel a b) ↔ Mem c a ∧ Mem c b) := by
  intro fuel
  induction fuel with
  | zero =>
    intro a b lo1 lo2 hlen ha hb
    have h1 : a = [] := List.length_eq_zero.1 (by omega)
    subst h1
    rw [findOverlapF_zero]
    exact ⟨fun h => absurd h (mem_nil c), fun ⟨h, _⟩ => absurd h (mem_nil c)⟩
  | succ n ih =>
    intro a b lo1 lo2 hlen ha hb
    match a, b with
    | [], b =>
      rw [findOverlapF_nil_left]
      exact ⟨fun h => absurd h (mem_nil c), fun ⟨h, _⟩ => absurd h (mem_nil c)⟩
    | a, [] =>
      rw [findOverlapF_nil_right]
      exact ⟨fun h => absurd h (mem_nil c), fun ⟨_, h⟩ => absurd h (mem_nil c)⟩
    | [x], l2 :: h2 :: r2 => exact ha.elim
    | l1 :: h1 :: r1, [x] => exact hb.elim
    | l1 :: h1 :: r1, l2 :: h2 :: r2 =>
      obtain ⟨hlo1, hlh1, hr1⟩ := ha
      obtain ⟨hlo2, hlh2, hr2⟩ := hb
      have hlb1 : ∀ x : Int, Mem x r1 → h1 + 1 ≤ x :=
        fun x hx => sdFrom_mem_lb _ _ hr1 hx
      have hlb2 : ∀ x : Int, Mem x r2 → h2 + 1 ≤ x :=
        fun x hx => sdFrom_mem_lb _ _ hr2 hx
      rw [findOverlapF_cons_cons]
      by_cases hse : max l1 l2 ≤ min h1 h2
      · rw [if_pos hse]
        by_cases hlt : h1 < h2
        · rw [if_pos hlt, mem_cons,
            ih r1 (l2 :: h2 :: r2) (h1 + 1) lo2
              (by simp at hlen ⊢; omega) hr1 ⟨hlo2, hlh2, hr2⟩]
          simp only [mem_cons, max_le_iff, le_min_iff] at *
          constructor
          · rintro (⟨⟨c1, c2⟩, c3, c4⟩ | ⟨hm1, hB⟩)
            · exact ⟨Or.inl ⟨c1, c3⟩, Or.inl ⟨c2, c4⟩⟩
            · exact ⟨Or.inr hm1, hB⟩
          · rintro ⟨hc1 | hm1, hc2 | hm2⟩
            · exact Or.inl ⟨⟨hc1.1, hc2.1⟩, hc1.2, hc2.2⟩
            · exact absurd (hlb2 c hm2) (by omega)
            · exact Or.inr ⟨hm1, Or.inl hc2⟩
            · exact Or.inr ⟨hm1, Or.inr hm2⟩
        · rw [if_neg hlt, mem_cons,
            ih (l1 :: h1 :: r1) r2 lo1 (h2 + 1)
              (by simp at hlen ⊢; omega) ⟨hlo1, hlh1, hr1⟩ hr2]
          simp only [mem_cons, max_le_iff, le_min_iff] at *
          constructor
          · rintro (⟨⟨c1, c2⟩, c3, c4⟩ | ⟨hA, hm2⟩)
            · exact ⟨Or.inl ⟨c1, c3⟩, Or.inl ⟨c2, c4⟩⟩
            · exact ⟨hA, Or.inr hm2⟩
          · rintro ⟨hc1 | hm1, hc2 | hm2⟩
            · exact Or.inl ⟨⟨hc1.1, hc2.1⟩, hc1.2, hc2.2⟩
            · exact Or.inr ⟨Or.inl hc1, hm2⟩
            · exact absurd (hlb1 c hm1) (by omega)
            · exact Or.inr ⟨Or.inr hm1, hm2⟩
      · rw [if_neg hse]
        by_cases hlt : h1 < h2
        · rw [if_pos hlt,
            ih r1 (l2 :: h2 :: r2) (h1 + 1) lo2
              (by simp at hlen ⊢; omega) hr1 ⟨hlo2, hlh2, hr2⟩]
          simp only [mem_cons, max_le_iff, le_min_iff, not_and_or, not_le] at *
          constructor
          · rintro ⟨hm1, hB⟩
            exact ⟨Or.inr hm1, hB⟩
          · rintro ⟨hc1 | hm1, hc2 | hm2⟩
            · exfalso; omega
            · exact absurd (hlb2 c hm2) (by omega)
            · exact ⟨hm1, Or.inl hc2⟩
            · exact ⟨hm1, Or.inr hm2⟩
        · rw [if_neg hlt,
            ih (l1 :: h1 :: r1) r2 lo1 (h2 + 1)
              (by simp at hlen ⊢; omega) ⟨hlo1, hlh1, hr1⟩ hr2]
          simp only [mem_cons, max_le_iff, le_min_iff, not_and_or, not_le] at *
          constructor
          · rintro ⟨hA, hm2⟩
            exact ⟨hA, Or.inr hm2⟩
          · rintro ⟨hc1 | hm1, hc2 | hm2⟩
            · exfalso; omega
            · exact ⟨Or.inl hc1, hm2⟩
            · exact absurd (hlb1 c hm1) (by omega)
            · exact ⟨Or.inr hm1, hm2⟩

theorem mem_findOverlap {a b : List Int} {lo1 lo2 : Int}
    (ha : sdFrom lo1 a) (hb : sdFrom lo2 b) (c : Int) :
    Mem c (findOverlap a b) ↔ Mem c a ∧ Mem c b :=
  mem_findOverlapF _ a b lo1 lo2 le_rfl ha hb

/-- The walk preserves sortedness/disjointness. -/
theorem sdFrom_findOverlapF :
    ∀ (fuel : Nat) (a b : List Int) (lo1 lo2 : Int),
      a.length + b.length ≤ fuel → sdFrom lo1 a → sdFrom lo2 b →
      sdFrom (max lo1 lo2) (findOverlapF fuel a b) := by
  intro fuel
  induction fuel with
  | zero => intro a b lo1 lo2 _ _ _; rw [findOverlapF_zero]; trivial
  | succ n ih =>
    intro a b lo1 lo2 hlen ha hb
    match a, b with
    | [], b => rw [findOverlapF_nil_left]; trivial
    | a, [] => rw [findOverlapF_nil_right]; trivial
    | [x], l2 :: h2 :: r2 => exact ha.elim
    | l1 :: h1 :: r1, [x] => exact hb.elim
    | l1 :: h1 :: r1, l2 :: h2 :: r2 =>
      obtain ⟨hlo1, hlh1, hr1⟩ := ha
      obtain ⟨hlo2, hlh2, hr2⟩ := hb
      rw [findOverlapF_cons_cons]
      by_cases hse : max l1 l2 ≤ min h1 h2
      · rw [if_pos hse]
        by_cases hlt : h1 < h2
        · rw [if_pos hlt]
          refine ⟨max_le_max hlo1 hlo2, hse, ?_⟩
          have := ih r1 (l2 :: h2 :: r2) (h1 + 1) l2
            (by simp at hlen ⊢; omega) hr1 ⟨le_refl l2, hlh2, hr2⟩
          exact sdFrom_mono this (by omega)
        · rw [if_neg hlt]
          refine ⟨max_le_max hlo1 hlo2, hse, ?_⟩
          have := ih (l1 :: h1 :: r1) r2 l1 (h2 + 1)
            (by simp at hlen ⊢; omega) ⟨le_refl l1, hlh1, hr1⟩ hr2
          exact sdFrom_mono this (by omega)
      · rw [if_neg hse]
        by_cases hlt : h1 < h2
        · rw [if_pos hlt]
          have := ih r1 (l2 :: h2 :: r2) (h1 + 1) l2
            (by simp at hlen ⊢; omega) hr1 ⟨le_refl l2, hlh2, hr2⟩
          exact sdFrom_mono this (by omega)
        · rw [if_neg hlt]
          have := ih (l1 :: h1 :: r1) r2 l1 (h2 + 1)
            (by simp at hlen ⊢; omega) ⟨le_refl l1, hlh1, hr1⟩ hr2
          exact sdFrom_mono this (by omega)

/-- The walk preserves canonical (gap-separated) form. -/
theorem canFrom_findOverlapF :
    ∀ (fuel : Nat) (a b : List Int) (lo1 lo2 : Int),
      a.length + b.length ≤ fuel → canFrom lo1 a → canFrom lo2 b →
      canFrom (max lo1 lo2) (findOverlapF fuel a b) := by
  intro fuel
  induction fuel with
  | zero => intro a b lo1 lo2 _ _ _; rw [findOverlapF_zero]; trivial
  | succ n ih =>
    intro a b lo1 lo2 hlen ha hb
    match a, b with
    | [], b => rw [findOverlapF_nil_left]; trivial
    | a, [] => rw [findOverlapF_nil_right]; trivial
    | [x], l2 :: h2 :: r2 => exact ha.elim
    | l1 :: h1 :: r1, [x] => exact hb.elim
    | l1 :: h1 :: r1, l2 :: h2 :: r2 =>
      obtain ⟨hlo1, hlh1, hr1⟩ := ha
      obtain ⟨hlo2, hlh2, hr2⟩ := hb
      rw [findOverlapF_cons_cons]
      by_cases hse : max l1 l2 ≤ min h1 h2
      · rw [if_pos hse]
        by_cases hlt : h1 < h2
        · rw [if_pos hlt]
          refine ⟨max_le_max hlo1 hlo2, hse, ?_⟩
          have := ih r1 (l2 :: h2 :: r2) (h1 + 2) l2
            (by simp at hlen ⊢; omega) hr1 ⟨le_refl l2, hlh2, hr2⟩
          exact canFrom_mono this (by omega)
        · rw [if_neg hlt]
          refine ⟨max_le_max hlo1 hlo2, hse, ?_⟩
          have := ih (l1 :: h1 :: r1) r2 l1 (h2 + 2)
            (by simp at hlen ⊢; omega) ⟨le_refl l1, hlh1, hr1⟩ hr2
          exact canFrom_mono this (by omega)
      · rw [if_neg hse]
        by_cases hlt : h1 < h2
        · rw [if_pos hlt]
          have := ih r1 (l2 :: h2 :: r2) (h1 + 2) l2
            (by simp at hlen ⊢; omega) hr1 ⟨le_refl l2, hlh2, hr2⟩
          exact canFrom_mono this (by omega)
        · rw [if_neg hlt]
          have := ih (l1 :: h1 :: r1) r2 l1 (h2 + 2)
            (by simp at hlen ⊢; omega) ⟨le_refl l1, hlh1, hr1⟩ hr2
          exact canFrom_mono this (by omega)

theorem sortedDisjoint_of_sdFrom {lo : Int} {rs : List Int}
    (h : sdFrom lo rs) : sortedDisjoint rs := by
  cases rs with
  | nil => trivial
  | cons l rest =>
    obtain ⟨hh, t, rfl⟩ := sdFrom_cons_shape h
    exact ⟨le_refl l, h.2.1, h.2.2⟩

theorem sdFrom_of_sortedDisjoint {rs : List Int} (h : sortedDisjoint rs) :
    ∃ lo, sdFrom lo rs := by
  cases rs with
  | nil => exact ⟨0, trivial⟩
  | cons l rest => exact ⟨l, h⟩

theorem canonical_of_canFrom {lo : Int} {rs : List Int}
    (h : canFrom lo rs) : canonicalRR rs := by
  cases rs with
  | nil => trivial
  | cons l rest =>
    cases rest with
    | nil => exact h.elim
    | cons hh t => exact ⟨le_refl l, h.2.1, h.2.2⟩

theorem canFrom_of_canonical {rs : List Int} (h : canonicalRR rs) :
    ∃ lo, canFrom lo rs := by
  cases rs with
  | nil => exact ⟨0, trivial⟩
  | cons l rest => exact ⟨l, h⟩

theorem sortedDisjoint_findOverlap {a b : List Int}
    (ha : sortedDisjoint a) (hb : sortedDisjoint b) :
    sortedDisjoint (findOverlap a b) := by
  obtain ⟨lo1, ha'⟩ := sdFrom_of_sortedDisjoint ha
  obtain ⟨lo2, hb'⟩ := sdFrom_of_sortedDisjoint hb
  exact sortedDisjoint_of_sdFrom
    (sdFrom_findOverlapF _ a b lo1 lo2 le_rfl ha' hb')

theorem canonical_findOverlap {a b : List Int}
    (ha : canonicalRR a) (hb : canonicalRR b) :
    canonicalRR (findOverlap a b) := by
  obtain ⟨lo1, ha'⟩ := canFrom_of_canonical ha
  obtain ⟨lo2, hb'⟩ := canFrom_of_canonical hb
  exact canonical_of_canFrom
    (canFrom_findOverlapF _ a b lo1 lo2 le_rfl ha' hb')

/-- Two boundary lists denote the same set of code points. -/
def SameSem (x y : List Int) : Prop := ∀ c : Int, Mem c x ↔ Mem c y

/-- A canonical list is at most as long as any sorted disjoint list with
the same semantics (canonical form is the minimal representation). -/
theorem canonical_min_length :
    ∀ (other rs : List Int) (lo1 lo2 : Int),
      canFrom lo1 rs → sdFrom lo2 other → SameSem rs other →
      rs.length ≤ other.length := by
  intro other
  induction other using toPairs.induct with
  | case1 a b orest iho =>
    intro rs lo1 lo2 hrs hother hsem
    match rs, hrs with
    | [], _ => simp
    | [x], hrs => exact hrs.elim
    | l :: h :: rrest, hrs =>
      obtain ⟨hlo1, hlh, hrrest⟩ := hrs
      obtain ⟨hlo2, hab, horest⟩ := hother
      -- the head boundaries agree on the left: a = l
      have hl_mem : Mem l (l :: h :: rrest) := mem_cons.2 (Or.inl ⟨le_refl l, hlh⟩)
      have ha_mem : Mem a (a :: b :: orest) := mem_cons.2 (Or.inl ⟨le_refl a, hab⟩)
      have hal : a ≤ l := by
        have := (hsem l).1 hl_mem
        rcases mem_cons.1 this with ⟨h1, _⟩ | hr
        · exact h1
        · have := sdFrom_mem_lb _ _ horest hr; omega
      have hla : l ≤ a := by
        have := (hsem a).2 ha_mem
        rcases mem_cons.1 this with ⟨h1, _⟩ | hr
        · exact h1
        · have g := sdFrom_mem_lb _ _ (sdFrom_of_canFrom _ _ hrrest) hr; omega
      -- the first `other` range cannot pass the gap after h
      have hbh : b ≤ h := by
        by_contra hgt
        have hmem : Mem (h + 1) (a :: b :: orest) :=
          mem_cons.2 (Or.inl ⟨by omega, by omega⟩)
        have := (hsem (h + 1)).2 hmem
        rcases mem_cons.1 this with ⟨_, h2⟩ | hr
        · omega
        · have g := sdFrom_mem_lb _ _ (sdFrom_of_canFrom _ _ hrrest) hr; omega
      by_cases hbeq : b = h
      · -- strip both heads
        subst hbeq
        have hsem' : SameSem rrest orest := by
          intro c
          constructor
          · intro hc
            have hcb : b + 2 ≤ c := sdFrom_mem_lb _ _ (sdFrom_of_canFrom _ _ hrrest) hc
            have := (hsem c).1 (mem_cons.2 (Or.inr hc))
            rcases mem_cons.1 this with ⟨_, h2⟩ | hr
            · omega
            · exact hr
          · intro hc
            have hcb : b + 1 ≤ c := sdFrom_mem_lb _ _ horest hc
            have := (hsem c).2 (mem_cons.2 (Or.inr hc))
            rcases mem_cons.1 this with ⟨_, h2⟩ | hr
            · omega
            · exact hr
        have := iho rrest (b + 2) (b + 1) hrrest horest hsem'
        simp only [List.length_cons]
        omega
      · -- b < h: strip only the head of `other`, shrinking the rs head
        have hbh' : b < h := lt_of_le_of_ne hbh hbeq
        have hrs' : canFrom lo1 ((b + 1) :: h :: rrest) :=
          ⟨by omega, by omega, hrrest⟩
        have hsem' : SameSem ((b + 1) :: h :: rrest) orest := by
          intro c
          constructor
          · intro hc
            have hcb : b + 1 ≤ c := by
              rcases mem_cons.1 hc with ⟨h1, _⟩ | hr
              · omega
              · have := sdFrom_mem_lb _ _ (sdFrom_of_canFrom _ _ hrrest) hr; omega
            have hc' : Mem c (l :: h :: rrest) := by
              rcases mem_cons.1 hc with ⟨h1, h2⟩ | hr
              · exact mem_cons.2 (Or.inl ⟨by omega, h2⟩)
              · exact mem_cons.2 (Or.inr hr)
            have := (hsem c).1 hc'
            rcases mem_cons.1 this with ⟨_, h2⟩ | hr
            · omega
            · exact hr
          · intro hc
            have hcb : b + 1 ≤ c := sdFrom_mem_lb _ _ horest hc
            have := (hsem c).2 (mem_cons.2 (Or.inr hc))
            rcases mem_cons.1 this with ⟨h1, h2⟩ | hr
            · exact mem_cons.2 (Or.inl ⟨by omega, h2⟩)
            · exact mem_cons.2 (Or.inr hr)
        have := iho ((b + 1) :: h :: rrest) lo1 (b + 1) hrs' horest hsem'
        simp only [List.length_cons] at this ⊢
        omega
  | case2 other hshape =>
    intro rs lo1 lo2 hrs hother hsem
    match other, hshape with
    | [], _ =>
      match rs, hrs with
      | [], _ => simp
      | [x], hrs => exact hrs.elim
      | l :: h :: rrest, hrs =>
        exact absurd ((hsem l).1 (mem_cons.2 (Or.inl ⟨le_refl l, hrs.2.1⟩)))
          (mem_nil l)
    | [x], _ => exact hother.elim
    | u :: v :: t, hshape => exact absurd rfl (hshape u v t)

/-! ### The range partitioner `Split` -/

/-- All `(low, high)` pairs of a collection of boundary lists. -/
def allPairs (lists : List (List Int)) : List (Int × Int) :=
  lists.flatMap toPairs

/-- Cut points of a pair collection: all the lows together with all the
highs plus one, sorted and de-duplicated. -/
def cutsOf (ps : List (Int × Int)) : List Int :=
  List.insertionSort (· ≤ ·)
    ((ps.map Prod.fst ++ ps.map (fun p : Int × Int => p.2 + 1)).dedup)

/-- The elementary blocks: each interval between two consecutive cuts
that is covered by at least one pair. -/
def blocksFromCuts (ps : List (Int × Int)) : List Int → List (Int × Int)
  | p :: q :: rest =>
    (if MemP p ps then [(p, q - 1)] else []) ++ blocksFromCuts ps (q :: rest)
  | _ => []

/-- Modelled from the spec: `runerange.Split` (external package),
"partitioning a collection of (possibly overlapping) range lists into
the maximal set of disjoint elementary sub-ranges that preserve every
original boundary" — "the unique set of maximal elementary sub-ranges
such that every original range is exactly a union of elementary
sub-ranges", delivered in increasing order; here produced as `(low,
high)` pairs.  The Go function returns the corresponding flat boundary
list, which `dfa.constructSubset` walks two boundaries at a time, i.e.
pair by pair; the builder model below therefore consumes the pairs. -/
def splitPairs (lists : List (List Int)) : List (Int × Int) :=
  blocksFromCuts (allPairs lists) (cutsOf (allPairs lists))

/-- The flat form of `splitPairs` (what `runerange.Split` returns). -/
def Split (lists : List (List Int)) : List Int :=
  (splitPairs lists).flatMap (fun p => [p.1, p.2])

/-- Adjacent pairs of a list. -/
def adjPairs (cuts : List Int) : List (Int × Int) := cuts.zip cuts.tail

theorem adjPairs_cons_cons (p q : Int) (rest : List Int) :
    adjPairs (p :: q :: rest) = (p, q) :: adjPairs (q :: rest) := rfl

theorem adjPairs_sub {x : Int} {rest : List Int} {pq : Int × Int}
    (h : pq ∈ adjPairs rest) : pq ∈ adjPairs (x :: rest) := by
  cases rest with
  | nil => exact absurd h (by simp [adjPairs])
  | cons y t => rw [adjPairs_cons_cons]; exact List.mem_cons_of_mem _ h

theorem mem_of_adjPairs : ∀ {cuts : List Int} {pq : Int × Int},
    pq ∈ adjPairs cuts → pq.1 ∈ cuts ∧ pq.2 ∈ cuts := by
  intro cuts
  induction cuts with
  | nil => intro pq h; exact absurd h (by simp [adjPairs])
  | cons x rest ih =>
    intro pq h
    cases rest with
    | nil => exact absurd h (by simp [adjPairs])
    | cons y t =>
      rw [adjPairs_cons_cons] at h
      rcases List.mem_cons.1 h with rfl | h
      · exact ⟨List.mem_cons_self _ _, List.mem_cons_of_mem _ (List.mem_cons_self _ _)⟩
      · obtain ⟨h1, h2⟩ := ih h
        exact ⟨List.mem_cons_of_mem _ h1, List.mem_cons_of_mem _ h2⟩

theorem adjPairs_lt : ∀ {cuts : List Int}, List.Sorted (· < ·) cuts →
    ∀ {pq : Int × Int}, pq ∈ adjPairs cuts → pq.1 < pq.2 := by
  intro cuts
  induction cuts with
  | nil => intro _ pq h; exact absurd h (by simp [adjPairs])
  | cons x rest ih =>
    intro hs pq h
    cases rest with
    | nil => exact absurd h (by simp [adjPairs])
    | cons y t =>
      rw [adjPairs_cons_cons] at h
      rcases List.mem_cons.1 h with rfl | h
      · exact List.rel_of_sorted_cons hs _ (List.mem_cons_self _ _)
      · exact ih ((List.sorted_cons.1 hs).2) h

/-- Every element of a sorted list lies on one side of an adjacent
pair. -/
theorem adjPairs_sep : ∀ {cuts : List Int}, List.Sorted (· < ·) cuts →
    ∀ {pq : Int × Int}, pq ∈ adjPairs cuts →
    ∀ z ∈ cuts, z ≤ pq.1 ∨ pq.2 ≤ z := by
  intro cuts
  induction cuts with
  | nil => intro _ pq h; exact absurd h (by simp [adjPairs])
  | cons x rest ih =>
    intro hs pq h z hz
    cases rest with
    | nil => exact absurd h (by simp [adjPairs])
    | cons y t =>
      rw [adjPairs_cons_cons] at h
      rcases List.mem_cons.1 h with rfl | htl
      · rcases List.mem_cons.1 hz with rfl | hz
        · exact Or.inl le_rfl
        · refine Or.inr ?_
          rcases List.mem_cons.1 hz with rfl | hz'
          · exact le_rfl
          · exact le_of_lt (List.rel_of_sorted_cons
              (List.sorted_cons.1 hs).2 _ hz')
      · have hy : pq.1 ∈ y :: t := (mem_of_adjPairs htl).1
        rcases List.mem_cons.1 hz with rfl | hz
        · exact Or.inl (le_of_lt (List.rel_of_sorted_cons hs _ hy))
        · exact ih (List.sorted_cons.1 hs).2 htl z hz

/-- Two members of a sorted list separated by the rest of the list are
adjacent. -/
theorem adjPairs_of_sep : ∀ {cuts : List Int}, List.Sorted (· < ·) cuts →
    ∀ {p q : Int}, p ∈ cuts → q ∈ cuts → p < q →
    (∀ z ∈ cuts, z ≤ p ∨ q ≤ z) → (p, q) ∈ adjPairs cuts := by
  intro cuts
  induction cuts with
  | nil => intro _ p q hp _ _ _; exact absurd hp (by simp)
  | cons x rest ih =>
    intro hs p q hp hq hpq hsep
    have hxrest : ∀ z ∈ rest, x < z := List.rel_of_sorted_cons hs
    cases rest with
    | nil =>
      rcases List.mem_cons.1 hp with rfl | hp'
      · rcases List.mem_cons.1 hq with rfl | hq'
        · omega
        · exact absurd hq' (by simp)
      · exact absurd hp' (by simp)
    | cons y t =>
      rcases List.mem_cons.1 hp with rfl | hp'
      · -- p = x; show y = q, giving adjacency at the head
        have hyq : y ≤ q := by
          rcases List.mem_cons.1 hq with rfl | hq'
          · omega
          · rcases List.mem_cons.1 hq' with rfl | hq''
            · exact le_rfl
            · exact le_of_lt (List.rel_of_sorted_cons
                (List.sorted_cons.1 hs).2 _ hq'')
        have hy : y ≤ p ∨ q ≤ y :=
          hsep y (List.mem_cons_of_mem _ (List.mem_cons_self _ _))
        have hxy : p < y := hxrest y (List.mem_cons_self _ _)
        have : y = q := by omega
        subst this
        rw [adjPairs_cons_cons]
        exact List.mem_cons_self _ _
      · -- p ∈ rest, hence q ∈ rest as well, recurse
        have hxp : x < p := hxrest p hp'
        have hq' : q ∈ y :: t := by
          rcases List.mem_cons.1 hq with rfl | hq'
          · exact absurd hxp (by omega)
          · exact hq'
        exact adjPairs_sub (ih (List.sorted_cons.1 hs).2 hp' hq' hpq
          (fun z hz => hsep z (List.mem_cons_of_mem _ hz)))

theorem mem_blocksFromCuts {ps : List (Int × Int)} :
    ∀ {cuts : List Int} {blk : Int × Int},
      (blk ∈ blocksFromCuts ps cuts ↔
        ∃ pq ∈ adjPairs cuts, MemP pq.1 ps ∧ blk = (pq.1, pq.2 - 1)) := by
  intro cuts
  induction cuts with
  | nil => intro blk; simp [blocksFromCuts, adjPairs]
  | cons x rest ih =>
    intro blk
    cases rest with
    | nil => simp [blocksFromCuts, adjPairs]
    | cons y t =>
      rw [show blocksFromCuts ps (x :: y :: t) =
        (if MemP x ps then [(x, y - 1)] else []) ++ blocksFromCuts ps (y :: t)
        from rfl, adjPairs_cons_cons]
      constructor
      · intro h
        rcases List.mem_append.1 h with h | h
        · by_cases hm : MemP x ps
          · rw [if_pos hm] at h
            rcases List.mem_singleton.1 h with rfl
            exact ⟨(x, y), List.mem_cons_self _ _, hm, rfl⟩
          · rw [if_neg hm] at h
            exact absurd h (by simp)
        · obtain ⟨pq, hpq, hm, he⟩ := ih.1 h
          exact ⟨pq, List.mem_cons_of_mem _ hpq, hm, he⟩
      · rintro ⟨pq, hpq, hm, rfl⟩
        rcases List.mem_cons.1 hpq with rfl | hpq'
        · exact List.mem_append.2 (Or.inl (by rw [if_pos hm]; simp))
        · exact List.mem_append.2 (Or.inr (ih.2 ⟨pq, hpq', hm, rfl⟩))

theorem blocksFromCuts_head_lb {ps : List (Int × Int)} :
    ∀ {cuts : List Int}, List.Sorted (· < ·) cuts →
    ∀ {b : Int × Int}, b ∈ blocksFromCuts ps cuts →
    ∀ {hd : Int} {tl : List Int}, cuts = hd :: tl → hd ≤ b.1 := by
  intro cuts hs b hb hd tl he
  subst he
  obtain ⟨pq, hpq, _, rfl⟩ := mem_blocksFromCuts.1 hb
  have h1 := (mem_of_adjPairs hpq).1
  rcases List.mem_cons.1 h1 with h | h
  · omega
  · exact le_of_lt (List.rel_of_sorted_cons hs _ h)

/-- The blocks are strictly increasing (pairwise disjoint, in order). -/
theorem blocksFromCuts_pairwise {ps : List (Int × Int)} :
    ∀ {cuts : List Int}, List.Sorted (· < ·) cuts →
    List.Pairwise (fun b1 b2 : Int × Int => b1.2 < b2.1)
      (blocksFromCuts ps cuts) := by
  intro cuts
  induction cuts with
  | nil => intro _; simp [blocksFromCuts]
  | cons x rest ih =>
    intro hs
    cases rest with
    | nil => simp [blocksFromCuts]
    | cons y t =>
      rw [show blocksFromCuts ps (x :: y :: t) =
        (if MemP x ps then [(x, y - 1)] else []) ++ blocksFromCuts ps (y :: t)
        from rfl]
      have htail := ih (List.sorted_cons.1 hs).2
      by_cases hm : MemP x ps
      · rw [if_pos hm]
        refine List.pairwise_append.2 ⟨by simp, htail, ?_⟩
        intro b1 hb1 b2 hb2
        rcases List.mem_singleton.1 hb1 with rfl
        have := @blocksFromCuts_head_lb ps _
          (List.sorted_cons.1 hs).2 _ hb2 _ _ rfl
        omega
      · rw [if_neg hm]; simpa using htail

theorem blocksFromCuts_wf {ps : List (Int × Int)} {cuts : List Int}
    (hs : List.Sorted (· < ·) cuts) {b : Int × Int}
    (hb : b ∈ blocksFromCuts ps cuts) : b.1 ≤ b.2 := by
  obtain ⟨pq, hpq, _, rfl⟩ := mem_blocksFromCuts.1 hb
  have := adjPairs_lt hs hpq
  omega

theorem cutsOf_sorted (ps : List (Int × Int)) :
    List.Sorted (· < ·) (cutsOf ps) := by
  have hsle : List.Sorted (· ≤ ·) (cutsOf ps) :=
    List.sorted_insertionSort _ _
  have hnd : (cutsOf ps).Nodup :=
    (List.perm_insertionSort _ _).nodup_iff.2 (List.nodup_dedup _)
  exact hsle.lt_of_le hnd

theorem mem_cutsOf {ps : List (Int × Int)} {y : Int} :
    y ∈ cutsOf ps ↔ (∃ p ∈ ps, p.1 = y) ∨ (∃ p ∈ ps, p.2 + 1 = y) := by
  unfold cutsOf
  rw [(List.perm_insertionSort _ _).mem_iff, List.mem_dedup, List.mem_append]
  simp [List.mem_map]

theorem exists_greatest_le {l : List Int} {x c : Int} (hx : x ∈ l)
    (hxc : x ≤ c) : ∃ p ∈ l, p ≤ c ∧ ∀ z ∈ l, z ≤ c → z ≤ p := by
  have hxf : x ∈ l.filter (fun z => decide (z ≤ c)) :=
    List.mem_filter.2 ⟨hx, by simpa using hxc⟩
  obtain ⟨m, hm⟩ : ∃ m, (l.filter (fun z => decide (z ≤ c))).maximum = some m := by
    cases hmax : (l.filter (fun z => decide (z ≤ c))).maximum with
    | bot =>
      rw [List.maximum_eq_bot] at hmax
      rw [hmax] at hxf
      exact absurd hxf (by simp)
    | coe m => exact ⟨m, rfl⟩
  have hmfl := List.mem_filter.1 (List.maximum_mem hm)
  refine ⟨m, hmfl.1, by simpa using hmfl.2, ?_⟩
  intro z hz hzc
  exact List.le_maximum_of_mem (List.mem_filter.2 ⟨hz, by simpa using hzc⟩) hm

theorem exists_least_gt {l : List Int} {x c : Int} (hx : x ∈ l)
    (hxc : c < x) : ∃ q ∈ l, c < q ∧ ∀ z ∈ l, c < z → q ≤ z := by
  have hxf : x ∈ l.filter (fun z => decide (c < z)) :=
    List.mem_filter.2 ⟨hx, by simpa using hxc⟩
  obtain ⟨m, hm⟩ : ∃ m, (l.filter (fun z => decide (c < z))).minimum = some m := by
    cases hmin : (l.filter (fun z => decide (c < z))).minimum with
    | top =>
      rw [List.minimum_eq_top] at hmin
      rw [hmin] at hxf
      exact absurd hxf (by simp)
    | coe m => exact ⟨m, rfl⟩
  have hmfl := List.mem_filter.1 (List.minimum_mem hm)
  refine ⟨m, hmfl.1, by simpa using hmfl.2, ?_⟩
  intro z hz hzc
  exact List.minimum_le_of_mem (List.mem_filter.2 ⟨hz, by simpa using hzc⟩) hm

/-- Partition exactness, coverage direction: the elementary blocks cover
exactly the union of the input ranges. -/
theorem memP_splitPairs (lists : List (List Int)) (c : Int) :
    (∃ b ∈ splitPairs lists, b.1 ≤ c ∧ c ≤ b.2) ↔ MemP c (allPairs lists) := by
  constructor
  · rintro ⟨b, hb, hc1, hc2⟩
    obtain ⟨pq, hpq, hmem, he⟩ := mem_blocksFromCuts.1 hb
    obtain ⟨pr, hpr, hp1, hp2⟩ := hmem
    have hsorted := cutsOf_sorted (allPairs lists)
    have hsep := adjPairs_sep hsorted hpq
    -- c lies in [pq.1, pq.2 - 1]; show the covering pair of pq.1 covers c
    rw [he] at hc1 hc2
    simp only at hc1 hc2
    have hcpr : c ≤ pr.2 := by
      by_contra hgt
      have hz : pr.2 + 1 ∈ cutsOf (allPairs lists) :=
        mem_cutsOf.2 (Or.inr ⟨pr, hpr, rfl⟩)
      have hlt := adjPairs_lt hsorted hpq
      rcases hsep _ hz with h | h
      · omega
      · omega
    exact ⟨pr, hpr, by omega, hcpr⟩
  · rintro ⟨pr, hpr, hp1, hp2⟩
    have hlo : pr.1 ∈ cutsOf (allPairs lists) :=
      mem_cutsOf.2 (Or.inl ⟨pr, hpr, rfl⟩)
    have hhi : pr.2 + 1 ∈ cutsOf (allPairs lists) :=
      mem_cutsOf.2 (Or.inr ⟨pr, hpr, rfl⟩)
    obtain ⟨p, hpmem, hpc, hpmax⟩ := exists_greatest_le hlo hp1
    obtain ⟨q, hqmem, hqc, hqmin⟩ := exists_least_gt (c := c) hhi (by omega)
    have hsorted := cutsOf_sorted (allPairs lists)
    have hadj : (p, q) ∈ adjPairs (cutsOf (allPairs lists)) := by
      refine adjPairs_of_sep hsorted hpmem hqmem (by omega) ?_
      intro z hz
      by_cases hzc : z ≤ c
      · exact Or.inl (hpmax z hz hzc)
      · exact Or.inr (hqmin z hz (by omega))
    have hppr : MemP p (allPairs lists) :=
      ⟨pr, hpr, hpmax pr.1 hlo hp1, by omega⟩
    refine ⟨(p, q - 1), mem_blocksFromCuts.2 ⟨(p, q), hadj, hppr, rfl⟩, ?_, ?_⟩
    · exact hpc
    · simp only
      omega

theorem splitPairs_pairwise (lists : List (List Int)) :
    List.Pairwise (fun b1 b2 : Int × Int => b1.2 < b2.1)
      (splitPairs lists) :=
  blocksFromCuts_pairwise (cutsOf_sorted _)

theorem splitPairs_wf {lists : List (List Int)} {b : Int × Int}
    (hb : b ∈ splitPairs lists) : b.1 ≤ b.2 :=
  blocksFromCuts_wf (cutsOf_sorted _) hb

theorem memP_congr {ps1 ps2 : List (Int × Int)} (h : ps1.Perm ps2)
    (x : Int) : MemP x ps1 ↔ MemP x ps2 := by
  unfold MemP
  constructor
  · rintro ⟨p, hp, hc⟩; exact ⟨p, h.subset hp, hc⟩
  · rintro ⟨p, hp, hc⟩; exact ⟨p, h.symm.subset hp, hc⟩

theorem blocksFromCuts_congr {ps1 ps2 : List (Int × Int)}
    (h : ∀ x, MemP x ps1 ↔ MemP x ps2) :
    ∀ cuts, blocksFromCuts ps1 cuts = blocksFromCuts ps2 cuts := by
  intro cuts
  induction cuts with
  | nil => rfl
  | cons x rest ih =>
    cases rest with
    | nil => rfl
    | cons y t =>
      show (if MemP x ps1 then [(x, y - 1)] else []) ++ _ =
        (if MemP x ps2 then [(x, y - 1)] else []) ++ _
      rw [ih]
      by_cases hm : MemP x ps1
      · rw [if_pos hm, if_pos ((h x).1 hm)]
      · rw [if_neg hm, if_neg (fun hc => hm ((h x).2 hc))]

theorem cutsOf_congr {ps1 ps2 : List (Int × Int)} (h : ps1.Perm ps2) :
    cutsOf ps1 = cutsOf ps2 := by
  unfold cutsOf
  refine List.eq_of_perm_of_sorted ?_
    (List.sorted_insertionSort _ _) (List.sorted_insertionSort _ _)
  exact (List.perm_insertionSort _ _).trans
    ((((h.map _).append (h.map _)).dedup).trans
      (List.perm_insertionSort _ _).symm)

/-- `Split` only depends on the collection of ranges up to permutation
(the spec describes its output as "the unique set of maximal elementary
sub-ranges"). -/
theorem splitPairs_perm {l1 l2 : List (List Int)} (h : l1.Perm l2) :
    splitPairs l1 = splitPairs l2 := by
  unfold splitPairs
  have hap : (allPairs l1).Perm (allPairs l2) :=
    List.Perm.flatMap_right toPairs h
  rw [cutsOf_congr hap, blocksFromCuts_congr (memP_congr hap)]

end RuneRange

/-! ### The DFA as consumed by the intersection search -/

/-- A built DFA graph: states are indices; `final` is `dfa.Node.Final`;
`trans` is `dfa.Node.Transitions` — the ordered list of `(RuneRanges,
Node)` pairs.  The Go code identifies nodes by the `State` integer,
unique within one build, which the index models. -/
structure Dfa (n : Nat) where
  final : Fin n → Bool
  trans : Fin n → List (List Int × Fin n)

namespace Dfa

/-- `dfa.Node.NextState` (from the source): return the target of the
first transition whose range list `Contains` the probe; `nil` (here
`none`) when no transition matches. -/
def nextState {n : Nat} (d : Dfa n) (s : Fin n) (r : List Int) :
    Option (Fin n) :=
  (d.trans s).findSome?
    (fun t => if RuneRange.Contains t.1 r then some t.2 else none)

end Dfa

namespace Intersection

open RuneRange

/-- `intersection.findNextNodes` (from the source): all transition
targets whose ranges overlap `r`, in transition order. -/
def findNextNodes {n : Nat} (d : Dfa n) (s : Fin n) (r : List Int) :
    List (Fin n) :=
  (d.trans s).filterMap
    (fun t => if Overlaps t.1 r then some t.2 else none)

/-- `intersection.findOverlapRanges` (from the source): the overlap of
every overlapping pair of transitions, in nested-loop order.  The
`RangeInfo` node fields are never read by `dfs`, so only the ranges are
kept. -/
def findOverlapRanges {n1 n2 : Nat} (ts1 : List (List Int × Fin n1))
    (ts2 : List (List Int × Fin n2)) : List (List Int) :=
  ts1.flatMap (fun t1 => ts2.filterMap (fun t2 =>
    if Overlaps t1.1 t2.1 then some (findOverlap t1.1 t2.1) else none))

/-- One expansion of the product search: the Combine nodes pushed for
the popped pair `p`, in push order (loop body of `dfs`). -/
def pushList {n1 n2 : Nat} (d1 : Dfa n1) (d2 : Dfa n2)
    (visited : Finset (Fin n1 × Fin n2)) (p : Fin n1 × Fin n2) :
    List (Fin n1 × Fin n2) :=
  (findOverlapRanges (d1.trans p.1) (d2.trans p.2)).flatMap (fun r =>
    (findNextNodes d1 p.1 r).flatMap (fun m1 =>
      (findNextNodes d2 p.2 r).filterMap (fun m2 =>
        if (m1, m2) ∈ visited then none else some (m1, m2))))

/-- `intersection.dfs` (from the source): explicit-stack depth-first
search over Combine nodes keyed by the pair of DFA state ids
(`nodeName`).  The Go slice keeps its top at the end; the model keeps
the top at the head, so a pushed batch is prepended reversed.  A
Combine node's `Final` field is always `node1.Final && node2.Final`
(`createNode`), so the stack holds just the state pairs. -/
def dfsLoop {n1 n2 : Nat} (d1 : Dfa n1) (d2 : Dfa n2) :
    Nat → List (Fin n1 × Fin n2) → Finset (Fin n1 × Fin n2) → Option Bool
  | 0, _, _ => none
  | _ + 1, [], _ => some false
  | fuel + 1, p :: stack, visited =>
    if p ∈ visited then dfsLoop d1 d2 fuel stack visited
    else
      if d1.final p.1 && d2.final p.2 then some true
      else
        dfsLoop d1 d2 fuel
          ((pushList d1 d2 (insert p visited) p).reverse ++ stack)
          (insert p visited)

/-- An upper bound on the number of nodes one expansion can push. -/
def dfsBound {n1 n2 : Nat} (d1 : Dfa n1) (d2 : Dfa n2) : Nat :=
  Finset.univ.sup
    (fun p : Fin n1 × Fin n2 => (pushList d1 d2 ∅ p).length)

/-- The fuel with which the loop provably finishes. -/
def dfsFuel {n1 n2 : Nat} (d1 : Dfa n1) (d2 : Dfa n2) : Nat :=
  n1 * n2 * (dfsBound d1 d2 + 1) + 2

/-- The boolean produced by `dfs` seeded with the Combine node of the
two roots (`createNode` + `dfs` in `HasIntersection`). -/
def dfs {n1 n2 : Nat} (d1 : Dfa n1) (d2 : Dfa n2) (s1 : Fin n1)
    (s2 : Fin n2) : Bool :=
  (dfsLoop d1 d2 (dfsFuel d1 d2) [(s1, s2)] ∅).getD false

/-- The step relation of the product search, read off the loop body:
one overlap range of the two transition lists, and one overlapping
target on each side. -/
def Step {n1 n2 : Nat} (d1 : Dfa n1) (d2 : Dfa n2)
    (p q : Fin n1 × Fin n2) : Prop :=
  ∃ r ∈ findOverlapRanges (d1.trans p.1) (d2.trans p.2),
    q.1 ∈ findNextNodes d1 p.1 r ∧ q.2 ∈ findNextNodes d2 p.2 r

/-- Reachability in the product graph. -/
def Reach {n1 n2 : Nat} (d1 : Dfa n1) (d2 : Dfa n2) :
    Fin n1 × Fin n2 → Fin n1 × Fin n2 → Prop :=
  Relation.ReflTransGen (Step d1 d2)

/-- A jointly-final Combine node (`CombineNode.Final`). -/
def FinalPair {n1 n2 : Nat} (d1 : Dfa n1) (d2 : Dfa n2)
    (p : Fin n1 × Fin n2) : Prop :=
  d1.final p.1 = true ∧ d2.final p.2 = true

theorem mem_findNextNodes {n : Nat} {d : Dfa n} {s : Fin n}
    {r : List Int} {q : Fin n} :
    q ∈ findNextNodes d s r ↔
      ∃ t ∈ d.trans s, Overlaps t.1 r ∧ t.2 = q := by
  unfold findNextNodes
  rw [List.mem_filterMap]
  constructor
  · rintro ⟨t, ht, he⟩
    by_cases hc : Overlaps t.1 r
    · rw [if_pos hc] at he
      exact ⟨t, ht, hc, Option.some.inj he⟩
    · rw [if_neg hc] at he; cases he
  · rintro ⟨t, ht, hc, rfl⟩
    exact ⟨t, ht, by rw [if_pos hc]⟩

theorem mem_findOverlapRanges {n1 n2 : Nat} {ts1 : List (List Int × Fin n1)}
    {ts2 : List (List Int × Fin n2)} {r : List Int} :
    r ∈ findOverlapRanges ts1 ts2 ↔
      ∃ t1 ∈ ts1, ∃ t2 ∈ ts2, Overlaps t1.1 t2.1 ∧
        r = findOverlap t1.1 t2.1 := by
  unfold findOverlapRanges
  rw [List.mem_flatMap]
  constructor
  · rintro ⟨t1, ht1, hmem⟩
    obtain ⟨t2, ht2, he⟩ := List.mem_filterMap.1 hmem
    by_cases hc : Overlaps t1.1 t2.1
    · rw [if_pos hc] at he
      exact ⟨t1, ht1, t2, ht2, hc, (Option.some.inj he).symm⟩
    · rw [if_neg hc] at he; cases he
  · rintro ⟨t1, ht1, t2, ht2, hc, rfl⟩
    exact ⟨t1, ht1, List.mem_filterMap.2 ⟨t2, ht2, by rw [if_pos hc]⟩⟩

theorem mem_pushList {n1 n2 : Nat} {d1 : Dfa n1} {d2 : Dfa n2}
    {visited : Finset (Fin n1 × Fin n2)} {p q : Fin n1 × Fin n2} :
    q ∈ pushList d1 d2 visited p ↔ Step d1 d2 p q ∧ q ∉ visited := by
  unfold pushList Step
  rw [List.mem_flatMap]
  constructor
  · rintro ⟨r, hr, hmem⟩
    obtain ⟨m1, hm1, hmem2⟩ := List.mem_flatMap.1 hmem
    obtain ⟨m2, hm2, he⟩ := List.mem_filterMap.1 hmem2
    by_cases hv : (m1, m2) ∈ visited
    · rw [if_pos hv] at he; cases he
    · rw [if_neg hv] at he
      cases Option.some.inj he
      exact ⟨⟨r, hr, hm1, hm2⟩, hv⟩
  · rintro ⟨⟨r, hr, hm1, hm2⟩, hv⟩
    refine ⟨r, hr, List.mem_flatMap.2 ⟨q.1, hm1,
      List.mem_filterMap.2 ⟨q.2, hm2, ?_⟩⟩⟩
    rw [if_neg (by simpa using hv)]

/-! #### Termination of the search -/

theorem length_filterMap_le_aux {α β : Type} (l : List α)
    (f g : α → Option β)
    (h : ∀ x y, f x = some y → ∃ z, g x = some z) :
    (l.filterMap f).length ≤ (l.filterMap g).length := by
  induction l with
  | nil => simp
  | cons x rest ih =>
    rw [List.filterMap_cons, List.filterMap_cons]
    cases hf : f x with
    | none =>
      cases hg : g x with
      | none => exact ih
      | some z => simp only [List.length_cons]; omega
    | some y =>
      obtain ⟨z, hz⟩ := h x y hf
      rw [hz]
      simp only [List.length_cons]
      omega

theorem length_flatMap_le_aux {α β : Type} (l : List α)
    (f g : α → List β) (h : ∀ x, (f x).length ≤ (g x).length) :
    (l.flatMap f).length ≤ (l.flatMap g).length := by
  induction l with
  | nil => simp
  | cons x rest ih =>
    rw [List.flatMap_cons, List.flatMap_cons, List.length_append,
      List.length_append]
    exact Nat.add_le_add (h x) ih

theorem pushList_length_le {n1 n2 : Nat} (d1 : Dfa n1) (d2 : Dfa n2)
    (visited : Finset (Fin n1 × Fin n2)) (p : Fin n1 × Fin n2) :
    (pushList d1 d2 visited p).length ≤ (pushList d1 d2 ∅ p).length := by
  unfold pushList
  refine length_flatMap_le_aux _ _ _ (fun r => ?_)
  refine length_flatMap_le_aux _ _ _ (fun m1 => ?_)
  refine length_filterMap_le_aux _ _ _ (fun m2 q he => ?_)
  by_cases hv : (m1, m2) ∈ visited
  · rw [if_pos hv] at he; cases he
  · exact ⟨(m1, m2), by simp⟩

theorem pushList_length_le_bound {n1 n2 : Nat} (d1 : Dfa n1) (d2 : Dfa n2)
    (visited : Finset (Fin n1 × Fin n2)) (p : Fin n1 × Fin n2) :
    (pushList d1 d2 visited p).length ≤ dfsBound d1 d2 := by
  unfold dfsBound
  exact le_trans (pushList_length_le d1 d2 visited p)
    (Finset.le_sup (f := fun p : Fin n1 × Fin n2 =>
      (pushList d1 d2 ∅ p).length) (Finset.mem_univ p))

theorem visited_card_lt {n1 n2 : Nat}
    {visited : Finset (Fin n1 × Fin n2)} {p : Fin n1 × Fin n2}
    (hp : p ∉ visited) : visited.card < n1 * n2 := by
  have h1 : visited.card < Fintype.card (Fin n1 × Fin n2) :=
    Finset.card_lt_card
      (Finset.ssubset_univ_iff.2 (fun he => hp (he ▸ Finset.mem_univ p)))
  simpa using h1

/-- The search halts (with enough fuel): each iteration either shrinks
the stack or marks a fresh pair, and only a freshly marked pair can grow
the stack, by at most `dfsBound`. -/
theorem dfsLoop_isSome {n1 n2 : Nat} (d1 : Dfa n1) (d2 : Dfa n2) :
    ∀ (fuel : Nat) (stack : List (Fin n1 × Fin n2))
      (visited : Finset (Fin n1 × Fin n2)),
      stack.length + (n1 * n2 - visited.card) * (dfsBound d1 d2 + 1) < fuel →
      (dfsLoop d1 d2 fuel stack visited).isSome = true := by
  intro fuel
  induction fuel with
  | zero => intro stack visited h; omega
  | succ n ih =>
    intro stack visited h
    match stack with
    | [] => rfl
    | p :: rest =>
      show (if p ∈ visited then _ else _ : Option Bool).isSome = true
      by_cases hv : p ∈ visited
      · rw [if_pos hv]
        refine ih rest visited ?_
        simp only [List.length_cons] at h
        omega
      · rw [if_neg hv]
        by_cases hf : d1.final p.1 && d2.final p.2
        · rw [if_pos hf]; rfl
        · rw [if_neg hf]
          refine ih _ _ ?_
          have hlen : (pushList d1 d2 (insert p visited) p).length ≤
              dfsBound d1 d2 := pushList_length_le_bound _ _ _ _
          have hcard : (insert p visited).card = visited.card + 1 :=
            Finset.card_insert_of_not_mem hv
          have hlt : visited.card < n1 * n2 := visited_card_lt hv
          rw [List.length_append, List.length_reverse, hcard]
          simp only [List.length_cons] at h
          have : n1 * n2 - (visited.card + 1) + 1 = n1 * n2 - visited.card := by
            omega
          have hexp : (n1 * n2 - visited.card) * (dfsBound d1 d2 + 1) =
              (n1 * n2 - (visited.card + 1)) * (dfsBound d1 d2 + 1) +
                (dfsBound d1 d2 + 1) := by
            rw [show n1 * n2 - visited.card =
              (n1 * n2 - (visited.card + 1)) + 1 by omega]
            ring
          omega

/-! #### Soundness of the two answers -/

theorem dfsLoop_true_sound {n1 n2 : Nat} {d1 : Dfa n1} {d2 : Dfa n2}
    {root : Fin n1 × Fin n2} :
    ∀ (fuel : Nat) (stack : List (Fin n1 × Fin n2))
      (visited : Finset (Fin n1 × Fin n2)),
      (∀ s ∈ stack, Reach d1 d2 root s) →
      dfsLoop d1 d2 fuel stack visited = some true →
      ∃ q, Reach d1 d2 root q ∧ FinalPair d1 d2 q := by
  intro fuel
  induction fuel with
  | zero => intro stack visited _ h; cases h
  | succ n ih =>
    intro stack visited hreach h
    match stack with
    | [] => cases h
    | p :: rest =>
      rw [show dfsLoop d1 d2 (n + 1) (p :: rest) visited =
        if p ∈ visited then dfsLoop d1 d2 n rest visited
        else if d1.final p.1 && d2.final p.2 then some true
        else dfsLoop d1 d2 n
          ((pushList d1 d2 (insert p visited) p).reverse ++ rest)
          (insert p visited) from rfl] at h
      by_cases hv : p ∈ visited
      · rw [if_pos hv] at h
        exact ih rest visited
          (fun s hs => hreach s (List.mem_cons_of_mem _ hs)) h
      · rw [if_neg hv] at h
        by_cases hf : d1.final p.1 && d2.final p.2
        · refine ⟨p, hreach p (List.mem_cons_self _ _), ?_⟩
          simpa [FinalPair, Bool.and_eq_true] using hf
        · rw [if_neg hf] at h
          refine ih _ _ ?_ h
          intro s hs
          rcases List.mem_append.1 hs with hs | hs
          · have hstep : Step d1 d2 p s :=
              (mem_pushList.1 (List.mem_reverse.1 hs)).1
            exact Relation.ReflTransGen.tail
              (hreach p (List.mem_cons_self _ _)) hstep
          · exact hreach s (List.mem_cons_of_mem _ hs)

theorem dfsLoop_false_sound {n1 n2 : Nat} {d1 : Dfa n1} {d2 : Dfa n2} :
    ∀ (fuel : Nat) (stack : List (Fin n1 × Fin n2))
      (visited : Finset (Fin n1 × Fin n2)),
      (∀ v ∈ visited, ¬ FinalPair d1 d2 v) →
      (∀ v ∈ visited, ∀ w, Step d1 d2 v w → w ∈ visited ∨ w ∈ stack) →
      dfsLoop d1 d2 fuel stack visited = some false →
      ∀ q, (q ∈ visited ∨ q ∈ stack) →
        ∀ z, Reach d1 d2 q z → ¬ FinalPair d1 d2 z := by
  intro fuel
  induction fuel with
  | zero => intro stack visited _ _ h; cases h
  | succ n ih =>
    intro stack visited hnf hclosed h
    match stack with
    | [] =>
      intro q hq z hz
      have hqv : q ∈ visited := by
        rcases hq with hq | hq
        · exact hq
        · exact absurd hq (by simp)
      have hzin : z ∈ visited := by
        clear h
        induction hz with
        | refl => exact hqv
        | tail hyz hstep ihz =>
          rcases hclosed _ ihz _ hstep with h | h
          · exact h
          · exact absurd h (by simp)
      exact hnf z hzin
    | p :: rest =>
      rw [show dfsLoop d1 d2 (n + 1) (p :: rest) visited =
        if p ∈ visited then dfsLoop d1 d2 n rest visited
        else if d1.final p.1 && d2.final p.2 then some true
        else dfsLoop d1 d2 n
          ((pushList d1 d2 (insert p visited) p).reverse ++ rest)
          (insert p visited) from rfl] at h
      by_cases hv : p ∈ visited
      · rw [if_pos hv] at h
        have hclosed' : ∀ v ∈ visited, ∀ w, Step d1 d2 v w →
            w ∈ visited ∨ w ∈ rest := by
          intro v hvv w hw
          rcases hclosed v hvv w hw with h' | h'
          · exact Or.inl h'
          · rcases List.mem_cons.1 h' with rfl | h'
            · exact Or.inl hv
            · exact Or.inr h'
        intro q hq
        refine ih rest visited hnf hclosed' h q ?_
        rcases hq with hq | hq
        · exact Or.inl hq
        · rcases List.mem_cons.1 hq with rfl | hq
          · exact Or.inl hv
          · exact Or.inr hq
      · rw [if_neg hv] at h
        by_cases hf : d1.final p.1 && d2.final p.2
        · rw [if_pos hf] at h; cases h
        · rw [if_neg hf] at h
          have hnf' : ∀ v ∈ insert p visited, ¬ FinalPair d1 d2 v := by
            intro v hvv
            rcases Finset.mem_insert.1 hvv with rfl | hvv
            · intro ⟨h1, h2⟩
              exact hf (by rw [h1, h2]; rfl)
            · exact hnf v hvv
          have hclosed' : ∀ v ∈ insert p visited, ∀ w, Step d1 d2 v w →
              w ∈ insert p visited ∨
                w ∈ (pushList d1 d2 (insert p visited) p).reverse ++ rest := by
            intro v hvv w hw
            rcases Finset.mem_insert.1 hvv with rfl | hvv
            · by_cases hwv : w ∈ insert v visited
              · exact Or.inl hwv
              · exact Or.inr (List.mem_append.2 (Or.inl
                  (List.mem_reverse.2 (mem_pushList.2 ⟨hw, hwv⟩))))
            · rcases hclosed v hvv w hw with h' | h'
              · exact Or.inl (Finset.mem_insert_of_mem h')
              · rcases List.mem_cons.1 h' with rfl | h'
                · exact Or.inl (Finset.mem_insert_self _ _)
                · exact Or.inr (List.mem_append.2 (Or.inr h'))
          intro q hq
          refine ih _ _ hnf' hclosed' h q ?_
          rcases hq with hq | hq
          · exact Or.inl (Finset.mem_insert_of_mem hq)
          · rcases List.mem_cons.1 hq with rfl | hq
            · exact Or.inl (Finset.mem_insert_self _ _)
            · exact Or.inr (List.mem_append.2 (Or.inr hq))

/-- The answer of one `dfs` run characterised by product reachability. -/
theorem dfs_eq_true_iff {n1 n2 : Nat} (d1 : Dfa n1) (d2 : Dfa n2)
    (s1 : Fin n1) (s2 : Fin n2) :
    dfs d1 d2 s1 s2 = true ↔
      ∃ q, Reach d1 d2 (s1, s2) q ∧ FinalPair d1 d2 q := by
  have hsome : (dfsLoop d1 d2 (dfsFuel d1 d2) [(s1, s2)] ∅).isSome = true := by
    refine dfsLoop_isSome d1 d2 _ _ _ ?_
    show 1 + (n1 * n2 - 0) * (dfsBound d1 d2 + 1) < n1 * n2 * (dfsBound d1 d2 + 1) + 2
    simp only [Nat.sub_zero, Finset.card_empty]
    omega
  unfold dfs
  cases hrun : dfsLoop d1 d2 (dfsFuel d1 d2) [(s1, s2)] ∅ with
  | none => rw [hrun] at hsome; cases hsome
  | some b =>
    cases b with
    | true =>
      simp only [Option.getD_some]
      constructor
      · intro _
        exact dfsLoop_true_sound _ _ _
          (fun s hs => by
            rcases List.mem_cons.1 hs with rfl | hs
            · exact Relation.ReflTransGen.refl
            · exact absurd hs (by simp)) hrun
      · intro _; trivial
    | false =>
      simp only [Option.getD_some]
      constructor
      · intro h; cases h
      · rintro ⟨q, hq, hfq⟩
        exact absurd hfq (dfsLoop_false_sound _ _ _ (by simp) (by simp) hrun
          (s1, s2) (Or.inr (List.mem_cons_self _ _)) q hq)

/-! #### Wellformedness of a built DFA and symmetry of the search -/

/-- Per-node wellformedness, as established by the subset construction:
every transition's range list is sorted and disjoint, and ranges of
different transitions never overlap (the DFA determinism invariant). -/
def TransWF {n : Nat} (ts : List (List Int × Fin n)) : Prop :=
  (∀ t ∈ ts, sortedDisjoint t.1) ∧
  List.Pairwise (fun t1 t2 : List Int × Fin n => ¬ Overlaps t1.1 t2.1) ts

instance {n : Nat} (ts : List (List Int × Fin n)) : Decidable (TransWF ts) :=
  inferInstanceAs (Decidable (_ ∧ _))

/-- Wellformedness of the whole DFA. -/
def DfaWF {n : Nat} (d : Dfa n) : Prop := ∀ s, TransWF (d.trans s)

instance {n : Nat} (d : Dfa n) : Decidable (DfaWF d) :=
  Fintype.decidableForallFintype

theorem overlaps_symm {a b : List Int} (h : Overlaps a b) : Overlaps b a := by
  obtain ⟨c, h1, h2⟩ := overlaps_iff.1 h
  exact overlaps_iff.2 ⟨c, h2, h1⟩

/-- With disjoint transitions, two transitions covering the same code
point are the same transition. -/
theorem shared_char_eq {n : Nat} {ts : List (List Int × Fin n)}
    (hwf : List.Pairwise (fun t1 t2 : List Int × Fin n => ¬ Overlaps t1.1 t2.1) ts)
    {t1 t2 : List Int × Fin n} (h1 : t1 ∈ ts) (h2 : t2 ∈ ts) {c : Int}
    (hc1 : Mem c t1.1) (hc2 : Mem c t2.1) : t1 = t2 := by
  by_contra hne
  have hsym : Symmetric (fun t1 t2 : List Int × Fin n => ¬ Overlaps t1.1 t2.1) :=
    fun a b hab hov => hab (overlaps_symm hov)
  exact (hwf.forall hsym h1 h2 hne) (overlaps_iff.2 ⟨c, hc1, hc2⟩)

/-- A single-character transition of one DFA. -/
def CharStep {n : Nat} (d : Dfa n) (s t : Fin n) (c : Int) : Prop :=
  ∃ tr ∈ d.trans s, Mem c tr.1 ∧ tr.2 = t

/-- With wellformed DFAs the product step relation is exactly "some
common character takes both DFAs one step". -/
theorem step_iff_char {n1 n2 : Nat} {d1 : Dfa n1} {d2 : Dfa n2}
    (h1 : DfaWF d1) (h2 : DfaWF d2) (p q : Fin n1 × Fin n2) :
    Step d1 d2 p q ↔
      ∃ c : Int, CharStep d1 p.1 q.1 c ∧ CharStep d2 p.2 q.2 c := by
  obtain ⟨p1, p2⟩ := p
  obtain ⟨q1, q2⟩ := q
  constructor
  · rintro ⟨r, hr, hq1, hq2⟩
    obtain ⟨t1, ht1, t2, ht2, hov, rfl⟩ := mem_findOverlapRanges.1 hr
    obtain ⟨lo1, hsd1⟩ := sdFrom_of_sortedDisjoint ((h1 p1).1 t1 ht1)
    obtain ⟨lo2, hsd2⟩ := sdFrom_of_sortedDisjoint ((h2 p2).1 t2 ht2)
    obtain ⟨ta, hta, hova, rfl⟩ := mem_findNextNodes.1 hq1
    obtain ⟨tb, htb, hovb, rfl⟩ := mem_findNextNodes.1 hq2
    obtain ⟨ca, hca1, hca2⟩ := overlaps_iff.1 hova
    rw [mem_findOverlap hsd1 hsd2] at hca2
    have hta1 : ta = t1 := shared_char_eq (h1 p1).2 hta ht1 hca1 hca2.1
    obtain ⟨cb, hcb1, hcb2⟩ := overlaps_iff.1 hovb
    rw [mem_findOverlap hsd1 hsd2] at hcb2
    have htb2 : tb = t2 := shared_char_eq (h2 p2).2 htb ht2 hcb1 hcb2.2
    obtain ⟨c, hc1, hc2⟩ := overlaps_iff.1 hov
    exact ⟨c, ⟨t1, ht1, hc1, by rw [hta1]⟩, ⟨t2, ht2, hc2, by rw [htb2]⟩⟩
  · rintro ⟨c, ⟨t1, ht1, hc1, rfl⟩, ⟨t2, ht2, hc2, rfl⟩⟩
    obtain ⟨lo1, hsd1⟩ := sdFrom_of_sortedDisjoint ((h1 p1).1 t1 ht1)
    obtain ⟨lo2, hsd2⟩ := sdFrom_of_sortedDisjoint ((h2 p2).1 t2 ht2)
    have hov : Overlaps t1.1 t2.1 := overlaps_iff.2 ⟨c, hc1, hc2⟩
    have hcr : Mem c (findOverlap t1.1 t2.1) :=
      (mem_findOverlap hsd1 hsd2 c).2 ⟨hc1, hc2⟩
    refine ⟨findOverlap t1.1 t2.1,
      mem_findOverlapRanges.2 ⟨t1, ht1, t2, ht2, hov, rfl⟩, ?_, ?_⟩
    · exact mem_findNextNodes.2 ⟨t1, ht1, overlaps_iff.2 ⟨c, hc1, hcr⟩, rfl⟩
    · exact mem_findNextNodes.2 ⟨t2, ht2, overlaps_iff.2 ⟨c, hc2, hcr⟩, rfl⟩

theorem step_swap {n1 n2 : Nat} {d1 : Dfa n1} {d2 : Dfa n2}
    (h1 : DfaWF d1) (h2 : DfaWF d2) {p q : Fin n1 × Fin n2} :
    Step d1 d2 p q → Step d2 d1 (p.2, p.1) (q.2, q.1) := by
  intro h
  obtain ⟨c, hc1, hc2⟩ := (step_iff_char h1 h2 p q).1 h
  exact (step_iff_char h2 h1 (p.2, p.1) (q.2, q.1)).2 ⟨c, hc2, hc1⟩

theorem reach_swap {n1 n2 : Nat} {d1 : Dfa n1} {d2 : Dfa n2}
    (h1 : DfaWF d1) (h2 : DfaWF d2) {p q : Fin n1 × Fin n2} :
    Reach d1 d2 p q → Reach d2 d1 (p.2, p.1) (q.2, q.1) := by
  intro h
  induction h with
  | refl => exact Relation.ReflTransGen.refl
  | tail _ hstep ih =>
    exact Relation.ReflTransGen.tail ih (step_swap h1 h2 hstep)

/-- Symmetry of the product search over wellformed DFAs. -/
theorem dfs_symm {n1 n2 : Nat} {d1 : Dfa n1} {d2 : Dfa n2}
    (h1 : DfaWF d1) (h2 : DfaWF d2) (s1 : Fin n1) (s2 : Fin n2) :
    dfs d1 d2 s1 s2 = dfs d2 d1 s2 s1 := by
  have hiff1 := dfs_eq_true_iff d1 d2 s1 s2
  have hiff2 := dfs_eq_true_iff d2 d1 s2 s1
  cases hb : dfs d1 d2 s1 s2 <;> cases hb' : dfs d2 d1 s2 s1 <;> try rfl
  · exfalso
    obtain ⟨q, hq, hfq⟩ := hiff2.1 hb'
    have : dfs d1 d2 s1 s2 = true :=
      hiff1.2 ⟨(q.2, q.1), reach_swap h2 h1 hq, hfq.2, hfq.1⟩
    rw [hb] at this; cases this
  · exfalso
    obtain ⟨q, hq, hfq⟩ := hiff1.1 hb
    have : dfs d2 d1 s2 s1 = true :=
      hiff2.2 ⟨(q.2, q.1), reach_swap h1 h2 hq, hfq.2, hfq.1⟩
    rw [hb'] at this; cases this

/-! #### `Node.NextState` -/

theorem contains_single_iff {rs : List Int} {c : Int} :
    Contains rs [c, c] ↔ Mem c rs := by
  unfold Contains
  rw [overlaps_iff]
  constructor
  · rintro ⟨x, hx1, hx2⟩
    have hxc : x = c := by
      rcases hx2 with ⟨p, hp, hl, hh⟩
      simp [toPairs] at hp
      subst hp
      simp at hl hh
      omega
    subst hxc
    exact hx1
  · intro h
    refine ⟨c, h, ⟨(c, c), by simp [toPairs], le_rfl, le_rfl⟩⟩

theorem findFirst_unique {n : Nat} {c : Int} :
    ∀ (ts : List (List Int × Fin n)),
      List.Pairwise (fun t1 t2 : List Int × Fin n => ¬ Overlaps t1.1 t2.1) ts →
      ∀ t ∈ ts, Mem c t.1 →
      ts.findSome? (fun t => if Contains t.1 [c, c] then some t.2 else none) =
        some t.2 := by
  intro ts
  induction ts with
  | nil => intro _ t ht; exact absurd ht (by simp)
  | cons t0 rest ih =>
    intro hpw t ht hc
    rw [List.findSome?_cons]
    by_cases h0 : Contains t0.1 [c, c]
    · rw [if_pos h0]
      rcases List.mem_cons.1 ht with rfl | htr
      · rfl
      · exfalso
        exact (List.rel_of_pairwise_cons hpw htr)
          (overlaps_iff.2 ⟨c, contains_single_iff.1 h0, hc⟩)
    · rw [if_neg h0]
      rcases List.mem_cons.1 ht with rfl | htr
      · exact absurd (contains_single_iff.2 hc) h0
      · exact ih hpw.of_cons t htr hc

/-- The full `dfs` run with the proved fuel always produces an answer. -/
theorem dfsRun_isSome {n1 n2 : Nat} (d1 : Dfa n1) (d2 : Dfa n2)
    (s1 : Fin n1) (s2 : Fin n2) :
    (dfsLoop d1 d2 (dfsFuel d1 d2) [(s1, s2)] ∅).isSome = true := by
  refine dfsLoop_isSome d1 d2 _ _ _ ?_
  show 1 + (n1 * n2 - Finset.card ∅) * (dfsBound d1 d2 + 1) <
    n1 * n2 * (dfsBound d1 d2 + 1) + 2
  simp only [Finset.card_empty, Nat.sub_zero]
  omega

end Intersection

/-! ### Claim theorems settled at the search level -/

/-- C1: for every pair of DFA root nodes, `dfs` returns `true` iff some
Combine node whose `Final` flag is `true` (both underlying DFA nodes
final) is reachable from the root pair via the step relation that
follows overlapping transition ranges of the two DFAs; it returns
`true` when a final pair is popped and `false` exactly when the stack is
exhausted without visiting a final pair. -/
theorem claim_C1 {n1 n2 : Nat} (d1 : Dfa n1) (d2 : Dfa n2) (s1 : Fin n1)
    (s2 : Fin n2) :
    Intersection.dfs d1 d2 s1 s2 = true ↔
      ∃ q, Intersection.Reach d1 d2 (s1, s2) q ∧
        Intersection.FinalPair d1 d2 q :=
  Intersection.dfs_eq_true_iff d1 d2 s1 s2

/-- C4: for every pair of finite DFAs, `dfs` terminates: each pair-id is
expanded at most once, so `|states₁| ⋅ |states₂|` expansions (each
pushing at most `dfsBound` nodes) suffice, and the loop always halts
returning the boolean that `dfs` reports. -/
theorem claim_C4 {n1 n2 : Nat} (d1 : Dfa n1) (d2 : Dfa n2) (s1 : Fin n1)
    (s2 : Fin n2) :
    Intersection.dfsLoop d1 d2
      (n1 * n2 * (Intersection.dfsBound d1 d2 + 1) + 2) [(s1, s2)] ∅ =
      some (Intersection.dfs d1 d2 s1 s2) := by
  have hsome := Intersection.dfsRun_isSome d1 d2 s1 s2
  cases hrun : Intersection.dfsLoop d1 d2 (Intersection.dfsFuel d1 d2)
      [(s1, s2)] ∅ with
  | none => rw [hrun] at hsome; cases hsome
  | some b =>
    show Intersection.dfsLoop d1 d2 (Intersection.dfsFuel d1 d2)
      [(s1, s2)] ∅ = _
    rw [hrun]
    unfold Intersection.dfs
    rw [hrun]
    rfl

/-- The claim C8's notion of minimality: the result of `findOverlap` is
no longer than any sorted disjoint list with the same semantics. -/
def MinimalOverlapAt (a b : List Int) : Prop :=
  ∀ other : List Int, RuneRange.sortedDisjoint other →
    (∀ c : Int, RuneRange.Mem c other ↔
      RuneRange.Mem c (RuneRange.findOverlap a b)) →
    (RuneRange.findOverlap a b).length ≤ other.length

/-- C8, counterexample to minimality: the inputs `{[1,2],[3,4]}` and
`{[1,4]}` are sorted and disjoint, but the walk emits `{[1,2],[3,4]}`,
which covers the same characters as the strictly shorter `{[1,4]}` —
adjacent output ranges are not coalesced. -/
theorem claim_C8_counterexample :
    RuneRange.sortedDisjoint [1, 2, 3, 4] ∧
    RuneRange.sortedDisjoint ([1, 4] : List Int) ∧
    RuneRange.findOverlap [1, 2, 3, 4] [1, 4] = [1, 2, 3, 4] ∧
    ¬ MinimalOverlapAt [1, 2, 3, 4] [1, 4] := by
  refine ⟨by decide, by decide, by decide, ?_⟩
  intro hmin
  have hsem : ∀ c : Int, RuneRange.Mem c [1, 4] ↔
      RuneRange.Mem c (RuneRange.findOverlap [1, 2, 3, 4] [1, 4]) := by
    intro c
    have hn : ¬ RuneRange.Mem c [] := RuneRange.mem_nil c
    rw [show RuneRange.findOverlap [1, 2, 3, 4] [1, 4] = [1, 2, 3, 4]
      from by decide]
    simp only [RuneRange.mem_cons, hn, or_false]
    omega
  have := hmin [1, 4] (by decide) hsem
  rw [show RuneRange.findOverlap [1, 2, 3, 4] [1, 4] = [1, 2, 3, 4]
    from by decide] at this
  simp at this

/-- C8 amended: for sorted disjoint inputs, `findOverlap` returns a
sorted disjoint list covering exactly the characters common to both
inputs (the walk advances past whichever range ends first); the result
is moreover minimal whenever both inputs are canonical (gap-separated),
though not in general, since adjacent output ranges are not coalesced. -/
theorem claim_C8_amended (a b : List Int)
    (ha : RuneRange.sortedDisjoint a) (hb : RuneRange.sortedDisjoint b) :
    (∀ c : Int, RuneRange.Mem c (RuneRange.findOverlap a b) ↔
      RuneRange.Mem c a ∧ RuneRange.Mem c b) ∧
    RuneRange.sortedDisjoint (RuneRange.findOverlap a b) ∧
    (RuneRange.canonicalRR a → RuneRange.canonicalRR b →
      MinimalOverlapAt a b) := by
  obtain ⟨lo1, ha'⟩ := RuneRange.sdFrom_of_sortedDisjoint ha
  obtain ⟨lo2, hb'⟩ := RuneRange.sdFrom_of_sortedDisjoint hb
  refine ⟨fun c => RuneRange.mem_findOverlap ha' hb' c,
    RuneRange.sortedDisjoint_findOverlap ha hb, ?_⟩
  intro hca hcb other hother hsem
  obtain ⟨lo, hcan⟩ := RuneRange.canFrom_of_canonical
    (RuneRange.canonical_findOverlap hca hcb)
  obtain ⟨lo', hother'⟩ := RuneRange.sdFrom_of_sortedDisjoint hother
  exact RuneRange.canonical_min_length other _ lo lo' hcan hother'
    (fun c => (hsem c).symm)

/-- C8 witness: a concrete instance of the amended theorem. -/
theorem claim_C8_witness :
    RuneRange.sortedDisjoint [97, 98] ∧
    RuneRange.sortedDisjoint ([98, 99] : List Int) ∧
    (RuneRange.Mem 98 (RuneRange.findOverlap [97, 98] [98, 99]) ↔
      RuneRange.Mem 98 [97, 98] ∧ RuneRange.Mem 98 [98, 99]) :=
  ⟨by decide, by decide,
    (claim_C8_amended [97, 98] [98, 99] (by decide) (by decide)).1 98⟩

/-- C10: `NextState` returns the target of the first transition whose
range list contains the probe and `nil` when none does; with
pairwise-disjoint transition ranges a single-character probe matches at
most one transition, so any matching transition's target is the result
(the returned node is unique when it exists). -/
theorem claim_C10 {n : Nat} (d : Dfa n) (s : Fin n) (c : Int)
    (hdisj : List.Pairwise
      (fun t1 t2 : List Int × Fin n => ¬ RuneRange.Overlaps t1.1 t2.1)
      (d.trans s)) :
    (Dfa.nextState d s [c, c] = none ↔
      ∀ t ∈ d.trans s, ¬ RuneRange.Contains t.1 [c, c]) ∧
    (∀ t ∈ d.trans s, RuneRange.Contains t.1 [c, c] →
      Dfa.nextState d s [c, c] = some t.2) := by
  constructor
  · unfold Dfa.nextState
    rw [List.findSome?_eq_none_iff]
    constructor
    · intro h t ht hc
      have := h t ht
      rw [if_pos hc] at this
      cases this
    · intro h t ht
      rw [if_neg (h t ht)]
  · intro t ht hc
    exact Intersection.findFirst_unique (d.trans s) hdisj t ht
      (Intersection.contains_single_iff.1 hc)

/-! ### The NFA model and the subset construction (`dfa` package) -/

/-- An edge of `nfa.Node.T`: optional range label `R` (`nil` = ε) and
target `N`. -/
structure NfaEdge (n : Nat) where
  R : Option (List Int)
  N : Fin n
  deriving DecidableEq

/-- An NFA graph over `n` states.  `nfa.Node.S`, the state id unique
within one NFA, is the index itself; `F` is the final flag, `T` the
ordered outgoing edges. -/
structure Nfa (n : Nat) where
  F : Fin n → Bool
  T : Fin n → List (NfaEdge n)

namespace DfaBuild

open RuneRange

/-- Edge-level loop of `dfa.recursiveClosure`: visit ε-successors in
order, threading the visited set; `recFn` is the node-level recursion
one fuel step down. -/
def recClosureEdges {n : Nat}
    (recFn : Fin n → Finset (Fin n) → List (Fin n) × Finset (Fin n)) :
    List (NfaEdge n) → Finset (Fin n) → List (Fin n) × Finset (Fin n)
  | [], visited => ([], visited)
  | e :: rest, visited =>
    match e.R with
    | some _ => recClosureEdges recFn rest visited
    | none =>
      let r1 := recFn e.N visited
      let r2 := recClosureEdges recFn rest r1.2
      (r1.1 ++ r2.1, r2.2)

/-- `dfa.recursiveClosure` (from the source), with structural fuel: the
recursion inserts a fresh state into `visited` before every nested
call, so at fuel `0` (only reachable after `n` insertions) the visited
set is the whole state space and returning `([], visited)` coincides
with the Go visited-check.  The list is the closure in Go's preorder:
the node first, then ε-successor closures in edge order. -/
def recClosureF {n : Nat} (g : Nfa n) :
    Nat → Fin n → Finset (Fin n) → List (Fin n) × Finset (Fin n)
  | 0, _, visited => ([], visited)
  | fuel + 1, node, visited =>
    if node ∈ visited then ([], visited)
    else
      let r := recClosureEdges (recClosureF g fuel) (g.T node)
        (insert node visited)
      (node :: r.1, r.2)

/-- `dfa.closure` (from the source).  The per-build `closureCache` is
keyed by node and always filled with exactly this value (the closure is
a pure function of the node), so the cache is semantically transparent
and omitted. -/
def closure {n : Nat} (g : Nfa n) (node : Fin n) : List (Fin n) :=
  (recClosureF g n node ∅).1

/-- Edge-level loop of `dfa.canReachFinal`, threading the visited set
and short-circuiting on `true`. -/
def canReachEdges {n : Nat}
    (recFn : Fin n → Finset (Fin n) → Bool × Finset (Fin n)) :
    List (NfaEdge n) → Finset (Fin n) → Bool × Finset (Fin n)
  | [], visited => (false, visited)
  | e :: rest, visited =>
    match e.R with
    | some _ => canReachEdges recFn rest visited
    | none =>
      let r := recFn e.N visited
      if r.1 then (true, r.2) else canReachEdges recFn rest r.2

/-- `dfa.canReachFinal` (from the source), fueled like the closure: the
final-flag test precedes the visited test, then the node is marked and
its ε-edges are explored in order. -/
def canReachFinalF {n : Nat} (g : Nfa n) :
    Nat → Fin n → Finset (Fin n) → Bool × Finset (Fin n)
  | 0, _, visited => (false, visited)
  | fuel + 1, node, visited =>
    if g.F node then (true, visited)
    else if node ∈ visited then (false, visited)
    else canReachEdges (canReachFinalF g fuel) (g.T node)
      (insert node visited)

/-- `dfa.isFinal` (from the source): one shared visited set is threaded
through the loop over the closure, and the loop short-circuits at the
first `true`. -/
def isFinal {n : Nat} (g : Nfa n) (cls : List (Fin n)) : Bool :=
  (cls.foldl
    (fun acc s => if acc.1 then acc else canReachFinalF g n s acc.2)
    (false, ∅)).1

/-- `dfa.labelFromClosure` (from the source): the canonical label is the
sorted de-duplicated list of state ids (`makeLabel` joins it with
commas, which is injective on such lists, so the list itself serves as
the label). -/
def labelFromClosure {n : Nat} (cls : List (Fin n)) : List Nat :=
  List.insertionSort (· ≤ ·) ((cls.map Fin.val).dedup)

/-- The per-node data of `dfa.Node` inside a build: `State`, `Final`,
the canonical `label`, the underlying `closures` slice, and
`Transitions` with targets referenced by canonical label (the build
keys `nodesByLabel` by label and never creates two nodes with one
label, so labels are faithful node references). -/
structure BNode (n : Nat) where
  state : Nat
  final : Bool
  label : List Nat
  closures : List (Fin n)
  transitions : List (List Int × List Nat)
  deriving DecidableEq

/-- `dfa.context`: the builder state — the `state` counter and
`nodesByLabel`, kept as an association list in insertion order. -/
structure BCtx (n : Nat) where
  state : Nat
  nodes : List (List Nat × BNode n)
  deriving DecidableEq

/-- Iteration-order oracles standing for Go's randomized map iteration:
`unionOrd` permutes the de-duplicated union in `dfa.union`, `mOrd`
permutes the entries of the per-node map `m` in `constructSubset`
before they are sorted.  Two program runs are two oracle choices. -/
structure MapOrd (n : Nat) where
  unionOrd : List (Fin n) → List (Fin n)
  mOrd : List (List Nat × List Int) → List (List Nat × List Int)

/-- An oracle is lawful when it only permutes. -/
structure Lawful {n : Nat} (ord : MapOrd n) : Prop where
  union_perm : ∀ l, (ord.unionOrd l).Perm l
  m_perm : ∀ l, (ord.mOrd l).Perm l

/-- The identity oracle (one possible iteration order). -/
def idOrd (n : Nat) : MapOrd n := ⟨id, id⟩

theorem idOrd_lawful (n : Nat) : Lawful (idOrd n) :=
  ⟨fun l => List.Perm.refl l, fun l => List.Perm.refl l⟩

/-- The reversing oracle (another possible iteration order). -/
def revOrd (n : Nat) : MapOrd n := ⟨List.reverse, List.reverse⟩

theorem revOrd_lawful (n : Nat) : Lawful (revOrd n) :=
  ⟨fun l => List.reverse_perm l, fun l => List.reverse_perm l⟩

/-- `dfa.union` (from the source): a single closure is returned as-is
(no copy, no de-duplication); otherwise the closures are de-duplicated
through a map whose iteration order the oracle chooses. -/
def union {n : Nat} (ord : MapOrd n) (clss : List (List (Fin n))) :
    List (Fin n) :=
  match clss with
  | [c] => c
  | _ => ord.unionOrd clss.flatten.dedup

/-- `dfa.closuresForRange` (from the source): for every node of the
closure and every edge whose ranges `Contains` the probe block, the
closure of the edge target, in iteration order.  An ε edge has `R =
nil`, and `Contains(nil, rr)` is false, so ε edges never match. -/
def closuresForRange {n : Nat} (g : Nfa n) (rootCls : List (Fin n))
    (blk : List Int) : List (List (Fin n)) :=
  rootCls.flatMap (fun c => (g.T c).filterMap (fun t =>
    if Contains (t.R.getD []) blk then some (closure g t.N) else none))

/-- The range lists collected by `constructSubset` for `Split`: every
edge of every closure node contributes `t.R` (`nil`, i.e. `[]`, for ε
edges). -/
def rangesOf {n : Nat} (g : Nfa n) (rootCls : List (Fin n)) :
    List (List Int) :=
  rootCls.flatMap (fun c => (g.T c).map (fun t => t.R.getD []))

/-- The in-place map update `m[node] = Sum(m[node], block)`; a missing
key reads as `nil`. -/
def mUpdate : List (List Nat × List Int) → List Nat → List Int →
    List (List Nat × List Int)
  | [], lab, blk => [(lab, Sum [] blk)]
  | (l, rr) :: rest, lab, blk =>
    if l = lab then (l, Sum rr blk) :: rest
    else (l, rr) :: mUpdate rest lab blk

/-- The comparator of the `sort.Slice` call in `constructSubset` (from
the source): when both nodes have non-empty `closures`, compare the
state ids of the FIRST closure elements; otherwise compare the node
`State`s. -/
def goLess {n : Nat} (a b : BNode n) : Bool :=
  match a.closures, b.closures with
  | x :: _, y :: _ => decide (x.val < y.val)
  | _, _ => decide (a.state < b.state)

/-- A dummy node used only to keep lookups total; every label sorted by
the builder is present in the context (proved below). -/
def junkNode (n : Nat) : BNode n := ⟨0, false, [], [], []⟩

/-- The node a transition entry refers to. -/
def nodeOf {n : Nat} (ctx : BCtx n) (lab : List Nat) : BNode n :=
  (ctx.nodes.lookup lab).getD (junkNode n)

/-- The sort of the transition slice.  Go's `sort.Slice` is an
unspecified unstable sort; since the comparator is not a strict weak
order in general, any sort consistent with it is a faithful model, and
the residual arbitrariness of input order sits in the `mOrd` oracle.
Insertion sort by the comparator is used. -/
def sortTrans {n : Nat} (ctx : BCtx n)
    (l : List (List Nat × List Int)) : List (List Nat × List Int) :=
  List.insertionSort
    (fun e1 e2 : List Nat × List Int =>
      ¬ goLess (nodeOf ctx e2.1) (nodeOf ctx e1.1) = true) l

/-- Write the computed transition list into the root node.  (`len(m) >
0` guards the Go code; with `m` empty the sorted list is empty and the
transitions stay `nil` either way.) -/
def setTransitions {n : Nat} (ctx : BCtx n) (lab : List Nat)
    (ts : List (List Int × List Nat)) : BCtx n :=
  ⟨ctx.state, ctx.nodes.map (fun e =>
    if e.1 = lab then (e.1, { e.2 with transitions := ts }) else e)⟩

/-- One block loop of `constructSubset` (from the source), higher-order
in the node-level recursion `recFn`. -/
def processBlocks {n : Nat} (g : Nfa n) (ord : MapOrd n)
    (recFn : List Nat → BCtx n → Option (BCtx n))
    (rootCls : List (Fin n)) :
    List (Int × Int) → BCtx n → List (List Nat × List Int) →
    Option (BCtx n × List (List Nat × List Int))
  | [], ctx, m => some (ctx, m)
  | blk :: rest, ctx, m =>
    let cls := union ord (closuresForRange g rootCls [blk.1, blk.2])
    let lab := labelFromClosure cls
    match ctx.nodes.lookup lab with
    | some _ =>
      processBlocks g ord recFn rootCls rest ctx
        (mUpdate m lab [blk.1, blk.2])
    | none =>
      let node : BNode n := ⟨ctx.state + 1, isFinal g cls, lab, cls, []⟩
      let ctx1 : BCtx n := ⟨ctx.state + 1, ctx.nodes ++ [(lab, node)]⟩
      match recFn lab ctx1 with
      | none => none
      | some ctx2 =>
        processBlocks g ord recFn rootCls rest ctx2
          (mUpdate m lab [blk.1, blk.2])

/-- `dfa.constructSubset` (from the source), with structural fuel: a
fresh canonical label is allocated before every nested call, and there
are at most `2^n` canonical labels, so `2^n + 1` fuel is enough (proved
below). -/
def constructSubsetF {n : Nat} (g : Nfa n) (ord : MapOrd n) :
    Nat → List Nat → BCtx n → Option (BCtx n)
  | 0, _, _ => none
  | fuel + 1, rootLab, ctx =>
    match ctx.nodes.lookup rootLab with
    | none => none
    | some root =>
      match processBlocks g ord (constructSubsetF g ord fuel)
          root.closures (splitPairs (rangesOf g root.closures)) ctx [] with
      | none => none
      | some (ctx2, m) =>
        some (setTransitions ctx2 rootLab
          ((sortTrans ctx2 (ord.mOrd m)).map (fun e => (e.2, e.1))))

/-- `dfa.firstNode` (from the source): the root node from the closure of
the NFA root, with state id 1. -/
def firstNode {n : Nat} (g : Nfa n) (root : Fin n) : BCtx n × List Nat :=
  let cls := closure g root
  let lab := labelFromClosure cls
  (⟨1, [(lab, ⟨1, isFinal g cls, lab, cls, []⟩)]⟩, lab)

/-- Fuel sufficient for every build (one more than the number of
canonical labels). -/
def buildFuel (n : Nat) : Nat := 2 ^ n + 1

/-- `dfa.NewFromNFA` (from the source): allocate the first node, then
run the subset construction.  Returns the final context together with
the root label (the Go function returns the root node pointer; its
error is always `nil`). -/
def newFromNFA {n : Nat} (g : Nfa n) (ord : MapOrd n) (root : Fin n) :
    Option (BCtx n × List Nat) :=
  match constructSubsetF g ord (buildFuel n) (firstNode g root).2
      (firstNode g root).1 with
  | none => none
  | some ctx => some (ctx, (firstNode g root).2)

/-! ### Association-list facts used by the builder invariants -/

theorem lookup_cons_self {α β : Type} [BEq α] [LawfulBEq α] (a : α)
    (b : β) (l : List (α × β)) : ((a, b) :: l).lookup a = some b := by
  rw [List.lookup, beq_self_eq_true]

theorem lookup_cons_ne {α β : Type} [BEq α] [LawfulBEq α] {k a : α}
    (h : k ≠ a) (b : β) (l : List (α × β)) :
    ((a, b) :: l).lookup k = l.lookup k := by
  rw [List.lookup, beq_false_of_ne h]

theorem lookup_none_iff {α β : Type} [BEq α] [LawfulBEq α] :
    ∀ {l : List (α × β)} {k : α},
      l.lookup k = none ↔ k ∉ l.map Prod.fst := by
  intro l k
  induction l with
  | nil => simp [List.lookup]
  | cons e rest ih =>
    obtain ⟨a, b⟩ := e
    by_cases hk : k = a
    · subst hk
      rw [lookup_cons_self]
      simp
    · rw [lookup_cons_ne hk]
      simp only [List.map_cons, List.mem_cons, ih]
      constructor
      · rintro h (h1 | h2)
        · exact hk h1
        · exact h h2
      · intro h h2
        exact h (Or.inr h2)

theorem lookup_mem {α β : Type} [BEq α] [LawfulBEq α] :
    ∀ {l : List (α × β)} {k : α} {v : β},
      l.lookup k = some v → (k, v) ∈ l := by
  intro l
  induction l with
  | nil => intro k v h; cases h
  | cons e rest ih =>
    intro k v h
    obtain ⟨a, b⟩ := e
    by_cases hk : k = a
    · subst hk
      rw [lookup_cons_self] at h
      cases h
      exact List.mem_cons_self _ _
    · rw [lookup_cons_ne hk] at h
      exact List.mem_cons_of_mem _ (ih h)

theorem mem_lookup {α β : Type} [BEq α] [LawfulBEq α] :
    ∀ {l : List (α × β)} {k : α} {v : β},
      (l.map Prod.fst).Nodup → (k, v) ∈ l → l.lookup k = some v := by
  intro l
  induction l with
  | nil => intro k v _ h; cases h
  | cons e rest ih =>
    intro k v hnd h
    obtain ⟨a, b⟩ := e
    simp only [List.map_cons, List.nodup_cons] at hnd
    rcases List.mem_cons.1 h with he | hm
    · cases he
      exact lookup_cons_self _ _ _
    · have hka : k ≠ a := by
        rintro rfl
        exact hnd.1 (List.mem_map.2 ⟨(k, v), hm, rfl⟩)
      rw [lookup_cons_ne hka]
      exact ih hnd.2 hm

theorem lookup_append {α β : Type} [BEq α] [LawfulBEq α] :
    ∀ (l1 l2 : List (α × β)) (k : α),
      (l1 ++ l2).lookup k = ((l1.lookup k).or (l2.lookup k)) := by
  intro l1
  induction l1 with
  | nil => intro l2 k; simp [List.lookup]
  | cons e rest ih =>
    intro l2 k
    obtain ⟨a, b⟩ := e
    by_cases hk : k = a
    · subst hk
      rw [List.cons_append, lookup_cons_self, lookup_cons_self]
      rfl
    · rw [List.cons_append, lookup_cons_ne hk, lookup_cons_ne hk]
      exact ih l2 k

/-! ### Basic semantic facts about the builder's ingredients -/

/-- A two-boundary list covers exactly its inclusive interval. -/
theorem mem_pair {c b1 b2 : Int} : Mem c [b1, b2] ↔ b1 ≤ c ∧ c ≤ b2 := by
  rw [mem_cons]
  simp [mem_nil]

/-- A character is below some pair of a collection iff it is below some
list of the collection. -/
theorem memP_allPairs {lists : List (List Int)} {c : Int} :
    MemP c (allPairs lists) ↔ ∃ l ∈ lists, Mem c l := by
  simp only [MemP, allPairs, List.mem_flatMap, Mem]
  constructor
  · rintro ⟨p, ⟨l, hl, hp⟩, hc⟩
    exact ⟨l, hl, p, hp, hc⟩
  · rintro ⟨l, hl, p, hp, hc⟩
    exact ⟨p, ⟨l, hl, hp⟩, hc⟩

/-- A character is matched by some non-ε edge leaving some state of a
closure set (`t.R = nil` reads as the empty range list). -/
def EdgeChar {n : Nat} (g : Nfa n) (cls : List (Fin n)) (c : Int) : Prop :=
  ∃ s ∈ cls, ∃ e ∈ g.T s, Mem c (e.R.getD [])

/-- The ranges collected for `Split` cover exactly the `EdgeChar`
characters of the root closure. -/
theorem mem_rangesOf_char {n : Nat} {g : Nfa n} {cls : List (Fin n)}
    {c : Int} :
    (∃ rl ∈ rangesOf g cls, Mem c rl) ↔ EdgeChar g cls c := by
  simp only [rangesOf, List.mem_flatMap, List.mem_map, EdgeChar]
  constructor
  · rintro ⟨rl, ⟨s, hs, e, he, rfl⟩, hc⟩
    exact ⟨s, hs, e, he, hc⟩
  · rintro ⟨s, hs, e, he, hc⟩
    exact ⟨e.R.getD [], ⟨s, hs, e, he, rfl⟩, hc⟩

/-- With fuel left and the node unvisited, `recursiveClosure` returns a
list beginning with the node itself, hence non-empty. -/
theorem recClosureF_ne_nil {n : Nat} (g : Nfa n) {fuel : Nat}
    (node : Fin n) {visited : Finset (Fin n)} (hv : node ∉ visited)
    (hf : 0 < fuel) : (recClosureF g fuel node visited).1 ≠ [] := by
  cases fuel with
  | zero => cases hf
  | succ f =>
    simp only [recClosureF, if_neg hv]
    exact List.cons_ne_nil _ _

/-- The ε-closure of a node is never empty (it holds the node itself). -/
theorem closure_ne_nil {n : Nat} (g : Nfa n) (node : Fin n) :
    closure g node ≠ [] :=
  recClosureF_ne_nil g node (Finset.not_mem_empty node) node.pos

/-- Every closure collected by `closuresForRange` is an ε-closure. -/
theorem mem_closuresForRange {n : Nat} {g : Nfa n}
    {rootCls : List (Fin n)} {blk : List Int} {cl : List (Fin n)}
    (h : cl ∈ closuresForRange g rootCls blk) :
    ∃ t : Fin n, cl = closure g t := by
  simp only [closuresForRange, List.mem_flatMap, List.mem_filterMap] at h
  obtain ⟨s, _, e, _, he⟩ := h
  by_cases hc : Contains (e.R.getD []) blk
  · rw [if_pos hc] at he
    cases he
    exact ⟨e.N, rfl⟩
  · rw [if_neg hc] at he
    cases he

/-- Every block of the split of the collected ranges is matched by at
least one edge, so `closuresForRange` is non-empty on it. -/
theorem closuresForRange_ne_nil {n : Nat} {g : Nfa n}
    {rootCls : List (Fin n)} {blk : Int × Int}
    (hb : blk ∈ splitPairs (rangesOf g rootCls)) :
    closuresForRange g rootCls [blk.1, blk.2] ≠ [] := by
  have hwf : blk.1 ≤ blk.2 := splitPairs_wf hb
  have hcov : MemP blk.1 (allPairs (rangesOf g rootCls)) :=
    (memP_splitPairs _ _).1 ⟨blk, hb, le_refl _, hwf⟩
  obtain ⟨rl, hrl, hc⟩ := memP_allPairs.1 hcov
  simp only [rangesOf, List.mem_flatMap, List.mem_map] at hrl
  obtain ⟨s, hs, e, he, rfl⟩ := hrl
  have hcont : Contains (e.R.getD []) [blk.1, blk.2] :=
    overlaps_iff.2 ⟨blk.1, hc, mem_pair.2 ⟨le_refl _, hwf⟩⟩
  intro hnil
  have hmem : closure g e.N ∈ closuresForRange g rootCls [blk.1, blk.2] := by
    simp only [closuresForRange, List.mem_flatMap, List.mem_filterMap]
    exact ⟨s, hs, e, he, by rw [if_pos hcont]⟩
  rw [hnil] at hmem
  cases hmem

/-- `union` of a non-empty family of non-empty closures is non-empty. -/
theorem union_ne_nil {n : Nat} {ord : MapOrd n} (hlaw : Lawful ord)
    {clss : List (List (Fin n))} (hne : clss ≠ [])
    (hall : ∀ c ∈ clss, c ≠ []) : union ord clss ≠ [] := by
  match clss with
  | [] => exact absurd rfl hne
  | [c] => exact hall c (List.mem_singleton.2 rfl)
  | c1 :: c2 :: rest =>
    show ord.unionOrd (c1 :: c2 :: rest).flatten.dedup ≠ []
    intro h
    have hperm := hlaw.union_perm ((c1 :: c2 :: rest).flatten.dedup)
    rw [h] at hperm
    have hd : (c1 :: c2 :: rest).flatten.dedup = [] :=
      List.eq_nil_of_length_eq_zero (hperm.symm.length_eq)
    rw [List.dedup_eq_nil] at hd
    rw [List.flatten_eq_nil_iff] at hd
    exact hall c1 (List.mem_cons_self _ _) (hd c1 (List.mem_cons_self _ _))

/-! ### Builder invariants -/

/-- The canonical labels present in a build context, in insertion
order. -/
def keysOf {n : Nat} (ctx : BCtx n) : List (List Nat) :=
  ctx.nodes.map Prod.fst

/-- Wellformedness of a build context: `nodesByLabel` has one node per
label, each node stores its own key as label, and every stored closure
slice is non-empty. -/
def Wf {n : Nat} (ctx : BCtx n) : Prop :=
  (keysOf ctx).Nodup ∧
  ∀ e ∈ ctx.nodes, e.2.label = e.1 ∧ e.2.closures ≠ []

/-- `ctx'` extends `ctx`: labels are only appended, and an existing
label keeps its node's identity (everything but the transition slice,
which `constructSubset` writes late). -/
def Ext {n : Nat} (ctx ctx' : BCtx n) : Prop :=
  (∃ rest, keysOf ctx' = keysOf ctx ++ rest) ∧
  ∀ lab nd, ctx.nodes.lookup lab = some nd →
    ∃ nd', ctx'.nodes.lookup lab = some nd' ∧ nd'.state = nd.state ∧
      nd'.final = nd.final ∧ nd'.label = nd.label ∧
      nd'.closures = nd.closures

theorem Ext_refl {n : Nat} (ctx : BCtx n) : Ext ctx ctx :=
  ⟨⟨[], (List.append_nil _).symm⟩,
    fun _ nd h => ⟨nd, h, rfl, rfl, rfl, rfl⟩⟩

theorem Ext_trans {n : Nat} {c1 c2 c3 : BCtx n} (h12 : Ext c1 c2)
    (h23 : Ext c2 c3) : Ext c1 c3 := by
  refine ⟨?_, ?_⟩
  · obtain ⟨r1, hr1⟩ := h12.1
    obtain ⟨r2, hr2⟩ := h23.1
    exact ⟨r1 ++ r2, by rw [hr2, hr1, List.append_assoc]⟩
  · intro lab nd h
    obtain ⟨nd1, h1, e1, e2, e3, e4⟩ := h12.2 lab nd h
    obtain ⟨nd2, h2, f1, f2, f3, f4⟩ := h23.2 lab nd1 h1
    exact ⟨nd2, h2, f1.trans e1, f2.trans e2, f3.trans e3, f4.trans e4⟩

theorem isSome_ext {n : Nat} {ctx ctx' : BCtx n} (h : Ext ctx ctx')
    {lab : List Nat} (hs : (ctx.nodes.lookup lab).isSome) :
    (ctx'.nodes.lookup lab).isSome := by
  obtain ⟨nd, hnd⟩ := Option.isSome_iff_exists.1 hs
  obtain ⟨nd', hnd', _⟩ := h.2 lab nd hnd
  rw [hnd']
  rfl

theorem nodeOf_ext {n : Nat} {ctx ctx' : BCtx n} (h : Ext ctx ctx')
    {lab : List Nat} (hs : (ctx.nodes.lookup lab).isSome) :
    (nodeOf ctx' lab).closures = (nodeOf ctx lab).closures ∧
    (nodeOf ctx' lab).state = (nodeOf ctx lab).state := by
  obtain ⟨nd, hnd⟩ := Option.isSome_iff_exists.1 hs
  obtain ⟨nd', hnd', hst, _, _, hcl⟩ := h.2 lab nd hnd
  rw [nodeOf, nodeOf, hnd, hnd']
  exact ⟨hcl, hst⟩

/-- All the per-node guarantees `constructSubset` establishes once it
finishes a node: transition ranges individually sorted and disjoint,
pairwise non-overlapping, jointly covering exactly the characters of
the non-ε edges leaving the node's closures, targets present in the
context with non-empty closures, and the slice sorted by the
`sort.Slice` comparator. -/
def Done {n : Nat} (g : Nfa n) (ctx : BCtx n) (nd : BNode n) : Prop :=
  (∀ t ∈ nd.transitions, sortedDisjoint t.1) ∧
  List.Pairwise (fun t1 t2 : List Int × List Nat => ¬ Overlaps t1.1 t2.1)
    nd.transitions ∧
  (∀ c : Int,
    (∃ t ∈ nd.transitions, Mem c t.1) ↔ EdgeChar g nd.closures c) ∧
  (∀ t ∈ nd.transitions, (ctx.nodes.lookup t.2).isSome ∧
    (nodeOf ctx t.2).closures ≠ []) ∧
  List.Pairwise (fun t1 t2 : List Int × List Nat =>
    goLess (nodeOf ctx t2.2) (nodeOf ctx t1.2) = false) nd.transitions

theorem goLess_congr {n : Nat} {a a' b b' : BNode n}
    (hca : a'.closures = a.closures) (hsa : a'.state = a.state)
    (hcb : b'.closures = b.closures) (hsb : b'.state = b.state) :
    goLess a' b' = goLess a b := by
  unfold goLess
  rw [hca, hcb, hsa, hsb]

/-- `Done` moves along a context extension and across nodes with the
same transitions and closures (the fields `goLess` and the coverage
read are preserved by `Ext`). -/
theorem Done_transfer {n : Nat} {g : Nfa n} {ctxA ctxB : BCtx n}
    {ndA ndB : BNode n} (hd : Done g ctxA ndA) (hext : Ext ctxA ctxB)
    (ht : ndB.transitions = ndA.transitions)
    (hc : ndB.closures = ndA.closures) : Done g ctxB ndB := by
  obtain ⟨d1, d2, d3, d4, d5⟩ := hd
  refine ⟨?_, ?_, ?_, ?_, ?_⟩
  · rw [ht]; exact d1
  · rw [ht]; exact d2
  · rw [ht, hc]; exact d3
  · rw [ht]
    intro t htm
    obtain ⟨hsome, hne⟩ := d4 t htm
    refine ⟨isSome_ext hext hsome, ?_⟩
    rw [(nodeOf_ext hext hsome).1]
    exact hne
  · rw [ht]
    refine d5.imp_of_mem ?_
    intro t1 t2 h1 h2 hrel
    have hs1 := (d4 t1 h1).1
    have hs2 := (d4 t2 h2).1
    rw [goLess_congr (nodeOf_ext hext hs2).1 (nodeOf_ext hext hs2).2
      (nodeOf_ext hext hs1).1 (nodeOf_ext hext hs1).2]
    exact hrel

/-! ### The per-root range map `m` -/

/-- The value of `m[lab]`; a missing key reads as `nil`, as in Go. -/
def mVal (m : List (List Nat × List Int)) (lab : List Nat) : List Int :=
  (m.lookup lab).getD []

/-- `m[lab] = Sum(m[lab], blk)` as a lookup equation. -/
theorem mUpdate_lookup :
    ∀ (m : List (List Nat × List Int)) (lab lab' : List Nat)
      (blk : List Int),
    (mUpdate m lab blk).lookup lab' =
      if lab' = lab then some (Sum (mVal m lab) blk)
      else m.lookup lab' := by
  intro m
  induction m with
  | nil =>
    intro lab lab' blk
    by_cases h : lab' = lab
    · subst h
      rw [mUpdate]
      rw [lookup_cons_self, if_pos rfl]
      rfl
    · rw [mUpdate, lookup_cons_ne h, if_neg h]
  | cons e rest ih =>
    intro lab lab' blk
    obtain ⟨l, rr⟩ := e
    by_cases hl : l = lab
    · subst hl
      rw [mUpdate, if_pos rfl]
      by_cases h : lab' = l
      · subst h
        rw [lookup_cons_self, if_pos rfl, mVal, lookup_cons_self]
        rfl
      · rw [lookup_cons_ne h, if_neg h, lookup_cons_ne h]
    · rw [mUpdate, if_neg hl]
      by_cases h : lab' = l
      · subst h
        rw [lookup_cons_self, if_neg hl, lookup_cons_self]
      · rw [lookup_cons_ne h, ih lab lab' blk]
        by_cases h2 : lab' = lab
        · subst h2
          rw [if_pos rfl, if_pos rfl, mVal, mVal,
            lookup_cons_ne (fun he => h he)]
        · rw [if_neg h2, if_neg h2, lookup_cons_ne h]

/-- The update as an equation on values. -/
theorem mUpdate_mVal (m : List (List Nat × List Int))
    (lab lab' : List Nat) (blk : List Int) :
    mVal (mUpdate m lab blk) lab' =
      if lab' = lab then Sum (mVal m lab) blk else mVal m lab' := by
  rw [mVal, mUpdate_lookup m lab lab' blk]
  by_cases h : lab' = lab
  · rw [if_pos h, if_pos h]
    rfl
  · rw [if_neg h, if_neg h]
    rfl

/-- Keys of an updated map: unchanged when the key exists, appended
otherwise. -/
theorem mUpdate_keys :
    ∀ (m : List (List Nat × List Int)) (lab : List Nat) (blk : List Int),
    (mUpdate m lab blk).map Prod.fst =
      if lab ∈ m.map Prod.fst then m.map Prod.fst
      else m.map Prod.fst ++ [lab] := by
  intro m
  induction m with
  | nil => intro lab blk; simp [mUpdate]
  | cons e rest ih =>
    intro lab blk
    obtain ⟨l, rr⟩ := e
    by_cases hl : l = lab
    · subst hl
      rw [mUpdate, if_pos rfl]
      simp
    · rw [mUpdate, if_neg hl]
      simp only [List.map_cons, ih, List.mem_cons]
      by_cases hm : lab ∈ rest.map Prod.fst
      · rw [if_pos hm, if_pos (Or.inr hm)]
      · have hne : ¬ (lab = l ∨ lab ∈ rest.map Prod.fst) := by
          rintro (h | h)
          · exact hl h.symm
          · exact hm h
        rw [if_neg hm, if_neg hne]
        rfl

/-- The keys of an updated map sit among the old keys plus the new
one. -/
theorem mUpdate_fst_sub :
    ∀ {m : List (List Nat × List Int)} {lab : List Nat} {blk : List Int}
      {e : List Nat × List Int}, e ∈ mUpdate m lab blk →
      e.1 ∈ m.map Prod.fst ∨ e.1 = lab := by
  intro m
  induction m with
  | nil =>
    intro lab blk e he
    rw [mUpdate] at he
    rcases List.mem_singleton.1 he with rfl
    exact Or.inr rfl
  | cons f rest ih =>
    intro lab blk e he
    obtain ⟨l, rr⟩ := f
    by_cases hl : l = lab
    · subst hl
      rw [mUpdate, if_pos rfl] at he
      rcases List.mem_cons.1 he with rfl | hm
      · exact Or.inl (List.mem_cons_self _ _)
      · exact Or.inl (List.mem_cons.2 (Or.inr (List.mem_map.2 ⟨e, hm, rfl⟩)))
    · rw [mUpdate, if_neg hl] at he
      rcases List.mem_cons.1 he with rfl | hm
      · exact Or.inl (List.mem_cons_self _ _)
      · rcases ih hm with h | h
        · exact Or.inl (List.mem_cons.2 (Or.inr h))
        · exact Or.inr h

/-- The stored value of an entry, through `mVal`, when keys are
unique. -/
theorem mem_mVal {m : List (List Nat × List Int)}
    (hnd : (m.map Prod.fst).Nodup) {e : List Nat × List Int}
    (he : e ∈ m) : mVal m e.1 = e.2 := by
  obtain ⟨l, rr⟩ := e
  rw [mVal, mem_lookup hnd he]
  rfl

/-! ### Insertion sort under a locally total, locally transitive
comparator (the `sort.Slice` comparator of `constructSubset` is only a
weak order on the nodes that actually occur, all of which have
non-empty closures) -/

theorem pairwise_orderedInsert_local {α : Type} (r : α → α → Prop)
    [DecidableRel r] (a : α) :
    ∀ (l : List α), List.Pairwise r l →
      (∀ b ∈ l, r a b ∨ r b a) →
      (∀ b ∈ l, ∀ c ∈ l, r a b → r b c → r a c) →
      List.Pairwise r (List.orderedInsert r a l) := by
  intro l
  induction l with
  | nil => intro _ _ _; exact List.pairwise_singleton r a
  | cons x t ih =>
    intro hp htot htr
    rw [List.orderedInsert]
    by_cases hax : r a x
    · rw [if_pos hax]
      refine List.Pairwise.cons ?_ hp
      intro y hy
      rcases List.mem_cons.1 hy with rfl | hyt
      · exact hax
      · exact htr x (List.mem_cons_self _ _) y (List.mem_cons.2 (Or.inr hyt))
          hax (List.rel_of_pairwise_cons hp hyt)
    · rw [if_neg hax]
      have hxa : r x a :=
        (htot x (List.mem_cons_self _ _)).resolve_left hax
      refine List.Pairwise.cons ?_ ?_
      · intro y hy
        rcases (List.mem_orderedInsert r).1 hy with rfl | hyt
        · exact hxa
        · exact List.rel_of_pairwise_cons hp hyt
      · exact ih hp.of_cons
          (fun b hb => htot b (List.mem_cons.2 (Or.inr hb)))
          (fun b hb c hc => htr b (List.mem_cons.2 (Or.inr hb))
            c (List.mem_cons.2 (Or.inr hc)))

theorem pairwise_insertionSort_local {α : Type} (r : α → α → Prop)
    [DecidableRel r] :
    ∀ (l : List α),
      (∀ a ∈ l, ∀ b ∈ l, r a b ∨ r b a) →
      (∀ a ∈ l, ∀ b ∈ l, ∀ c ∈ l, r a b → r b c → r a c) →
      List.Pairwise r (List.insertionSort r l) := by
  intro l
  induction l with
  | nil => intro _ _; exact List.Pairwise.nil
  | cons a t ih =>
    intro htot htr
    rw [List.insertionSort]
    have hmem : ∀ b ∈ List.insertionSort r t, b ∈ t :=
      fun b hb => (List.perm_insertionSort r t).subset hb
    refine pairwise_orderedInsert_local r a _ ?_ ?_ ?_
    · exact ih (fun b hb c hc => htot b (List.mem_cons.2 (Or.inr hb))
        c (List.mem_cons.2 (Or.inr hc)))
        (fun b hb c hc d hd => htr b (List.mem_cons.2 (Or.inr hb))
          c (List.mem_cons.2 (Or.inr hc)) d (List.mem_cons.2 (Or.inr hd)))
    · exact fun b hb => htot a (List.mem_cons_self _ _)
        b (List.mem_cons.2 (Or.inr (hmem b hb)))
    · exact fun b hb c hc => htr a (List.mem_cons_self _ _)
        b (List.mem_cons.2 (Or.inr (hmem b hb)))
        c (List.mem_cons.2 (Or.inr (hmem c hc)))

/-! ### Unique covering block of a split -/

theorem pairwise_unique_cover :
    ∀ {l : List (Int × Int)},
      List.Pairwise (fun b1 b2 : Int × Int => b1.2 < b2.1) l →
      ∀ b1 ∈ l, ∀ b2 ∈ l, ∀ c : Int,
        b1.1 ≤ c → c ≤ b1.2 → b2.1 ≤ c → c ≤ b2.2 → b1 = b2 := by
  intro l
  induction l with
  | nil => intro _ b1 h; cases h
  | cons b t ih =>
    intro hp b1 h1 b2 h2 c hc1 hc2 hc3 hc4
    rcases List.mem_cons.1 h1 with rfl | h1t
    · rcases List.mem_cons.1 h2 with rfl | h2t
      · rfl
      · have := List.rel_of_pairwise_cons hp h2t
        omega
    · rcases List.mem_cons.1 h2 with rfl | h2t
      · have := List.rel_of_pairwise_cons hp h1t
        omega
      · exact ih hp.of_cons b1 h1t b2 h2t c hc1 hc2 hc3 hc4

/-- Two blocks of one split covering the same character are equal. -/
theorem splitPairs_unique_cover {lists : List (List Int)}
    {b1 b2 : Int × Int} {c : Int} (h1 : b1 ∈ splitPairs lists)
    (h2 : b2 ∈ splitPairs lists) (hc1 : b1.1 ≤ c) (hc2 : c ≤ b1.2)
    (hc3 : b2.1 ≤ c) (hc4 : c ≤ b2.2) : b1 = b2 :=
  pairwise_unique_cover (splitPairs_pairwise lists) b1 h1 b2 h2 c
    hc1 hc2 hc3 hc4

/-! ### Counting canonical labels (fuel sufficiency) -/

/-- The labels present in a context, as a finite set. -/
def keysF {n : Nat} (ctx : BCtx n) : Finset (List Nat) :=
  (keysOf ctx).toFinset

/-- All canonical labels over `n` NFA states: the image of the label
function over the subsets of the state space. -/
def allLabels (n : Nat) : Finset (List Nat) :=
  (Finset.univ : Finset (Finset (Fin n))).image
    (fun s => labelFromClosure (s.sort (· ≤ ·)))

theorem card_allLabels_le (n : Nat) : (allLabels n).card ≤ 2 ^ n := by
  refine le_trans (Finset.card_image_le) ?_
  rw [Finset.card_univ, Fintype.card_finset, Fintype.card_fin]

/-- Every label the builder forms is canonical: it only depends on the
set of states in the closure slice. -/
theorem labelFromClosure_mem_allLabels {n : Nat} (cls : List (Fin n)) :
    labelFromClosure cls ∈ allLabels n := by
  refine Finset.mem_image.2 ⟨cls.toFinset, Finset.mem_univ _, ?_⟩
  unfold labelFromClosure
  refine List.eq_of_perm_of_sorted (r := (· ≤ · : Nat → Nat → Prop)) ?_
    (List.sorted_insertionSort _ _) (List.sorted_insertionSort _ _)
  have hn1 : (((cls.toFinset.sort (· ≤ ·)).map Fin.val).dedup).Nodup :=
    List.nodup_dedup _
  have hn2 : ((cls.map Fin.val).dedup).Nodup := List.nodup_dedup _
  refine ((List.perm_insertionSort _ _).trans ?_).trans
    (List.perm_insertionSort _ _).symm
  refine (List.perm_ext_iff_of_nodup hn1 hn2).2 ?_
  intro a
  simp only [List.mem_dedup, List.mem_map, Finset.mem_sort,
    List.mem_toFinset]

/-! ### The inner block loop of `constructSubset` -/

/-- The canonical label of the node a block is routed to. -/
def targetLab {n : Nat} (g : Nfa n) (ord : MapOrd n)
    (rootCls : List (Fin n)) (blk : Int × Int) : List Nat :=
  labelFromClosure (union ord (closuresForRange g rootCls [blk.1, blk.2]))

/-- One `m[node] = Sum(m[node], blk)` update, at the level of covered
characters. -/
theorem chars_step {m : List (List Nat × List Int)} {lab : List Nat}
    {b1 b2 : Int} (hsd : ∀ lab', sortedDisjoint (mVal m lab'))
    (hb : b1 ≤ b2) (lab' : List Nat) (c : Int) :
    Mem c (mVal (mUpdate m lab [b1, b2]) lab') ↔
      (Mem c (mVal m lab') ∨ (lab' = lab ∧ b1 ≤ c ∧ c ≤ b2)) := by
  rw [mUpdate_mVal]
  by_cases h : lab' = lab
  · subst h
    rw [if_pos rfl]
    obtain ⟨lo, hlo⟩ := sdFrom_of_sortedDisjoint (hsd lab')
    have hpair : sdFrom b1 [b1, b2] := ⟨le_refl _, hb, trivial⟩
    rw [mem_Sum hlo hpair, mem_pair]
    constructor
    · rintro (h | h)
      · exact Or.inl h
      · exact Or.inr ⟨rfl, h⟩
    · rintro (h | ⟨_, h⟩)
      · exact Or.inl h
      · exact Or.inr h
  · rw [if_neg h]
    constructor
    · exact fun hm => Or.inl hm
    · rintro (hm | ⟨he, _⟩)
      · exact hm
      · exact absurd he h

/-- The block loop of `constructSubset`, specified: the context is only
extended, the map keys stay unique, point at existing nodes and hold
sorted disjoint ranges, the covered characters grow by exactly the
processed blocks routed to their target labels, and every node is
either carried with its transitions untouched or fully processed. -/
theorem processBlocks_spec {n : Nat} {g : Nfa n} {ord : MapOrd n}
    (hlaw : Lawful ord)
    (recFn : List Nat → BCtx n → Option (BCtx n))
    (hrec : ∀ lab ctx ctx', recFn lab ctx = some ctx' → Wf ctx →
      Wf ctx' ∧ Ext ctx ctx' ∧
      (∀ lab' nd', ctx'.nodes.lookup lab' = some nd' →
        ((∃ nd, ctx.nodes.lookup lab' = some nd ∧
          nd'.transitions = nd.transitions) ∧ lab' ≠ lab) ∨
        Done g ctx' nd'))
    (rootCls : List (Fin n)) :
    ∀ (todo : List (Int × Int)) (ctx : BCtx n)
      (m : List (List Nat × List Int)) (ctx2 : BCtx n)
      (m2 : List (List Nat × List Int)),
      processBlocks g ord recFn rootCls todo ctx m = some (ctx2, m2) →
      Wf ctx →
      (∀ e ∈ m, (ctx.nodes.lookup e.1).isSome) →
      ((m.map Prod.fst).Nodup) →
      (∀ lab, sortedDisjoint (mVal m lab)) →
      (∀ lab c, Mem c (mVal m lab) → ∀ blk ∈ todo, c < blk.1) →
      List.Pairwise (fun b1 b2 : Int × Int => b1.2 < b2.1) todo →
      (∀ b ∈ todo, b.1 ≤ b.2) →
      (∀ b ∈ todo, closuresForRange g rootCls [b.1, b.2] ≠ []) →
      (∀ b ∈ todo, ∀ cl ∈ closuresForRange g rootCls [b.1, b.2],
        cl ≠ []) →
      Wf ctx2 ∧ Ext ctx ctx2 ∧
      (∀ e ∈ m2, (ctx2.nodes.lookup e.1).isSome) ∧
      ((m2.map Prod.fst).Nodup) ∧
      (∀ lab, sortedDisjoint (mVal m2 lab)) ∧
      (∀ lab c, Mem c (mVal m2 lab) ↔
        (Mem c (mVal m lab) ∨
          ∃ blk ∈ todo, targetLab g ord rootCls blk = lab ∧
            blk.1 ≤ c ∧ c ≤ blk.2)) ∧
      (∀ lab' nd', ctx2.nodes.lookup lab' = some nd' →
        (∃ nd, ctx.nodes.lookup lab' = some nd ∧
          nd'.transitions = nd.transitions) ∨
        Done g ctx2 nd') := by
  intro todo
  induction todo with
  | nil =>
    intro ctx m ctx2 m2 hrun hwf hm1 hmnd hmsd hbd hpw hwfb hcov hcfr
    rw [processBlocks] at hrun
    rw [Option.some.injEq, Prod.mk.injEq] at hrun
    obtain ⟨rfl, rfl⟩ := hrun
    refine ⟨hwf, Ext_refl ctx, hm1, hmnd, hmsd, ?_, ?_⟩
    · intro lab c
      simp
    · intro lab' nd' h
      exact Or.inl ⟨nd', h, rfl⟩
  | cons blk rest ih =>
    intro ctx m ctx2 m2 hrun hwf hm1 hmnd hmsd hbd hpw hwfb hcov hcfr
    simp only [processBlocks] at hrun
    set cls := union ord (closuresForRange g rootCls [blk.1, blk.2])
      with hcls
    set lab := labelFromClosure cls with hlab
    have hblk12 : blk.1 ≤ blk.2 := hwfb blk (List.mem_cons_self _ _)
    have hclsne : cls ≠ [] :=
      union_ne_nil hlaw (hcov blk (List.mem_cons_self _ _))
        (hcfr blk (List.mem_cons_self _ _))
    have htl : targetLab g ord rootCls blk = lab := rfl
    -- facts about the updated map, shared by both branches
    have hmnd' : ((mUpdate m lab [blk.1, blk.2]).map Prod.fst).Nodup := by
      rw [mUpdate_keys]
      by_cases hmem : lab ∈ m.map Prod.fst
      · rw [if_pos hmem]; exact hmnd
      · rw [if_neg hmem]
        simp [List.nodup_append, hmnd, List.disjoint_singleton, hmem]
    have hmsd' : ∀ lab', sortedDisjoint
        (mVal (mUpdate m lab [blk.1, blk.2]) lab') := by
      intro lab'
      rw [mUpdate_mVal]
      by_cases h : lab' = lab
      · rw [if_pos h]
        obtain ⟨lo, hlo⟩ := sdFrom_of_sortedDisjoint (hmsd _)
        have hpair : sdFrom blk.1 [blk.1, blk.2] :=
          ⟨le_refl _, hblk12, trivial⟩
        refine sortedDisjoint_of_sdFrom (sdFrom_Sum hlo hpair ?_)
        intro c ⟨hc1, hc2⟩
        have := hbd _ c hc1 blk (List.mem_cons_self _ _)
        have := mem_pair.1 hc2
        omega
      · rw [if_neg h]; exact hmsd lab'
    have hbd' : ∀ lab' c, Mem c
        (mVal (mUpdate m lab [blk.1, blk.2]) lab') →
        ∀ b ∈ rest, c < b.1 := by
      intro lab' c hc b hb
      have hblt : blk.2 < b.1 := List.rel_of_pairwise_cons hpw hb
      rcases (chars_step hmsd hblk12 lab' c).1 hc with h | ⟨_, _, h2⟩
      · exact lt_of_lt_of_le (hbd _ c h blk (List.mem_cons_self _ _))
          (by omega)
      · omega
    have hcharsUp := @chars_step m lab blk.1 blk.2 hmsd hblk12
    have hrestArgs :
        (∀ b ∈ rest, b.1 ≤ b.2) ∧
        (∀ b ∈ rest, closuresForRange g rootCls [b.1, b.2] ≠ []) ∧
        (∀ b ∈ rest, ∀ cl ∈ closuresForRange g rootCls [b.1, b.2],
          cl ≠ []) :=
      ⟨fun b hb => hwfb b (List.mem_cons.2 (Or.inr hb)),
        fun b hb => hcov b (List.mem_cons.2 (Or.inr hb)),
        fun b hb => hcfr b (List.mem_cons.2 (Or.inr hb))⟩
    -- split on whether the target label already has a node
    cases hlook : ctx.nodes.lookup lab with
    | some nd0 =>
      rw [hlook] at hrun
      have hm1' : ∀ e ∈ mUpdate m lab [blk.1, blk.2],
          (ctx.nodes.lookup e.1).isSome := by
        intro e he
        rcases mUpdate_fst_sub he with h | h
        · obtain ⟨e0, he0, hfst⟩ := List.mem_map.1 h
          rw [← hfst]
          exact hm1 e0 he0
        · rw [h, hlook]; rfl
      obtain ⟨hwf2, hext2, hm12, hmnd2, hmsd2, hchars2, hnode2⟩ :=
        ih ctx _ ctx2 m2 hrun hwf hm1' hmnd' hmsd' hbd' hpw.of_cons
          hrestArgs.1 hrestArgs.2.1 hrestArgs.2.2
      refine ⟨hwf2, hext2, hm12, hmnd2, hmsd2, ?_, hnode2⟩
      intro lab' c
      rw [hchars2 lab' c, hcharsUp lab' c, List.exists_mem_cons_iff]
      constructor
      · rintro ((h | ⟨he, hcv⟩) | h)
        · exact Or.inl h
        · exact Or.inr (Or.inl ⟨by rw [htl, ← he], hcv⟩)
        · exact Or.inr (Or.inr h)
      · rintro (h | (⟨he, hcv⟩ | h))
        · exact Or.inl (Or.inl h)
        · exact Or.inl (Or.inr ⟨by rw [← he, htl], hcv⟩)
        · exact Or.inr h
    | none =>
      rw [hlook] at hrun
      set node : BNode n :=
        ⟨ctx.state + 1, isFinal g cls, lab, cls, []⟩ with hnodedef
      set ctx1 : BCtx n :=
        ⟨ctx.state + 1, ctx.nodes ++ [(lab, node)]⟩ with hctx1def
      cases hr : recFn lab ctx1 with
      | none => rw [hr] at hrun; cases hrun
      | some ctxr =>
        rw [hr] at hrun
        have hlabn : lab ∉ keysOf ctx := lookup_none_iff.1 hlook
        have hkeys1 : keysOf ctx1 = keysOf ctx ++ [lab] := by
          rw [hctx1def, keysOf, keysOf, List.map_append]
          rfl
        have hwf1 : Wf ctx1 := by
          constructor
          · rw [hkeys1]
            simp [List.nodup_append, hwf.1, List.disjoint_singleton,
              hlabn]
          · intro e he
            rw [hctx1def] at he
            rcases List.mem_append.1 he with h | h
            · exact hwf.2 e h
            · rcases List.mem_singleton.1 h with rfl
              exact ⟨rfl, hclsne⟩
        have hlook1 : ctx1.nodes.lookup lab = some node := by
          rw [hctx1def]
          show (ctx.nodes ++ [(lab, node)]).lookup lab = some node
          rw [lookup_append, hlook, Option.none_or, lookup_cons_self]
        have hext01 : Ext ctx ctx1 := by
          refine ⟨⟨[lab], hkeys1⟩, ?_⟩
          intro lab0 nd h
          refine ⟨nd, ?_, rfl, rfl, rfl, rfl⟩
          rw [hctx1def]
          show (ctx.nodes ++ [(lab, node)]).lookup lab0 = some nd
          rw [lookup_append, h]
          rfl
        obtain ⟨hwfr, hext1r, hdisjr⟩ := hrec _ _ _ hr hwf1
        have hm1' : ∀ e ∈ mUpdate m lab [blk.1, blk.2],
            (ctxr.nodes.lookup e.1).isSome := by
          intro e he
          rcases mUpdate_fst_sub he with h | h
          · obtain ⟨e0, he0, hfst⟩ := List.mem_map.1 h
            rw [← hfst]
            exact isSome_ext hext1r (isSome_ext hext01 (hm1 e0 he0))
          · rw [h]
            refine isSome_ext hext1r ?_
            rw [hlook1]
            rfl
        obtain ⟨hwf2, hextr2, hm12, hmnd2, hmsd2, hchars2, hnode2⟩ :=
          ih ctxr _ ctx2 m2 hrun hwfr hm1' hmnd' hmsd' hbd' hpw.of_cons
            hrestArgs.1 hrestArgs.2.1 hrestArgs.2.2
        refine ⟨hwf2, Ext_trans hext01 (Ext_trans hext1r hextr2),
          hm12, hmnd2, hmsd2, ?_, ?_⟩
        · intro lab' c
          rw [hchars2 lab' c, hcharsUp lab' c, List.exists_mem_cons_iff]
          constructor
          · rintro ((h | ⟨he, hcv⟩) | h)
            · exact Or.inl h
            · exact Or.inr (Or.inl ⟨by rw [htl, ← he], hcv⟩)
            · exact Or.inr (Or.inr h)
          · rintro (h | (⟨he, hcv⟩ | h))
            · exact Or.inl (Or.inl h)
            · exact Or.inl (Or.inr ⟨by rw [← he, htl], hcv⟩)
            · exact Or.inr h
        · intro lab' nd' h
          rcases hnode2 lab' nd' h with ⟨ndr, hndr, htr⟩ | hdone
          · rcases hdisjr lab' ndr hndr with
              ⟨⟨nd1, hnd1, htr1⟩, hne⟩ | hdoner
            · refine Or.inl ⟨nd1, ?_, htr.trans htr1⟩
              rw [hctx1def] at hnd1
              have hnd1' : (ctx.nodes ++ [(lab, node)]).lookup lab' =
                  some nd1 := hnd1
              rw [lookup_append, lookup_cons_ne hne] at hnd1'
              simpa using hnd1'
            · refine Or.inr ?_
              obtain ⟨nd'', hnd'', _, _, _, hcl⟩ :=
                hextr2.2 lab' ndr hndr
              rw [h] at hnd''
              injection hnd'' with hnd''
              refine Done_transfer hdoner hextr2 htr ?_
              rw [hnd'']
              exact hcl
          · exact Or.inr hdone

/-! ### The transition slice written into the root -/

/-- `setTransitions` only rewrites the one node's transition slice. -/
theorem lookup_setTransitions {n : Nat} (ctx : BCtx n) (lab : List Nat)
    (ts : List (List Int × List Nat)) (lab' : List Nat) :
    (setTransitions ctx lab ts).nodes.lookup lab' =
      (ctx.nodes.lookup lab').map
        (fun nd => if lab' = lab then { nd with transitions := ts }
          else nd) := by
  show (ctx.nodes.map _).lookup lab' = _
  induction ctx.nodes with
  | nil => rfl
  | cons e rest ihl =>
    obtain ⟨k, nd⟩ := e
    by_cases hk : k = lab
    · subst hk
      by_cases hk' : lab' = k
      · subst hk'
        rw [List.map_cons, if_pos rfl, lookup_cons_self,
          lookup_cons_self, Option.map_some', if_pos rfl]
      · rw [List.map_cons, if_pos rfl, lookup_cons_ne hk',
          lookup_cons_ne hk', ihl]
    · by_cases hk' : lab' = k
      · subst hk'
        rw [List.map_cons, if_neg hk, lookup_cons_self,
          lookup_cons_self, Option.map_some', if_neg hk]
      · rw [List.map_cons, if_neg hk, lookup_cons_ne hk',
          lookup_cons_ne hk', ihl]

theorem keysOf_setTransitions {n : Nat} (ctx : BCtx n) (lab : List Nat)
    (ts : List (List Int × List Nat)) :
    keysOf (setTransitions ctx lab ts) = keysOf ctx := by
  show (ctx.nodes.map _).map Prod.fst = ctx.nodes.map Prod.fst
  rw [List.map_map]
  refine List.map_congr_left ?_
  intro e _
  by_cases h : e.1 = lab
  · simp [Function.comp, h]
  · simp [Function.comp, h]

theorem Ext_setTransitions {n : Nat} (ctx : BCtx n) (lab : List Nat)
    (ts : List (List Int × List Nat)) :
    Ext ctx (setTransitions ctx lab ts) := by
  refine ⟨⟨[], by rw [keysOf_setTransitions, List.append_nil]⟩, ?_⟩
  intro lab' nd h
  rw [lookup_setTransitions, h, Option.map_some']
  by_cases h' : lab' = lab
  · rw [if_pos h']
    exact ⟨_, rfl, rfl, rfl, rfl, rfl⟩
  · rw [if_neg h']
    exact ⟨nd, rfl, rfl, rfl, rfl, rfl⟩

theorem Wf_setTransitions {n : Nat} {ctx : BCtx n} (hwf : Wf ctx)
    (lab : List Nat) (ts : List (List Int × List Nat)) :
    Wf (setTransitions ctx lab ts) := by
  constructor
  · rw [keysOf_setTransitions]
    exact hwf.1
  · intro e he
    obtain ⟨e0, he0, hfe⟩ := List.mem_map.1 he
    by_cases h : e0.1 = lab
    · rw [if_pos h] at hfe
      rw [← hfe]
      exact (hwf.2 e0 he0)
    · rw [if_neg h] at hfe
      rw [← hfe]
      exact hwf.2 e0 he0

/-- The root's transition slice, once the map is drained into the sorted
slice, satisfies every `Done` guarantee. -/
theorem rootTrans_done {n : Nat} {g : Nfa n} {ord : MapOrd n}
    (hlaw : Lawful ord) {ctx2 : BCtx n} {rootCls : List (Fin n)}
    {m : List (List Nat × List Int)}
    (hwf : Wf ctx2)
    (hm1 : ∀ e ∈ m, (ctx2.nodes.lookup e.1).isSome)
    (hmnd : (m.map Prod.fst).Nodup)
    (hmsd : ∀ lab, sortedDisjoint (mVal m lab))
    (hchars : ∀ lab c, Mem c (mVal m lab) ↔
      ∃ blk ∈ splitPairs (rangesOf g rootCls),
        targetLab g ord rootCls blk = lab ∧ blk.1 ≤ c ∧ c ≤ blk.2)
    {nd : BNode n} (hndc : nd.closures = rootCls)
    (hndt : nd.transitions =
      (sortTrans ctx2 (ord.mOrd m)).map (fun e => (e.2, e.1))) :
    Done g ctx2 nd := by
  have hperm : (sortTrans ctx2 (ord.mOrd m)).Perm m := by
    rw [sortTrans]
    exact (List.perm_insertionSort _ _).trans (hlaw.m_perm m)
  have hmem : ∀ t : List Int × List Nat,
      t ∈ nd.transitions ↔ (t.2, t.1) ∈ m := by
    intro t
    obtain ⟨t1, t2⟩ := t
    rw [hndt]
    constructor
    · intro ht
      obtain ⟨e, he, hfe⟩ := List.mem_map.1 ht
      obtain ⟨e1, e2⟩ := e
      rw [Prod.mk.injEq] at hfe
      obtain ⟨rfl, rfl⟩ := hfe
      exact hperm.subset he
    · intro hm
      exact List.mem_map.2 ⟨(t2, t1), hperm.mem_iff.2 hm, rfl⟩
  have hval : ∀ t : List Int × List Nat, t ∈ nd.transitions →
      mVal m t.2 = t.1 := by
    intro t ht
    exact mem_mVal hmnd ((hmem t).1 ht)
  have hDTargets : ∀ t ∈ nd.transitions,
      (ctx2.nodes.lookup t.2).isSome ∧
      (nodeOf ctx2 t.2).closures ≠ [] := by
    intro t ht
    have hin := (hmem t).1 ht
    have hsome : (ctx2.nodes.lookup t.2).isSome := hm1 (t.2, t.1) hin
    refine ⟨hsome, ?_⟩
    obtain ⟨ndt, hndt2⟩ := Option.isSome_iff_exists.1 hsome
    rw [nodeOf, hndt2]
    exact (hwf.2 (t.2, ndt) (lookup_mem hndt2)).2
  refine ⟨?_, ?_, ?_, hDTargets, ?_⟩
  · -- each range list sorted and disjoint
    intro t ht
    rw [← hval t ht]
    exact hmsd t.2
  · -- pairwise non-overlapping
    rw [hndt, List.pairwise_map]
    have hsymm : ∀ {e1 e2 : List Nat × List Int},
        ¬ Overlaps e1.2 e2.2 → ¬ Overlaps e2.2 e1.2 :=
      fun h hov => h (Intersection.overlaps_symm hov)
    rw [List.Perm.pairwise_iff hsymm hperm]
    have hne : List.Pairwise
        (fun e1 e2 : List Nat × List Int => e1.1 ≠ e2.1) m :=
      List.pairwise_map.1 hmnd
    refine hne.imp_of_mem ?_
    intro e1 e2 h1 h2 hnee hov
    obtain ⟨c, hc1, hc2⟩ := overlaps_iff.1 hov
    have hv1 : mVal m e1.1 = e1.2 := mem_mVal hmnd h1
    have hv2 : mVal m e2.1 = e2.2 := mem_mVal hmnd h2
    rw [← hv1] at hc1
    rw [← hv2] at hc2
    obtain ⟨b1, hb1, htl1, hcv1⟩ := (hchars _ c).1 hc1
    obtain ⟨b2, hb2, htl2, hcv2⟩ := (hchars _ c).1 hc2
    have hbb : b1 = b2 := splitPairs_unique_cover hb1 hb2 hcv1.1 hcv1.2
      hcv2.1 hcv2.2
    rw [hbb, htl2] at htl1
    exact hnee htl1.symm
  · -- exact coverage of the non-ε edge characters of the closures
    intro c
    rw [hndc]
    constructor
    · rintro ⟨t, ht, hc⟩
      rw [← hval t ht] at hc
      obtain ⟨blk, hblk, _, hcv⟩ := (hchars _ c).1 hc
      have hMP : MemP c (allPairs (rangesOf g rootCls)) :=
        (memP_splitPairs _ _).1 ⟨blk, hblk, hcv.1, hcv.2⟩
      exact mem_rangesOf_char.1 (memP_allPairs.1 hMP)
    · intro hec
      obtain ⟨blk, hblk, hcv1, hcv2⟩ := (memP_splitPairs _ _).2
        (memP_allPairs.2 (mem_rangesOf_char.2 hec))
      have hcm : Mem c (mVal m (targetLab g ord rootCls blk)) :=
        (hchars _ c).2 ⟨blk, hblk, rfl, hcv1, hcv2⟩
      cases hlk : m.lookup (targetLab g ord rootCls blk) with
      | none =>
        rw [mVal, hlk] at hcm
        exact absurd hcm (mem_nil c)
      | some rr =>
        refine ⟨(rr, targetLab g ord rootCls blk), ?_, ?_⟩
        · exact (hmem _).2 (lookup_mem hlk)
        · rw [mVal, hlk] at hcm
          exact hcm
  · -- sorted by the comparator
    rw [hndt, List.pairwise_map]
    have hkey : ∀ e ∈ ord.mOrd m, ∃ x : Fin n, ∃ xs : List (Fin n),
        (nodeOf ctx2 e.1).closures = x :: xs := by
      intro e he
      have hin : e ∈ m := (hlaw.m_perm m).subset he
      have hsome := hm1 e hin
      obtain ⟨ndt, hndt2⟩ := Option.isSome_iff_exists.1 hsome
      have hne := (hwf.2 (e.1, ndt) (lookup_mem hndt2)).2
      rw [nodeOf, hndt2]
      exact List.exists_cons_of_ne_nil hne
    have hpair : List.Pairwise
        (fun e1 e2 : List Nat × List Int =>
          ¬ goLess (nodeOf ctx2 e2.1) (nodeOf ctx2 e1.1) = true)
        (sortTrans ctx2 (ord.mOrd m)) := by
      rw [sortTrans]
      refine pairwise_insertionSort_local _ _ ?_ ?_
      · intro a ha b hb
        obtain ⟨xa, xsa, hxa⟩ := hkey a ha
        obtain ⟨xb, xsb, hxb⟩ := hkey b hb
        simp only [goLess, hxa, hxb, decide_eq_true_eq]
        omega
      · intro a ha b hb e he hab hbe
        obtain ⟨xa, xsa, hxa⟩ := hkey a ha
        obtain ⟨xb, xsb, hxb⟩ := hkey b hb
        obtain ⟨xe, xse, hxe⟩ := hkey e he
        simp only [goLess, hxa, hxb, hxe, decide_eq_true_eq] at hab hbe ⊢
        omega
    refine hpair.imp ?_
    intro e1 e2 h
    cases hgl : goLess (nodeOf ctx2 e2.1) (nodeOf ctx2 e1.1) with
    | false => rfl
    | true => exact absurd hgl h

/-- The recursion of `constructSubset`: it only extends the context,
and every node it leaves behind is either untouched (and different from
the processed root) or fully processed. -/
theorem constructSubsetF_spec {n : Nat} {g : Nfa n} {ord : MapOrd n}
    (hlaw : Lawful ord) :
    ∀ (fuel : Nat) (rootLab : List Nat) (ctx ctx' : BCtx n),
      constructSubsetF g ord fuel rootLab ctx = some ctx' → Wf ctx →
      Wf ctx' ∧ Ext ctx ctx' ∧
      (∀ lab' nd', ctx'.nodes.lookup lab' = some nd' →
        ((∃ nd, ctx.nodes.lookup lab' = some nd ∧
          nd'.transitions = nd.transitions) ∧ lab' ≠ rootLab) ∨
        Done g ctx' nd') := by
  intro fuel
  induction fuel with
  | zero => intro rootLab ctx ctx' h; cases h
  | succ f ihf =>
    intro rootLab ctx ctx' hrun hwf
    simp only [constructSubsetF] at hrun
    cases hlook : ctx.nodes.lookup rootLab with
    | none => rw [hlook] at hrun; cases hrun
    | some root =>
      rw [hlook] at hrun
      have hrun' : (match processBlocks g ord (constructSubsetF g ord f)
          root.closures (splitPairs (rangesOf g root.closures)) ctx []
          with
        | none => none
        | some (ctx2, m) => some (setTransitions ctx2 rootLab
            ((sortTrans ctx2 (ord.mOrd m)).map (fun e => (e.2, e.1))))) =
          some ctx' := hrun
      clear hrun
      cases hpb : processBlocks g ord (constructSubsetF g ord f)
          root.closures (splitPairs (rangesOf g root.closures)) ctx []
          with
      | none => rw [hpb] at hrun'; cases hrun'
      | some pr =>
        obtain ⟨ctx2, m⟩ := pr
        rw [hpb] at hrun'
        rw [Option.some.injEq] at hrun'
        subst hrun'
        obtain ⟨hwf2, hext2, hm1, hmnd, hmsd, hchars, hnode⟩ :=
          processBlocks_spec hlaw _ ihf root.closures _ ctx [] ctx2 m
            hpb hwf
            (by intro e he; cases he)
            (by simp)
            (by intro lab0; exact trivial)
            (by intro lab0 c h; exact absurd h (mem_nil c))
            (splitPairs_pairwise _)
            (fun b hb => splitPairs_wf hb)
            (fun b hb => closuresForRange_ne_nil hb)
            (fun b hb cl hcl => by
              obtain ⟨t, rfl⟩ := mem_closuresForRange hcl
              exact closure_ne_nil g t)
        have hchars' : ∀ lab c, Mem c (mVal m lab) ↔
            ∃ blk ∈ splitPairs (rangesOf g root.closures),
              targetLab g ord root.closures blk = lab ∧
              blk.1 ≤ c ∧ c ≤ blk.2 := by
          intro lab c
          rw [hchars lab c]
          constructor
          · rintro (h | h)
            · exact absurd h (mem_nil c)
            · exact h
          · exact fun h => Or.inr h
        refine ⟨?_, ?_, ?_⟩
        · exact Wf_setTransitions hwf2 _ _
        · exact Ext_trans hext2 (Ext_setTransitions ctx2 rootLab _)
        · intro lab' nd' h
          rw [lookup_setTransitions] at h
          rw [Option.map_eq_some'] at h
          obtain ⟨nd2, hnd2, hfe⟩ := h
          by_cases hR : lab' = rootLab
          · subst hR
            rw [if_pos rfl] at hfe
            refine Or.inr ?_
            obtain ⟨ndx, hndx, _, _, _, hclx⟩ := hext2.2 lab' root hlook
            rw [hnd2] at hndx
            injection hndx with hndx
            have hclo : nd'.closures = root.closures := by
              rw [← hfe]
              show nd2.closures = root.closures
              rw [hndx, hclx]
            have htrs : nd'.transitions =
                (sortTrans ctx2 (ord.mOrd m)).map (fun e => (e.2, e.1)) := by
              rw [← hfe]
            have hdone2 : Done g ctx2 nd' :=
              rootTrans_done hlaw hwf2 hm1 hmnd hmsd hchars' hclo htrs
            exact Done_transfer hdone2 (Ext_setTransitions ctx2 lab' _)
              rfl rfl
          · rw [if_neg hR] at hfe
            rw [hfe] at hnd2
            rcases hnode lab' nd' hnd2 with ⟨nd, hnd, htr⟩ | hdone
            · exact Or.inl ⟨⟨nd, hnd, htr⟩, hR⟩
            · exact Or.inr (Done_transfer hdone
                (Ext_setTransitions ctx2 rootLab _) rfl rfl)

/-- Every node of a finished build carries the `Done` guarantees, and
the final context is wellformed. -/
theorem newFromNFA_done {n : Nat} {g : Nfa n} {ord : MapOrd n}
    (hlaw : Lawful ord) {root : Fin n} {ctx : BCtx n}
    {rootLab : List Nat}
    (h : newFromNFA g ord root = some (ctx, rootLab)) :
    Wf ctx ∧ ∀ e ∈ ctx.nodes, Done g ctx e.2 := by
  rw [newFromNFA] at h
  cases hc : constructSubsetF g ord (buildFuel n) (firstNode g root).2
      (firstNode g root).1 with
  | none => rw [hc] at h; cases h
  | some ctxf =>
    rw [hc] at h
    rw [Option.some.injEq, Prod.mk.injEq] at h
    obtain ⟨rfl, rfl⟩ := h
    have hwf0 : Wf (firstNode g root).1 := by
      constructor
      · exact List.nodup_singleton _
      · intro e he
        rcases List.mem_singleton.1 he with rfl
        exact ⟨rfl, closure_ne_nil g root⟩
    obtain ⟨hwf, _, hnode⟩ :=
      constructSubsetF_spec hlaw (buildFuel n) _ _ _ hc hwf0
    refine ⟨hwf, ?_⟩
    intro e he
    have hlk : ctxf.nodes.lookup e.1 = some e.2 := by
      obtain ⟨e1, e2⟩ := e
      exact mem_lookup hwf.1 he
    rcases hnode e.1 e.2 hlk with ⟨⟨nd, hnd, _⟩, hne⟩ | hdone
    · exfalso
      have : (firstNode g root).1.nodes = [((firstNode g root).2,
          ⟨1, isFinal g (closure g root), (firstNode g root).2,
            closure g root, []⟩)] := rfl
      rw [this, lookup_cons_ne hne] at hnd
      cases hnd
    · exact hdone

/-! ### Semantics of `canReachFinal` and `isFinal` -/

/-- One ε-edge step of the NFA graph. -/
def EpsStep {n : Nat} (g : Nfa n) (s t : Fin n) : Prop :=
  ∃ e ∈ g.T s, e.R = none ∧ e.N = t

/-- The state reaches a final state through ε-edges alone. -/
def ERF {n : Nat} (g : Nfa n) (s : Fin n) : Prop :=
  ∃ t, Relation.ReflTransGen (EpsStep g) s t ∧ g.F t = true

theorem canReachEdges_sound {n : Nat} {g : Nfa n}
    {recFn : Fin n → Finset (Fin n) → Bool × Finset (Fin n)}
    (hrec : ∀ s V, (recFn s V).1 = true → ERF g s) :
    ∀ (es : List (NfaEdge n)) (V : Finset (Fin n)),
      (canReachEdges recFn es V).1 = true →
      ∃ e ∈ es, e.R = none ∧ ERF g e.N := by
  intro es
  induction es with
  | nil => intro V h; cases h
  | cons e rest ihe =>
    intro V h
    cases hR : e.R with
    | some rs =>
      simp only [canReachEdges, hR] at h
      obtain ⟨e', he', hprop⟩ := ihe V h
      exact ⟨e', List.mem_cons.2 (Or.inr he'), hprop⟩
    | none =>
      simp only [canReachEdges, hR] at h
      by_cases hb : (recFn e.N V).1 = true
      · exact ⟨e, List.mem_cons_self _ _, hR, hrec _ _ hb⟩
      · rw [if_neg hb] at h
        obtain ⟨e', he', hprop⟩ := ihe _ h
        exact ⟨e', List.mem_cons.2 (Or.inr he'), hprop⟩

theorem canReachFinalF_sound {n : Nat} (g : Nfa n) :
    ∀ (fuel : Nat) (s : Fin n) (V : Finset (Fin n)),
      (canReachFinalF g fuel s V).1 = true → ERF g s := by
  intro fuel
  induction fuel with
  | zero => intro s V h; cases h
  | succ f ihf =>
    intro s V h
    simp only [canReachFinalF] at h
    by_cases hF : g.F s = true
    · exact ⟨s, Relation.ReflTransGen.refl, hF⟩
    · rw [if_neg hF] at h
      by_cases hmem : s ∈ V
      · rw [if_pos hmem] at h
        cases h
      · rw [if_neg hmem] at h
        obtain ⟨e, he, hR, t, hpath, hFt⟩ :=
          canReachEdges_sound (fun t W ht => ihf t W ht) _ _ h
        exact ⟨t, Relation.ReflTransGen.head ⟨e, he, hR, rfl⟩ hpath, hFt⟩

/-- The visited set is ε-closed and non-final, except at the pending
(currently explored) states `P`. -/
def EpsClosed {n : Nat} (g : Nfa n) (V P : Finset (Fin n)) : Prop :=
  ∀ v ∈ V, v ∈ P ∨
    (¬ g.F v = true ∧ ∀ t : Fin n, EpsStep g v t → t ∈ V)

theorem canReachEdges_false {n : Nat} {g : Nfa n}
    {recFn : Fin n → Finset (Fin n) → Bool × Finset (Fin n)}
    {P : Finset (Fin n)} {C : Finset (Fin n) → Prop}
    (hCmono : ∀ {W W' : Finset (Fin n)}, C W → W ⊆ W' → C W')
    (hrec : ∀ s W, C W → EpsClosed g W P → (recFn s W).1 = false →
      W ⊆ (recFn s W).2 ∧ s ∈ (recFn s W).2 ∧
      EpsClosed g (recFn s W).2 P) :
    ∀ (es : List (NfaEdge n)) (W : Finset (Fin n)),
      C W → EpsClosed g W P →
      (canReachEdges recFn es W).1 = false →
      W ⊆ (canReachEdges recFn es W).2 ∧
      EpsClosed g (canReachEdges recFn es W).2 P ∧
      C (canReachEdges recFn es W).2 ∧
      ∀ e ∈ es, e.R = none → e.N ∈ (canReachEdges recFn es W).2 := by
  intro es
  induction es with
  | nil =>
    intro W hC hcl _
    exact ⟨Finset.Subset.refl W, hcl, hC, fun e he => absurd he
      (List.not_mem_nil e)⟩
  | cons e rest ihe =>
    intro W hC hcl h
    cases hR : e.R with
    | some rs =>
      simp only [canReachEdges, hR] at h ⊢
      obtain ⟨hsub, hcl2, hC2, htg⟩ := ihe W hC hcl h
      refine ⟨hsub, hcl2, hC2, ?_⟩
      intro e' he' hR'
      rcases List.mem_cons.1 he' with rfl | hm
      · rw [hR] at hR'; cases hR'
      · exact htg e' hm hR'
    | none =>
      simp only [canReachEdges, hR] at h ⊢
      by_cases hb : (recFn e.N W).1 = true
      · rw [if_pos hb] at h
        cases h
      · rw [if_neg hb] at h ⊢
        have hb' : (recFn e.N W).1 = false := by
          cases hv : (recFn e.N W).1
          · rfl
          · exact absurd hv hb
        obtain ⟨hsub1, hmem1, hcl1⟩ := hrec e.N W hC hcl hb'
        obtain ⟨hsub2, hcl2, hC2, htg⟩ :=
          ihe _ (hCmono hC hsub1) hcl1 h
        refine ⟨Finset.Subset.trans hsub1 hsub2, hcl2, hC2, ?_⟩
        intro e' he' hR'
        rcases List.mem_cons.1 he' with rfl | hm
        · exact hsub2 hmem1
        · exact htg e' hm hR'

theorem canReachFinalF_false {n : Nat} (g : Nfa n) :
    ∀ (fuel : Nat) (s : Fin n) (V P : Finset (Fin n)),
      n ≤ fuel + V.card →
      EpsClosed g V P →
      (canReachFinalF g fuel s V).1 = false →
      V ⊆ (canReachFinalF g fuel s V).2 ∧
      s ∈ (canReachFinalF g fuel s V).2 ∧
      EpsClosed g (canReachFinalF g fuel s V).2 P := by
  intro fuel
  induction fuel with
  | zero =>
    intro s V P hfuel hcl _
    have hcard : V.card = n := le_antisymm
      (le_trans (Finset.card_le_card (Finset.subset_univ V))
        (by rw [Finset.card_univ, Fintype.card_fin]))
      (by omega)
    have huniv : V = Finset.univ := Finset.eq_univ_of_card V
      (by rw [hcard, Fintype.card_fin])
    exact ⟨Finset.Subset.refl V, by rw [huniv]; exact Finset.mem_univ s,
      hcl⟩
  | succ f ihf =>
    intro s V P hfuel hcl h
    simp only [canReachFinalF] at h ⊢
    by_cases hF : g.F s = true
    · rw [if_pos hF] at h
      cases h
    · rw [if_neg hF] at h ⊢
      by_cases hmem : s ∈ V
      · rw [if_pos hmem] at h ⊢
        exact ⟨Finset.Subset.refl V, hmem, hcl⟩
      · rw [if_neg hmem] at h ⊢
        have hcl1 : EpsClosed g (insert s V) (insert s P) := by
          intro v hv
          rcases Finset.mem_insert.1 hv with rfl | hvV
          · exact Or.inl (Finset.mem_insert_self v P)
          · rcases hcl v hvV with hp | ⟨hnf, hsucc⟩
            · exact Or.inl (Finset.mem_insert_of_mem hp)
            · exact Or.inr ⟨hnf, fun t ht =>
                Finset.mem_insert_of_mem (hsucc t ht)⟩
        have hC1 : n ≤ f + (insert s V).card := by
          rw [Finset.card_insert_of_not_mem hmem]
          omega
        obtain ⟨hsub2, hcl2, hC2, htg⟩ :=
          canReachEdges_false
            (C := fun W => n ≤ f + W.card)
            (fun hCW hWW => le_trans hCW
              (by have := Finset.card_le_card hWW; omega))
            (fun t W hCW hclW hfW => ihf t W (insert s P) hCW hclW hfW)
            (g.T s) (insert s V) hC1 hcl1 h
        refine ⟨?_, ?_, ?_⟩
        · exact Finset.Subset.trans (Finset.subset_insert s V) hsub2
        · exact hsub2 (Finset.mem_insert_self s V)
        · intro v hv
          rcases hcl2 v hv with hp | hclosed
          · rcases Finset.mem_insert.1 hp with rfl | hpP
            · refine Or.inr ⟨hF, ?_⟩
              rintro t ⟨e, he, hRe, rfl⟩
              exact htg e he hRe
            · exact Or.inl hpP
          · exact Or.inr hclosed

theorem not_ERF_of_closed {n : Nat} {g : Nfa n} {V : Finset (Fin n)}
    (hcl : EpsClosed g V ∅) : ∀ s ∈ V, ¬ ERF g s := by
  intro s hs
  rintro ⟨t, hpath, hFt⟩
  have hall : ∀ u, Relation.ReflTransGen (EpsStep g) s u → u ∈ V := by
    intro u hu
    induction hu with
    | refl => exact hs
    | tail hab hstep ihu =>
      rcases hcl _ ihu with hp | ⟨_, hsucc⟩
      · exact absurd hp (Finset.not_mem_empty _)
      · exact hsucc _ hstep
  rcases hcl t (hall t hpath) with hp | ⟨hnf, _⟩
  · exact absurd hp (Finset.not_mem_empty _)
  · exact hnf hFt

theorem isFinal_fold {n : Nat} (g : Nfa n) :
    ∀ (cls : List (Fin n)) (b : Bool) (V : Finset (Fin n)),
      (b = false → EpsClosed g V ∅) →
      ((cls.foldl (fun acc s => if acc.1 then acc
        else canReachFinalF g n s acc.2) (b, V)).1 = true ↔
        (b = true ∨ ∃ s ∈ cls, ERF g s)) := by
  intro cls
  induction cls with
  | nil =>
    intro b V _
    simp
  | cons s rest ihc =>
    intro b V hV
    rw [List.foldl_cons]
    cases b with
    | true =>
      rw [if_pos rfl]
      rw [ihc true V (fun h => by cases h)]
      simp
    | false =>
      have hcl := hV rfl
      rw [if_neg (fun h : (false, V).1 = true => by cases h)]
      cases hr1 : (canReachFinalF g n s V).1 with
      | true =>
        have herf : ERF g s := canReachFinalF_sound g n s V hr1
        have hiff := ihc (canReachFinalF g n s V).1
          (canReachFinalF g n s V).2
          (fun hfalse => by rw [hfalse] at hr1; cases hr1)
        constructor
        · intro _
          exact Or.inr ⟨s, List.mem_cons_self _ _, herf⟩
        · intro _
          exact hiff.2 (Or.inl hr1)
      | false =>
        obtain ⟨hsub, hsmem, hcl2⟩ := canReachFinalF_false g n s V ∅
          (Nat.le_add_right n V.card) hcl hr1
        have hnerf : ¬ ERF g s := not_ERF_of_closed hcl2 s hsmem
        have hiff := ihc (canReachFinalF g n s V).1
          (canReachFinalF g n s V).2 (fun _ => hcl2)
        rw [hiff, hr1]
        constructor
        · rintro (h | h)
          · cases h
          · exact Or.inr ⟨_, List.mem_cons.2 (Or.inr h.choose_spec.1),
              h.choose_spec.2⟩
        · rintro (h | hex)
          · cases h
          · obtain ⟨x, hx, herf⟩ := hex
            rcases List.mem_cons.1 hx with rfl | hxr
            · exact absurd herf hnerf
            · exact Or.inr ⟨x, hxr, herf⟩

/-- `isFinal` is true exactly when some closure state ε-reaches a final
state (the shared visited set never hides a reachable final state). -/
theorem isFinal_iff {n : Nat} (g : Nfa n) (cls : List (Fin n)) :
    isFinal g cls = true ↔ ∃ s ∈ cls, ERF g s := by
  rw [isFinal, isFinal_fold g cls false ∅
    (fun _ v hv => absurd hv (Finset.not_mem_empty v))]
  constructor
  · rintro (h | h)
    · cases h
    · exact h
  · exact fun h => Or.inr h

/-- `isFinal` only depends on the set of closure states: it is invariant
under permutation of the closure slice (the map-iteration variation of
`union`). -/
theorem isFinal_perm {n : Nat} (g : Nfa n) {c1 c2 : List (Fin n)}
    (h : c1.Perm c2) : isFinal g c1 = isFinal g c2 := by
  cases h1 : isFinal g c1 with
  | true =>
    obtain ⟨s, hs, herf⟩ := (isFinal_iff g c1).1 h1
    exact ((isFinal_iff g c2).2 ⟨s, h.subset hs, herf⟩).symm
  | false =>
    cases h2 : isFinal g c2 with
    | true =>
      obtain ⟨s, hs, herf⟩ := (isFinal_iff g c2).1 h2
      have := (isFinal_iff g c1).2 ⟨s, h.symm.subset hs, herf⟩
      rw [h1] at this
      cases this
    | false => rfl

/-! ### Two runs of the builder (claim C7): simulation up to
permutation of the map-iteration-ordered slices -/

/-- Corresponding nodes of two runs: equal state id, final flag and
canonical label; closure and transition slices equal up to
permutation. -/
def SimNode {n : Nat} (a b : BNode n) : Prop :=
  a.state = b.state ∧ a.final = b.final ∧ a.label = b.label ∧
  a.closures.Perm b.closures ∧ a.transitions.Perm b.transitions

/-- Corresponding build contexts of two runs. -/
def SimCtx {n : Nat} (A B : BCtx n) : Prop :=
  A.state = B.state ∧
  List.Forall₂ (fun eA eB : List Nat × BNode n =>
    eA.1 = eB.1 ∧ SimNode eA.2 eB.2) A.nodes B.nodes

theorem SimNode_refl {n : Nat} (a : BNode n) : SimNode a a :=
  ⟨rfl, rfl, rfl, List.Perm.refl _, List.Perm.refl _⟩

theorem SimCtx_refl {n : Nat} (A : BCtx n) : SimCtx A A :=
  ⟨rfl, List.forall₂_same.2 (fun e _ => ⟨rfl, SimNode_refl e.2⟩)⟩

theorem forall₂_append {α β : Type} {r : α → β → Prop}
    {l1 l3 : List α} {l2 l4 : List β} (h1 : List.Forall₂ r l1 l2)
    (h2 : List.Forall₂ r l3 l4) : List.Forall₂ r (l1 ++ l3) (l2 ++ l4) := by
  induction h1 with
  | nil => exact h2
  | cons hab _ ih => exact List.Forall₂.cons hab ih

/-- Corresponding contexts agree on which labels are present, and their
nodes at one label correspond. -/
theorem lookup_sim {n : Nat} {A B : BCtx n} (h : SimCtx A B)
    (lab : List Nat) :
    (A.nodes.lookup lab = none ∧ B.nodes.lookup lab = none) ∨
    (∃ na nb, A.nodes.lookup lab = some na ∧
      B.nodes.lookup lab = some nb ∧ SimNode na nb) := by
  obtain ⟨_, h2⟩ := h
  revert h2
  generalize A.nodes = la
  generalize B.nodes = lb
  intro h2
  induction h2 with
  | nil => exact Or.inl ⟨rfl, rfl⟩
  | cons hab htail ih =>
    rename_i a b l1 l2
    obtain ⟨ka, na⟩ := a
    obtain ⟨kb, nb⟩ := b
    obtain ⟨hk, hsim⟩ := hab
    cases hk
    by_cases hl : lab = ka
    · subst hl
      rw [lookup_cons_self, lookup_cons_self]
      exact Or.inr ⟨na, nb, rfl, rfl, hsim⟩
    · rw [lookup_cons_ne hl, lookup_cons_ne hl]
      exact ih

/-- The canonical label only depends on the set of closure states. -/
theorem labelFromClosure_perm {n : Nat} {c1 c2 : List (Fin n)}
    (h : c1.Perm c2) : labelFromClosure c1 = labelFromClosure c2 := by
  unfold labelFromClosure
  refine List.eq_of_perm_of_sorted (r := (· ≤ · : Nat → Nat → Prop)) ?_
    (List.sorted_insertionSort _ _) (List.sorted_insertionSort _ _)
  refine ((List.perm_insertionSort _ _).trans ?_).trans
    (List.perm_insertionSort _ _).symm
  refine (List.perm_ext_iff_of_nodup (List.nodup_dedup _)
    (List.nodup_dedup _)).2 ?_
  intro a
  simp only [List.mem_dedup, List.mem_map]
  constructor <;> rintro ⟨x, hx, rfl⟩
  · exact ⟨x, h.subset hx, rfl⟩
  · exact ⟨x, h.symm.subset hx, rfl⟩

/-- `union` under two lawful oracles, on permuted closure families,
returns permuted closure slices. -/
theorem union_perm_of_perm {n : Nat} {ordA ordB : MapOrd n}
    (hA : Lawful ordA) (hB : Lawful ordB)
    {cA cB : List (List (Fin n))} (h : cA.Perm cB) :
    (union ordA cA).Perm (union ordB cB) := by
  have hlen := h.length_eq
  match cA, cB with
  | [], [] =>
    show (ordA.unionOrd [].flatten.dedup).Perm
      (ordB.unionOrd [].flatten.dedup)
    exact (hA.union_perm _).trans (hB.union_perm _).symm
  | [a], [b] =>
    have : a = b := by
      have := h.subset (List.mem_singleton.2 rfl)
      exact List.mem_singleton.1 this
    rw [this]
    exact List.Perm.refl _
  | [], _ :: _ => simp at hlen
  | _ :: _, [] => simp at hlen
  | [a], b :: b' :: bs => simp at hlen
  | a :: a' :: as, [b] => simp at hlen
  | a :: a' :: as, b :: b' :: bs =>
    show (ordA.unionOrd (a :: a' :: as).flatten.dedup).Perm
      (ordB.unionOrd (b :: b' :: bs).flatten.dedup)
    refine ((hA.union_perm _).trans ?_).trans (hB.union_perm _).symm
    have hfl : ((a :: a' :: as).flatten).Perm
        ((b :: b' :: bs).flatten) := h.flatten
    refine (List.perm_ext_iff_of_nodup (List.nodup_dedup _)
      (List.nodup_dedup _)).2 ?_
    intro x
    rw [List.mem_dedup, List.mem_dedup]
    exact ⟨fun hx => hfl.subset hx, fun hx => hfl.symm.subset hx⟩

/-- The block loop of two runs: with permuted root closures and the
same blocks, both runs succeed or fail together, build the same range
map, and keep corresponding contexts. -/
theorem processBlocks_sim {n : Nat} {g : Nfa n} {ordA ordB : MapOrd n}
    (hA : Lawful ordA) (hB : Lawful ordB)
    {recA recB : List Nat → BCtx n → Option (BCtx n)}
    (hrecSim : ∀ lab ctxA ctxB, SimCtx ctxA ctxB →
      (recA lab ctxA = none ∧ recB lab ctxB = none) ∨
      ∃ cA cB, recA lab ctxA = some cA ∧ recB lab ctxB = some cB ∧
        SimCtx cA cB)
    {rootClsA rootClsB : List (Fin n)} (hroot : rootClsA.Perm rootClsB) :
    ∀ (todo : List (Int × Int)) (ctxA ctxB : BCtx n)
      (m : List (List Nat × List Int)),
      SimCtx ctxA ctxB →
      (processBlocks g ordA recA rootClsA todo ctxA m = none ∧
       processBlocks g ordB recB rootClsB todo ctxB m = none) ∨
      ∃ cA cB m2,
        processBlocks g ordA recA rootClsA todo ctxA m = some (cA, m2) ∧
        processBlocks g ordB recB rootClsB todo ctxB m = some (cB, m2) ∧
        SimCtx cA cB := by
  intro todo
  induction todo with
  | nil =>
    intro ctxA ctxB m hsim
    exact Or.inr ⟨ctxA, ctxB, m, rfl, rfl, hsim⟩
  | cons blk rest ih =>
    intro ctxA ctxB m hsim
    have hcfr : (closuresForRange g rootClsA [blk.1, blk.2]).Perm
        (closuresForRange g rootClsB [blk.1, blk.2]) :=
      List.Perm.flatMap_right _ hroot
    have hcls : (union ordA (closuresForRange g rootClsA
        [blk.1, blk.2])).Perm (union ordB (closuresForRange g rootClsB
        [blk.1, blk.2])) := union_perm_of_perm hA hB hcfr
    have hlabs : labelFromClosure (union ordA (closuresForRange g
        rootClsA [blk.1, blk.2])) = labelFromClosure (union ordB
        (closuresForRange g rootClsB [blk.1, blk.2])) :=
      labelFromClosure_perm hcls
    simp only [processBlocks, ← hlabs]
    rcases lookup_sim hsim (labelFromClosure (union ordA
        (closuresForRange g rootClsA [blk.1, blk.2]))) with
      ⟨hnA, hnB⟩ | ⟨na, nb, hsA, hsB, _⟩
    · -- both allocate a fresh node and recurse into it
      rw [hnA, hnB]
      have hsim1 : SimCtx
          ⟨ctxA.state + 1, ctxA.nodes ++ [(labelFromClosure (union ordA
            (closuresForRange g rootClsA [blk.1, blk.2])),
            ⟨ctxA.state + 1, isFinal g (union ordA (closuresForRange g
              rootClsA [blk.1, blk.2])),
            labelFromClosure (union ordA (closuresForRange g rootClsA
              [blk.1, blk.2])),
            union ordA (closuresForRange g rootClsA [blk.1, blk.2]),
            []⟩)]⟩
          ⟨ctxB.state + 1, ctxB.nodes ++ [(labelFromClosure (union ordA
            (closuresForRange g rootClsA [blk.1, blk.2])),
            ⟨ctxB.state + 1, isFinal g (union ordB (closuresForRange g
              rootClsB [blk.1, blk.2])),
            labelFromClosure (union ordA (closuresForRange g rootClsA
              [blk.1, blk.2])),
            union ordB (closuresForRange g rootClsB [blk.1, blk.2]),
            []⟩)]⟩ := by
        refine ⟨by rw [hsim.1], ?_⟩
        refine forall₂_append hsim.2 ?_
        refine List.Forall₂.cons ⟨rfl, ?_⟩ List.Forall₂.nil
        exact ⟨by rw [hsim.1], isFinal_perm g hcls, rfl, hcls,
          List.Perm.refl _⟩
      rcases hrecSim _ _ _ hsim1 with ⟨hrA, hrB⟩ |
        ⟨cA1, cB1, hrA, hrB, hsim2⟩
      · rw [hrA, hrB]
        exact Or.inl ⟨rfl, rfl⟩
      · rw [hrA, hrB]
        exact ih cA1 cB1 _ hsim2
    · -- the label exists in both runs
      rw [hsA, hsB]
      exact ih ctxA ctxB _ hsim

/-- `constructSubset` of two runs keeps corresponding contexts. -/
theorem constructSubsetF_sim {n : Nat} {g : Nfa n} {ordA ordB : MapOrd n}
    (hA : Lawful ordA) (hB : Lawful ordB) :
    ∀ (fuel : Nat) (rootLab : List Nat) (ctxA ctxB : BCtx n),
      SimCtx ctxA ctxB →
      (constructSubsetF g ordA fuel rootLab ctxA = none ∧
       constructSubsetF g ordB fuel rootLab ctxB = none) ∨
      ∃ cA cB, constructSubsetF g ordA fuel rootLab ctxA = some cA ∧
        constructSubsetF g ordB fuel rootLab ctxB = some cB ∧
        SimCtx cA cB := by
  intro fuel
  induction fuel with
  | zero => intro rootLab ctxA ctxB _; exact Or.inl ⟨rfl, rfl⟩
  | succ f ihf =>
    intro rootLab ctxA ctxB hsim
    simp only [constructSubsetF]
    rcases lookup_sim hsim rootLab with ⟨hnA, hnB⟩ |
      ⟨rootA, rootB, hsA, hsB, hsimR⟩
    · rw [hnA, hnB]
      exact Or.inl ⟨rfl, rfl⟩
    · simp only [hsA, hsB]
      have hclsP : rootA.closures.Perm rootB.closures := hsimR.2.2.2.1
      have hblocks : splitPairs (rangesOf g rootB.closures) =
          splitPairs (rangesOf g rootA.closures) :=
        splitPairs_perm (List.Perm.flatMap_right _ hclsP.symm)
      rw [hblocks]
      rcases processBlocks_sim hA hB ihf hclsP
          (splitPairs (rangesOf g rootA.closures)) ctxA ctxB [] hsim with
        ⟨hpA, hpB⟩ | ⟨cA2, cB2, m2, hpA, hpB, hsim2⟩
      · rw [hpA, hpB]
        exact Or.inl ⟨rfl, rfl⟩
      · rw [hpA, hpB]
        refine Or.inr ⟨_, _, rfl, rfl, ?_⟩
        have htsP : ((sortTrans cA2 (ordA.mOrd m2)).map
            (fun e => (e.2, e.1))).Perm
            ((sortTrans cB2 (ordB.mOrd m2)).map (fun e => (e.2, e.1))) := by
          refine List.Perm.map _ ?_
          have h1 : (sortTrans cA2 (ordA.mOrd m2)).Perm (ordA.mOrd m2) := by
            rw [sortTrans]
            exact List.perm_insertionSort _ _
          have h2 : (sortTrans cB2 (ordB.mOrd m2)).Perm (ordB.mOrd m2) := by
            rw [sortTrans]
            exact List.perm_insertionSort _ _
          exact h1.trans ((hA.m_perm m2).trans
            ((hB.m_perm m2).symm.trans h2.symm))
        refine ⟨hsim2.1, ?_⟩
        show List.Forall₂ _ (cA2.nodes.map _) (cB2.nodes.map _)
        rw [List.forall₂_map_left_iff, List.forall₂_map_right_iff]
        refine hsim2.2.imp ?_
        rintro eA eB ⟨hk, hn⟩
        by_cases hR : eA.1 = rootLab
        · rw [if_pos hR, if_pos (hk.symm.trans hR)]
          exact ⟨hk, hn.1, hn.2.1, hn.2.2.1, hn.2.2.2.1, htsP⟩
        · rw [if_neg hR, if_neg (fun h => hR (hk.trans h))]
          exact ⟨hk, hn⟩

/-- Two runs of `NewFromNFA` on one NFA either both fail or both yield
the same root label and corresponding contexts. -/
theorem newFromNFA_sim {n : Nat} (g : Nfa n) {ordA ordB : MapOrd n}
    (hA : Lawful ordA) (hB : Lawful ordB) (root : Fin n) :
    (newFromNFA g ordA root = none ∧ newFromNFA g ordB root = none) ∨
    ∃ ctxA ctxB,
      newFromNFA g ordA root = some (ctxA, (firstNode g root).2) ∧
      newFromNFA g ordB root = some (ctxB, (firstNode g root).2) ∧
      SimCtx ctxA ctxB := by
  rcases constructSubsetF_sim (g := g) hA hB (buildFuel n)
      (firstNode g root).2 (firstNode g root).1 (firstNode g root).1
      (SimCtx_refl _) with
    ⟨hnA, hnB⟩ | ⟨cA, cB, hsA, hsB, hsim⟩
  · refine Or.inl ⟨?_, ?_⟩
    · simp [newFromNFA, hnA]
    · simp [newFromNFA, hnB]
  · refine Or.inr ⟨cA, cB, ?_, ?_, hsim⟩
    · simp [newFromNFA, hsA]
    · simp [newFromNFA, hsB]

/-! ### Fuel sufficiency: the build always succeeds -/

theorem keysF_sub_of_ext {n : Nat} {ctx ctx' : BCtx n}
    (h : Ext ctx ctx') : keysF ctx ⊆ keysF ctx' := by
  obtain ⟨rest, hrest⟩ := h.1
  intro x hx
  rw [keysF, List.mem_toFinset] at hx ⊢
  rw [hrest]
  exact List.mem_append.2 (Or.inl hx)

theorem processBlocks_isSome {n : Nat} {g : Nfa n} {ord : MapOrd n}
    (hlaw : Lawful ord) {fuel : Nat}
    (hrecSome : ∀ lab ctx, Wf ctx → (ctx.nodes.lookup lab).isSome →
      (allLabels n \ keysF ctx).card < fuel →
      (constructSubsetF g ord fuel lab ctx).isSome)
    (rootCls : List (Fin n)) :
    ∀ (todo : List (Int × Int)) (ctx : BCtx n)
      (m : List (List Nat × List Int)),
      Wf ctx →
      (allLabels n \ keysF ctx).card ≤ fuel →
      (∀ b ∈ todo, closuresForRange g rootCls [b.1, b.2] ≠ []) →
      (∀ b ∈ todo, ∀ cl ∈ closuresForRange g rootCls [b.1, b.2],
        cl ≠ []) →
      (processBlocks g ord (constructSubsetF g ord fuel) rootCls todo
        ctx m).isSome := by
  intro todo
  induction todo with
  | nil => intro ctx m _ _ _ _; rfl
  | cons blk rest ih =>
    intro ctx m hwf hcard hcov hcfr
    simp only [processBlocks]
    set cls := union ord (closuresForRange g rootCls [blk.1, blk.2])
      with hcls
    set lab := labelFromClosure cls with hlab
    have hclsne : cls ≠ [] :=
      union_ne_nil hlaw (hcov blk (List.mem_cons_self _ _))
        (hcfr blk (List.mem_cons_self _ _))
    cases hlook : ctx.nodes.lookup lab with
    | some nd0 =>
      exact ih ctx _ hwf hcard
        (fun b hb => hcov b (List.mem_cons.2 (Or.inr hb)))
        (fun b hb => hcfr b (List.mem_cons.2 (Or.inr hb)))
    | none =>
      set node : BNode n :=
        ⟨ctx.state + 1, isFinal g cls, lab, cls, []⟩ with hnodedef
      set ctx1 : BCtx n :=
        ⟨ctx.state + 1, ctx.nodes ++ [(lab, node)]⟩ with hctx1def
      have hlabn : lab ∉ keysOf ctx := lookup_none_iff.1 hlook
      have hkeys1 : keysOf ctx1 = keysOf ctx ++ [lab] := by
        rw [hctx1def, keysOf, keysOf, List.map_append]
        rfl
      have hwf1 : Wf ctx1 := by
        constructor
        · rw [hkeys1]
          simp [List.nodup_append, hwf.1, List.disjoint_singleton, hlabn]
        · intro e he
          rw [hctx1def] at he
          rcases List.mem_append.1 he with h | h
          · exact hwf.2 e h
          · rcases List.mem_singleton.1 h with rfl
            exact ⟨rfl, hclsne⟩
      have hlook1 : ctx1.nodes.lookup lab = some node := by
        rw [hctx1def]
        show (ctx.nodes ++ [(lab, node)]).lookup lab = some node
        rw [lookup_append, hlook, Option.none_or, lookup_cons_self]
      have hkF1 : keysF ctx1 = insert lab (keysF ctx) := by
        rw [keysF, keysF, keysOf] at *
        rw [hkeys1]
        rw [List.toFinset_append]
        rw [Finset.union_comm]
        rfl
      have hlabAll : lab ∈ allLabels n := labelFromClosure_mem_allLabels cls
      have hcard1 : (allLabels n \ keysF ctx1).card <
          (allLabels n \ keysF ctx).card := by
        refine Finset.card_lt_card ?_
        rw [hkF1]
        constructor
        · intro x hx
          rw [Finset.mem_sdiff] at hx ⊢
          refine ⟨hx.1, fun hk => hx.2 (Finset.mem_insert_of_mem hk)⟩
        · intro hsub
          have hlabIn : lab ∈ allLabels n \ keysF ctx := by
            rw [Finset.mem_sdiff]
            refine ⟨hlabAll, ?_⟩
            rw [keysF, List.mem_toFinset]
            exact hlabn
          have := hsub hlabIn
          rw [Finset.mem_sdiff] at this
          exact this.2 (Finset.mem_insert_self lab _)
      have hsome1 : (constructSubsetF g ord fuel lab ctx1).isSome :=
        hrecSome lab ctx1 hwf1 (by rw [hlook1]; rfl) (by omega)
      obtain ⟨ctxr, hctxr⟩ := Option.isSome_iff_exists.1 hsome1
      rw [hctxr]
      obtain ⟨hwfr, hextr, _⟩ :=
        constructSubsetF_spec hlaw fuel lab ctx1 ctxr hctxr hwf1
      refine ih ctxr _ hwfr ?_
        (fun b hb => hcov b (List.mem_cons.2 (Or.inr hb)))
        (fun b hb => hcfr b (List.mem_cons.2 (Or.inr hb)))
      have hsub : keysF ctx1 ⊆ keysF ctxr := keysF_sub_of_ext hextr
      have : (allLabels n \ keysF ctxr).card ≤
          (allLabels n \ keysF ctx1).card := by
        refine Finset.card_le_card ?_
        intro x hx
        rw [Finset.mem_sdiff] at hx ⊢
        exact ⟨hx.1, fun hk => hx.2 (hsub hk)⟩
      omega

theorem constructSubsetF_isSome {n : Nat} {g : Nfa n} {ord : MapOrd n}
    (hlaw : Lawful ord) :
    ∀ (fuel : Nat) (rootLab : List Nat) (ctx : BCtx n), Wf ctx →
      (ctx.nodes.lookup rootLab).isSome →
      (allLabels n \ keysF ctx).card < fuel →
      (constructSubsetF g ord fuel rootLab ctx).isSome := by
  intro fuel
  induction fuel with
  | zero => intro rootLab ctx _ _ h; omega
  | succ f ihf =>
    intro rootLab ctx hwf hlook hcard
    obtain ⟨root, hroot⟩ := Option.isSome_iff_exists.1 hlook
    simp only [constructSubsetF, hroot]
    have hps : (processBlocks g ord (constructSubsetF g ord f)
        root.closures (splitPairs (rangesOf g root.closures)) ctx
        []).isSome :=
      processBlocks_isSome hlaw ihf root.closures _ ctx [] hwf
        (by omega)
        (fun b hb => closuresForRange_ne_nil hb)
        (fun b hb cl hcl => by
          obtain ⟨t, rfl⟩ := mem_closuresForRange hcl
          exact closure_ne_nil g t)
    obtain ⟨pr, hpr⟩ := Option.isSome_iff_exists.1 hps
    obtain ⟨ctx2, m⟩ := pr
    rw [hpr]
    rfl

/-- `NewFromNFA` always succeeds: `2^n + 1` fuel covers every build. -/
theorem newFromNFA_isSome {n : Nat} (g : Nfa n) (ord : MapOrd n)
    (root : Fin n) (hlaw : Lawful ord) :
    (newFromNFA g ord root).isSome := by
  have hwf0 : Wf (firstNode g root).1 := by
    constructor
    · exact List.nodup_singleton _
    · intro e he
      rcases List.mem_singleton.1 he with rfl
      exact ⟨rfl, closure_ne_nil g root⟩
  have hlook0 : ((firstNode g root).1.nodes.lookup
      (firstNode g root).2).isSome := by
    rw [show (firstNode g root).1.nodes =
      [((firstNode g root).2, ⟨1, isFinal g (closure g root),
        (firstNode g root).2, closure g root, []⟩)] from rfl]
    rw [lookup_cons_self]
    rfl
  have hcard : (allLabels n \ keysF (firstNode g root).1).card <
      buildFuel n := by
    have h1 : (allLabels n \ keysF (firstNode g root).1).card ≤
        (allLabels n).card :=
      Finset.card_le_card (Finset.sdiff_subset)
    have h2 := card_allLabels_le n
    rw [buildFuel]
    omega
  have := constructSubsetF_isSome (g := g) hlaw (buildFuel n)
    (firstNode g root).2 (firstNode g root).1 hwf0 hlook0 hcard
  obtain ⟨ctxf, hctxf⟩ := Option.isSome_iff_exists.1 this
  rw [newFromNFA, hctxf]
  rfl

end DfaBuild

/-! ### `Node.Print` and the package-level visited set -/

/-- One output line of `Node.Print`: either the node line or a
transition line (the printed strings are injective images of these). -/
inductive PrintEv (n : Nat) where
  | node (s : Fin n)
  | trans (rr : List Int) (t : Fin n)
  deriving DecidableEq

/-- The loop over `n.Transitions` in `Print`: skip a visited target,
otherwise mark it, print the transition line and recurse. -/
def printEdges {n : Nat}
    (recFn : Fin n → Finset (Fin n) → List (PrintEv n) × Finset (Fin n)) :
    List (List Int × Fin n) → Finset (Fin n) →
    List (PrintEv n) × Finset (Fin n)
  | [], visited => ([], visited)
  | t :: rest, visited =>
    if t.2 ∈ visited then printEdges recFn rest visited
    else
      let r1 := recFn t.2 (insert t.2 visited)
      let r2 := printEdges recFn rest r1.2
      (PrintEv.trans t.1 t.2 :: (r1.1 ++ r2.1), r2.2)

/-- `dfa.Node.Print` (from the source), with structural fuel: every
recursive call is preceded by inserting an unvisited target, so depth
`n + 1` is never exhausted — at fuel `0` every state is visited and the
edge loop would print nothing, matching `([node s], visited)`. -/
def printF {n : Nat} (d : Dfa n) :
    Nat → Fin n → Finset (Fin n) → List (PrintEv n) × Finset (Fin n)
  | 0, s, visited => ([PrintEv.node s], visited)
  | fuel + 1, s, visited =>
    let r := printEdges (printF d fuel) (d.trans s) visited
    (PrintEv.node s :: r.1, r.2)

/-- One call of `Node.Print`.  The `visited` map is PACKAGE-LEVEL state
in the Go code (`var visited = make(map[*Node]bool)` in `dfa.go`),
never reset between calls, so a call both reads the marks left by
earlier calls and leaves its own behind; the global map is modelled by
threading it in and out. -/
def printCall {n : Nat} (d : Dfa n) (s : Fin n)
    (globalVisited : Finset (Fin n)) :
    List (PrintEv n) × Finset (Fin n) :=
  printF d (n + 1) s globalVisited

/-- The two-state DFA `0 --[a,a]--> 1` used to exhibit the stale
package-level visited state. -/
def dfaC9 : Dfa 2 :=
  ⟨fun _ => false, fun i => if i.val = 0 then [([97, 97], 1)] else []⟩

/-- C9: the code keeps a package-level `visited` map that `Node.Print`
reads and writes and that survives the call; an earlier `Print` call
changes the output of a later one (the claim asserts no exported
operation keeps such state).  First call: three lines; second
identical call: one line, the shared target being stale-visited. -/
theorem claim_C9 :
    (printCall dfaC9 0 ∅).1 =
      [PrintEv.node 0, PrintEv.trans [97, 97] 1, PrintEv.node 1] ∧
    (printCall dfaC9 0 (printCall dfaC9 0 ∅).2).1 = [PrintEv.node 0] ∧
    (printCall dfaC9 0 (printCall dfaC9 0 ∅).2).1 ≠
      (printCall dfaC9 0 ∅).1 := by
  decide

/-! ### `HasIntersection`: error propagation (`C3`) -/

/-- The wrapped error of `convert2Dfa`: `errors.Wrap(err, "invalid
regexp: <expr>")` keeps the offending expression and the underlying
diagnostic. -/
structure CompileErr where
  expr : String
  cause : String
  deriving DecidableEq

/-- A compiled NFA as returned by the external `nfa.New`, together with
the map-iteration oracle its DFA build will consume. -/
structure NfaPack where
  n : Nat
  g : Nfa n
  root : Fin n
  ord : DfaBuild.MapOrd n

/-- The external compile steps, abstracted: what `regexp.Compile`
returns (`none` = ok) and what `nfa.New` returns, per expression. -/
structure CompileEnv where
  regexpCompile : String → Option String
  nfaNew : String → Except String NfaPack

/-- A DFA with a chosen root, as handed to the search. -/
structure BuiltDfa where
  n : Nat
  d : Dfa n
  root : Fin n

/-- The outcome of `convert2Dfa`: a value, a returned error, or process
termination by `log.Fatal`. -/
inductive ConvResult where
  | ok (p : BuiltDfa)
  | err (e : CompileErr)
  | fatal (msg : String)

/-- Index of a label in the build context (used to convert the built
graph to the index-based `Dfa`); falls back to the given default, which
never happens for labels the builder stored (proved below). -/
def labelIdx {n : Nat} (ctx : DfaBuild.BCtx n) (lab : List Nat)
    (dflt : Fin ctx.nodes.length) : Fin ctx.nodes.length :=
  if h : ctx.nodes.findIdx (fun e => e.1 == lab) < ctx.nodes.length then
    ⟨ctx.nodes.findIdx (fun e => e.1 == lab), h⟩
  else dflt

/-- The built context as an index-based `Dfa` (state `i` is the `i`-th
allocated node; the Go `State` ids are `i + 1` in allocation order). -/
def BCtxToDfa {n : Nat} (ctx : DfaBuild.BCtx n) : Dfa ctx.nodes.length where
  final := fun i => (ctx.nodes.get i).2.final
  trans := fun i => (ctx.nodes.get i).2.transitions.map
    (fun t => (t.1, labelIdx ctx t.2 i))

/-- The `BuiltDfa` of one `dfa.NewFromNFA` run (the build never fails
and always contains the root node; the junk branches are dead, see
`newFromNFA_isSome`). -/
def buildOf (p : NfaPack) : BuiltDfa :=
  match DfaBuild.newFromNFA p.g p.ord p.root with
  | some (ctx, rootLab) =>
    if h : 0 < ctx.nodes.length then
      ⟨ctx.nodes.length, BCtxToDfa ctx, labelIdx ctx rootLab ⟨0, h⟩⟩
    else ⟨1, ⟨fun _ => false, fun _ => []⟩, ⟨0, Nat.zero_lt_one⟩⟩
  | none => ⟨1, ⟨fun _ => false, fun _ => []⟩, ⟨0, Nat.zero_lt_one⟩⟩

/-- `intersection.convert2Dfa` (from the source): a `regexp.Compile`
error is wrapped (with the offending expression) and returned; an
`nfa.New` error goes to `log.Fatal`, terminating the process;
`dfa.NewFromNFA` never errors. -/
def convert2Dfa (env : CompileEnv) (expr : String) : ConvResult :=
  match env.regexpCompile expr with
  | some diag => ConvResult.err ⟨expr, diag⟩
  | none =>
    match env.nfaNew expr with
    | Except.error e => ConvResult.fatal e
    | Except.ok p => ConvResult.ok (buildOf p)

/-- The observable outcome of one `HasIntersection` call. -/
inductive HIResult where
  | ret (b : Bool) (e : Option CompileErr)
  | fatal (msg : String)
  deriving DecidableEq

/-- `intersection.HasIntersection` (from the source): convert `expr2`
FIRST, then `expr1`; a conversion error returns `(false, err)`;
otherwise the product DFS runs from the pair of root nodes with a fresh
node map and visited set. -/
def hasIntersection (env : CompileEnv) (e1 e2 : String) : HIResult :=
  match convert2Dfa env e2 with
  | ConvResult.fatal m => HIResult.fatal m
  | ConvResult.err e => HIResult.ret false (some e)
  | ConvResult.ok d2 =>
    match convert2Dfa env e1 with
    | ConvResult.fatal m => HIResult.fatal m
    | ConvResult.err e => HIResult.ret false (some e)
    | ConvResult.ok d1 =>
      HIResult.ret (Intersection.dfs d1.d d2.d d1.root d2.root) none

/-- `HasIntersection` returned a non-nil error. -/
def ReturnsErr (r : HIResult) : Prop := ∃ b e, r = HIResult.ret b (some e)

/-- The call died in `log.Fatal`. -/
def IsFatal (r : HIResult) : Prop := ∃ m, r = HIResult.fatal m

/-- `regexp.Compile` rejects the expression. -/
def RegexFails (env : CompileEnv) (e : String) : Prop :=
  ∃ d, env.regexpCompile e = some d

/-- `nfa.New` rejects the expression. -/
def NfaFails (env : CompileEnv) (e : String) : Prop :=
  ∃ m, env.nfaNew e = Except.error m

/-- An environment where every expression passes `regexp.Compile` but
`nfa.New` fails: compilation fails, yet no error is returned. -/
def envC3 : CompileEnv :=
  ⟨fun _ => none, fun _ => Except.error "unsupported by nfa"⟩

/-- C3, counterexample: when `regexp.Compile` succeeds but `nfa.New`
fails, the expression fails compilation, yet `HasIntersection` does not
return a non-nil error — it kills the process via `log.Fatal`. -/
theorem claim_C3_counterexample :
    NfaFails envC3 "a" ∧
    hasIntersection envC3 "a" "b" = HIResult.fatal "unsupported by nfa" ∧
    ¬ ReturnsErr (hasIntersection envC3 "a" "b") := by
  refine ⟨⟨"unsupported by nfa", rfl⟩, rfl, ?_⟩
  rintro ⟨b, e, h⟩
  rw [show hasIntersection envC3 "a" "b" =
    HIResult.fatal "unsupported by nfa" from rfl] at h
  cases h

/-- C3 amended: `HasIntersection` returns a non-nil error iff one of
the expressions fails the `regexp.Compile` validation (`expr2` is
checked first); on error the boolean is `false` and the error carries
the offending expression with the underlying diagnostic; but when an
expression passes `regexp.Compile` and `nfa.New` fails on it, the call
aborts the process via `log.Fatal` instead of returning an error. -/
theorem claim_C3_amended (env : CompileEnv) (e1 e2 : String) :
    (ReturnsErr (hasIntersection env e1 e2) ↔
      (RegexFails env e2 ∨
        (¬ RegexFails env e2 ∧ ¬ NfaFails env e2 ∧ RegexFails env e1))) ∧
    (∀ b err, hasIntersection env e1 e2 = HIResult.ret b (some err) →
      b = false ∧ env.regexpCompile err.expr = some err.cause ∧
        (err.expr = e2 ∨ err.expr = e1)) ∧
    (IsFatal (hasIntersection env e1 e2) ↔
      (¬ RegexFails env e2 ∧ NfaFails env e2) ∨
        (¬ RegexFails env e2 ∧ ¬ NfaFails env e2 ∧
          ¬ RegexFails env e1 ∧ NfaFails env e1)) := by
  have hnr : ∀ e : String, env.regexpCompile e = none → ¬ RegexFails env e :=
    fun e he ⟨d, hd⟩ => by rw [he] at hd; cases hd
  have hnn : ∀ e : String, ∀ p, env.nfaNew e = Except.ok p →
      ¬ NfaFails env e :=
    fun e p he ⟨m, hm⟩ => by rw [he] at hm; cases hm
  cases h2 : env.regexpCompile e2 with
  | some d2 =>
    have hres : hasIntersection env e1 e2 =
        HIResult.ret false (some ⟨e2, d2⟩) := by
      unfold hasIntersection convert2Dfa
      rw [h2]
    rw [hres]
    refine ⟨⟨fun _ => Or.inl ⟨d2, h2⟩, fun _ => ⟨false, ⟨e2, d2⟩, rfl⟩⟩,
      ?_, ?_⟩
    · rintro b err he
      injection he with hb herr
      injection herr with herr
      exact ⟨hb.symm, by rw [← herr, h2], Or.inl (by rw [← herr])⟩
    · constructor
      · rintro ⟨m, hm⟩; exact HIResult.noConfusion hm
      · rintro (⟨hr, _⟩ | ⟨hr, _⟩) <;> exact absurd ⟨d2, h2⟩ hr
  | none =>
    cases hn2 : env.nfaNew e2 with
    | error m2 =>
      have hres : hasIntersection env e1 e2 = HIResult.fatal m2 := by
        unfold hasIntersection convert2Dfa
        rw [h2, hn2]
      rw [hres]
      refine ⟨?_, ?_, ?_⟩
      · constructor
        · rintro ⟨b, e, he⟩; exact HIResult.noConfusion he
        · rintro (hr | ⟨_, hnf, _⟩)
          · exact absurd hr (hnr e2 h2)
          · exact absurd ⟨m2, hn2⟩ hnf
      · rintro b err he; exact HIResult.noConfusion he
      · exact ⟨fun _ => Or.inl ⟨hnr e2 h2, m2, hn2⟩, fun _ => ⟨m2, rfl⟩⟩
    | ok p2 =>
      cases h1 : env.regexpCompile e1 with
      | some d1 =>
        have hres : hasIntersection env e1 e2 =
            HIResult.ret false (some ⟨e1, d1⟩) := by
          unfold hasIntersection convert2Dfa
          rw [h2, hn2, h1]
        rw [hres]
        refine ⟨⟨fun _ => Or.inr ⟨hnr e2 h2, hnn e2 p2 hn2, d1, h1⟩,
          fun _ => ⟨false, ⟨e1, d1⟩, rfl⟩⟩, ?_, ?_⟩
        · rintro b err he
          injection he with hb herr
          injection herr with herr
          exact ⟨hb.symm, by rw [← herr, h1], Or.inr (by rw [← herr])⟩
        · constructor
          · rintro ⟨m, hm⟩; exact HIResult.noConfusion hm
          · rintro (⟨_, hnf⟩ | ⟨_, _, hr1, _⟩)
            · exact absurd hnf (hnn e2 p2 hn2)
            · exact absurd ⟨d1, h1⟩ hr1
      | none =>
        cases hn1 : env.nfaNew e1 with
        | error m1 =>
          have hres : hasIntersection env e1 e2 = HIResult.fatal m1 := by
            unfold hasIntersection convert2Dfa
            rw [h2, hn2, h1, hn1]
          rw [hres]
          refine ⟨?_, ?_, ?_⟩
          · constructor
            · rintro ⟨b, e, he⟩; exact HIResult.noConfusion he
            · rintro (hr | ⟨_, _, hr⟩)
              · exact absurd hr (hnr e2 h2)
              · exact absurd hr (hnr e1 h1)
          · rintro b err he; exact HIResult.noConfusion he
          · exact ⟨fun _ => Or.inr ⟨hnr e2 h2, hnn e2 p2 hn2,
              hnr e1 h1, m1, hn1⟩, fun _ => ⟨m1, rfl⟩⟩
        | ok p1 =>
          have hres : hasIntersection env e1 e2 =
              HIResult.ret (Intersection.dfs (buildOf p1).d (buildOf p2).d
                (buildOf p1).root (buildOf p2).root) none := by
            unfold hasIntersection convert2Dfa
            rw [h2, hn2, h1, hn1]
          rw [hres]
          refine ⟨?_, ?_, ?_⟩
          · constructor
            · rintro ⟨b, e, he⟩
              injection he with _ herr
              exact Option.noConfusion herr
            · rintro (hr | ⟨_, _, hr⟩)
              · exact absurd hr (hnr e2 h2)
              · exact absurd hr (hnr e1 h1)
          · rintro b err he
            injection he with _ herr
            exact Option.noConfusion herr
          · constructor
            · rintro ⟨m, hm⟩; exact HIResult.noConfusion hm
            · rintro (⟨_, hnf⟩ | ⟨_, _, _, hnf⟩)
              · exact absurd hnf (hnn e2 p2 hn2)
              · exact absurd hnf (hnn e1 p1 hn1)

/-! ### Symmetry of `HasIntersection` (claim C2) -/

/-- Every DFA `buildOf` delivers is wellformed: each state's transition
ranges are sorted, disjoint and pairwise non-overlapping (from the
builder guarantees; the fallback branches return the empty-transition
DFA, which is trivially wellformed). -/
theorem buildOf_wf (p : NfaPack) (hlaw : DfaBuild.Lawful p.ord) :
    Intersection.DfaWF (buildOf p).d := by
  cases hb : DfaBuild.newFromNFA p.g p.ord p.root with
  | none =>
    unfold buildOf
    rw [hb]
    intro s
    exact ⟨fun t ht => absurd ht (List.not_mem_nil t), List.Pairwise.nil⟩
  | some pr =>
    obtain ⟨ctx, rootLab⟩ := pr
    obtain ⟨hwf, hdone⟩ := DfaBuild.newFromNFA_done hlaw hb
    unfold buildOf
    rw [hb]
    show Intersection.DfaWF
      (if h : 0 < ctx.nodes.length then
        (⟨ctx.nodes.length, BCtxToDfa ctx,
          labelIdx ctx rootLab ⟨0, h⟩⟩ : BuiltDfa)
      else ⟨1, ⟨fun _ => false, fun _ => []⟩, ⟨0, Nat.zero_lt_one⟩⟩).d
    by_cases h : 0 < ctx.nodes.length
    · rw [dif_pos h]
      intro i
      show Intersection.TransWF
        (((ctx.nodes.get i).2.transitions).map _)
      obtain ⟨d1, d2, _, _, _⟩ := hdone _ (List.get_mem ctx.nodes i.1 i.2)
      constructor
      · intro t ht
        obtain ⟨t0, ht0, rfl⟩ := List.mem_map.1 ht
        exact d1 t0 ht0
      · rw [List.pairwise_map]
        exact d2
    · rw [dif_neg h]
      intro s
      exact ⟨fun t ht => absurd ht (List.not_mem_nil t), List.Pairwise.nil⟩

/-- A successful conversion is the build of the pack `nfa.New`
returned. -/
theorem convert2Dfa_ok {env : CompileEnv} {e : String} {d : BuiltDfa}
    (h : convert2Dfa env e = ConvResult.ok d) :
    ∃ p, env.nfaNew e = Except.ok p ∧ d = buildOf p := by
  rw [convert2Dfa] at h
  cases hr : env.regexpCompile e with
  | some diag => rw [hr] at h; cases h
  | none =>
    rw [hr] at h
    cases hn : env.nfaNew e with
    | error m => rw [hn] at h; cases h
    | ok p =>
      rw [hn] at h
      injection h with h
      exact ⟨p, rfl, h.symm⟩

/-- C2: when both expressions pass compilation (the call returns a
boolean with a `nil` error), `HasIntersection(A,B)` and
`HasIntersection(B,A)` return the same boolean.  The hypothesis on the
environment says each `nfa.New` result carries a lawful map-iteration
oracle (the Go maps iterate in some order of their entries). -/
theorem claim_C2 (env : CompileEnv) (e1 e2 : String)
    (hlaw : ∀ e p, env.nfaNew e = Except.ok p → DfaBuild.Lawful p.ord)
    (b1 b2 : Bool)
    (h1 : hasIntersection env e1 e2 = HIResult.ret b1 none)
    (h2 : hasIntersection env e2 e1 = HIResult.ret b2 none) :
    b1 = b2 := by
  cases hc2 : convert2Dfa env e2 with
  | fatal m =>
    simp only [hasIntersection, hc2] at h1
    cases h1
  | err e =>
    simp only [hasIntersection, hc2] at h1
    cases h1
  | ok d2 =>
    cases hc1 : convert2Dfa env e1 with
    | fatal m =>
      simp only [hasIntersection, hc2, hc1] at h1
      cases h1
    | err e =>
      simp only [hasIntersection, hc2, hc1] at h1
      cases h1
    | ok d1 =>
      simp only [hasIntersection, hc2, hc1] at h1 h2
      injection h1 with hb1 _
      injection h2 with hb2 _
      obtain ⟨p1, hp1, hd1⟩ := convert2Dfa_ok hc1
      obtain ⟨p2, hp2, hd2⟩ := convert2Dfa_ok hc2
      have hwf1 : Intersection.DfaWF d1.d := by
        rw [hd1]
        exact buildOf_wf p1 (hlaw e1 p1 hp1)
      have hwf2 : Intersection.DfaWF d2.d := by
        rw [hd2]
        exact buildOf_wf p2 (hlaw e2 p2 hp2)
      rw [← hb1, ← hb2]
      exact Intersection.dfs_symm hwf1 hwf2 d1.root d2.root

/-- An environment where every expression compiles to the same
one-state NFA (with the identity iteration oracle): the C2 witness
instance. -/
def envC2 : CompileEnv :=
  ⟨fun _ => none,
   fun _ => Except.ok ⟨1, ⟨fun _ => true, fun _ => [⟨some [97, 97], 0⟩]⟩,
     0, DfaBuild.idOrd 1⟩⟩

theorem claim_C2_witness : (true : Bool) = true :=
  claim_C2 envC2 "a" "b"
    (fun e p h => by
      injection h with h
      rw [← h]
      exact DfaBuild.idOrd_lawful 1)
    true true (by decide) (by decide)

/-! ### Concrete builds refuting the claimed transition ordering (C6)
and run-to-run ordering determinism (C7) -/

/-- NFA for C6: `0 --[a]--> 5`, `0 --[b]--> 3`, `5 --ε--> 1`.  The
target of the `a` transition has closure slice `[5, 1]` (Go preorder),
whose FIRST element is `5` but whose smallest id is `1`. -/
def nfaC6 : Nfa 6 :=
  ⟨fun i => decide (i.val = 1 ∨ i.val = 3),
   fun i =>
     if i.val = 0 then
       [⟨some [97, 97], ⟨5, by omega⟩⟩, ⟨some [98, 98], ⟨3, by omega⟩⟩]
     else if i.val = 5 then [⟨none, ⟨1, by omega⟩⟩]
     else []⟩

/-- The build of `nfaC6` under the identity iteration order. -/
def buildC6 : DfaBuild.BCtx 6 × List Nat :=
  (DfaBuild.newFromNFA nfaC6 (DfaBuild.idOrd 6) ⟨0, by omega⟩).getD ⟨⟨0, []⟩, []⟩

/-- The key C6 claims the transitions are sorted by: the smallest NFA
state id in the target's closure set, falling back to the target's
assigned state id when the closure is empty. -/
def minKey {n : Nat} (nd : DfaBuild.BNode n) : Nat :=
  match (nd.closures.map Fin.val).min? with
  | some m => m
  | none => nd.state

/-- C6, counterexample: in the build of `nfaC6` the root's transition
list comes out with claimed keys `[3, 1]` — NOT sorted by the smallest
closure id (both closures non-empty) — because the code compares
`closures[0].S`, the FIRST element of the closure slice (Go preorder or
map order), not the smallest. -/
theorem claim_C6_counterexample :
    DfaBuild.Lawful (DfaBuild.idOrd 6) ∧
    (DfaBuild.newFromNFA nfaC6 (DfaBuild.idOrd 6) ⟨0, by omega⟩).isSome = true ∧
    (DfaBuild.nodeOf buildC6.1 buildC6.2).transitions.map
      (fun t => minKey (DfaBuild.nodeOf buildC6.1 t.2)) = [3, 1] ∧
    (∀ t ∈ (DfaBuild.nodeOf buildC6.1 buildC6.2).transitions,
      (DfaBuild.nodeOf buildC6.1 t.2).closures ≠ []) ∧
    ¬ List.Pairwise
        (fun t1 t2 : List Int × List Nat =>
          minKey (DfaBuild.nodeOf buildC6.1 t1.2) ≤
            minKey (DfaBuild.nodeOf buildC6.1 t2.2))
        (DfaBuild.nodeOf buildC6.1 buildC6.2).transitions :=
  ⟨DfaBuild.idOrd_lawful 6, by decide, by decide, by decide, by decide⟩

/-- NFA for C7: `0 --[a]--> 1`, `0 --[a]--> 5`, `0 --[b]--> 3`.  The
`a` block matches two edges, so the target closure set `{1, 5}` passes
through a Go map whose iteration order is randomized. -/
def nfaC7 : Nfa 6 :=
  ⟨fun i => decide (i.val = 1 ∨ i.val = 3 ∨ i.val = 5),
   fun i =>
     if i.val = 0 then
       [⟨some [97, 97], ⟨1, by omega⟩⟩, ⟨some [97, 97], ⟨5, by omega⟩⟩,
        ⟨some [98, 98], ⟨3, by omega⟩⟩]
     else []⟩

/-- The build of `nfaC7` under the identity iteration order. -/
def buildC7a : DfaBuild.BCtx 6 × List Nat :=
  (DfaBuild.newFromNFA nfaC7 (DfaBuild.idOrd 6) ⟨0, by omega⟩).getD ⟨⟨0, []⟩, []⟩

/-- The build of `nfaC7` under the reversed iteration order. -/
def buildC7b : DfaBuild.BCtx 6 × List Nat :=
  (DfaBuild.newFromNFA nfaC7 (DfaBuild.revOrd 6) ⟨0, by omega⟩).getD ⟨⟨0, []⟩, []⟩

/-- C7, counterexample: two runs of `NewFromNFA` on the same NFA (two
lawful map-iteration orders) produce identical canonical labels, state
ids and final flags, but the root's relative transition ordering
DIFFERS, because the sort key `closures[0].S` reads the head of a
map-iteration-ordered slice. -/
theorem claim_C7_counterexample :
    DfaBuild.Lawful (DfaBuild.idOrd 6) ∧
    DfaBuild.Lawful (DfaBuild.revOrd 6) ∧
    buildC7a.1.nodes.map (fun e => (e.1, e.2.state, e.2.final)) =
      buildC7b.1.nodes.map (fun e => (e.1, e.2.state, e.2.final)) ∧
    buildC7a.2 = buildC7b.2 ∧
    (DfaBuild.nodeOf buildC7a.1 buildC7a.2).transitions.map Prod.snd =
      [[1, 5], [3]] ∧
    (DfaBuild.nodeOf buildC7b.1 buildC7b.2).transitions.map Prod.snd =
      [[3], [1, 5]] ∧
    (DfaBuild.nodeOf buildC7a.1 buildC7a.2).transitions.map Prod.snd ≠
      (DfaBuild.nodeOf buildC7b.1 buildC7b.2).transitions.map Prod.snd :=
  ⟨DfaBuild.idOrd_lawful 6, DfaBuild.revOrd_lawful 6,
    by decide, by decide, by decide, by decide, by decide⟩

/-- C7 amended: two runs of `NewFromNFA` on the same NFA under any two
lawful map-iteration oracles both succeed and return the same root
label; the node tables match in allocation order with identical
canonical labels, state ids and final flags, and with closure and
transition slices equal up to permutation.  The per-node relative
transition ORDER, however, is not reproducible across runs: the sort
key reads the head of a map-iteration-ordered slice (see the
counterexample). -/
theorem claim_C7_amended {n : Nat} (g : Nfa n)
    (ordA ordB : DfaBuild.MapOrd n) (root : Fin n)
    (hA : DfaBuild.Lawful ordA) (hB : DfaBuild.Lawful ordB) :
    ∃ ctxA ctxB,
      DfaBuild.newFromNFA g ordA root =
        some (ctxA, (DfaBuild.firstNode g root).2) ∧
      DfaBuild.newFromNFA g ordB root =
        some (ctxB, (DfaBuild.firstNode g root).2) ∧
      ctxA.state = ctxB.state ∧
      List.Forall₂ (fun eA eB : List Nat × DfaBuild.BNode n =>
        eA.1 = eB.1 ∧ eA.2.state = eB.2.state ∧
        eA.2.final = eB.2.final ∧ eA.2.label = eB.2.label ∧
        eA.2.closures.Perm eB.2.closures ∧
        eA.2.transitions.Perm eB.2.transitions)
        ctxA.nodes ctxB.nodes := by
  rcases DfaBuild.newFromNFA_sim g hA hB root with ⟨hnA, _⟩ |
    ⟨cA, cB, hsA, hsB, hsim⟩
  · have := DfaBuild.newFromNFA_isSome g ordA root hA
    rw [hnA] at this
    cases this
  · exact ⟨cA, cB, hsA, hsB, hsim.1, hsim.2⟩

theorem claim_C7_amended_witness :
    ∃ ctxA ctxB,
      DfaBuild.newFromNFA nfaC7 (DfaBuild.idOrd 6) ⟨0, by omega⟩ =
        some (ctxA, (DfaBuild.firstNode nfaC7 ⟨0, by omega⟩).2) ∧
      DfaBuild.newFromNFA nfaC7 (DfaBuild.revOrd 6) ⟨0, by omega⟩ =
        some (ctxB, (DfaBuild.firstNode nfaC7 ⟨0, by omega⟩).2) ∧
      ctxA.state = ctxB.state ∧
      List.Forall₂ (fun eA eB : List Nat × DfaBuild.BNode 6 =>
        eA.1 = eB.1 ∧ eA.2.state = eB.2.state ∧
        eA.2.final = eB.2.final ∧ eA.2.label = eB.2.label ∧
        eA.2.closures.Perm eB.2.closures ∧
        eA.2.transitions.Perm eB.2.transitions)
        ctxA.nodes ctxB.nodes :=
  claim_C7_amended nfaC7 (DfaBuild.idOrd 6) (DfaBuild.revOrd 6)
    ⟨0, by omega⟩ (DfaBuild.idOrd_lawful 6) (DfaBuild.revOrd_lawful 6)

/-! ### The builder guarantees (claims C5 and C6) -/

/-- C5: for every DFA node produced by `NewFromNFA` (under any lawful
map-iteration oracle), the rune-range lists of the node's outgoing
transitions are each sorted and disjoint, pairwise non-overlapping (no
character is covered by two different transitions of one node), and
their union covers exactly the characters of the non-ε edge ranges
leaving the node's closure set. -/
theorem claim_C5 {n : Nat} (g : Nfa n) (ord : DfaBuild.MapOrd n)
    (root : Fin n) (ctx : DfaBuild.BCtx n) (rootLab : List Nat)
    (hlaw : DfaBuild.Lawful ord)
    (hbuild : DfaBuild.newFromNFA g ord root = some (ctx, rootLab))
    (e : List Nat × DfaBuild.BNode n) (he : e ∈ ctx.nodes) :
    (∀ t ∈ e.2.transitions, RuneRange.sortedDisjoint t.1) ∧
    List.Pairwise (fun t1 t2 : List Int × List Nat =>
      ¬ RuneRange.Overlaps t1.1 t2.1) e.2.transitions ∧
    (∀ c : Int, (∃ t ∈ e.2.transitions, RuneRange.Mem c t.1) ↔
      DfaBuild.EdgeChar g e.2.closures c) := by
  obtain ⟨hwf, hdone⟩ := DfaBuild.newFromNFA_done hlaw hbuild
  obtain ⟨d1, d2, d3, _, _⟩ := hdone e he
  exact ⟨d1, d2, d3⟩

/-- A one-state NFA over `a..b`, the builder witness instance. -/
def nfaW : Nfa 1 := ⟨fun _ => false, fun _ => [⟨some [97, 98], 0⟩]⟩

/-- The context `NewFromNFA` builds from `nfaW`. -/
def ctxW : DfaBuild.BCtx 1 :=
  ⟨1, [([0], ⟨1, false, [0], [0], [([97, 98], [0])]⟩)]⟩

/-- The single node entry of `ctxW`. -/
def entW : List Nat × DfaBuild.BNode 1 :=
  ([0], ⟨1, false, [0], [0], [([97, 98], [0])]⟩)

theorem claim_C5_witness :
    (∀ t ∈ entW.2.transitions, RuneRange.sortedDisjoint t.1) ∧
    List.Pairwise (fun t1 t2 : List Int × List Nat =>
      ¬ RuneRange.Overlaps t1.1 t2.1) entW.2.transitions ∧
    (∀ c : Int, (∃ t ∈ entW.2.transitions, RuneRange.Mem c t.1) ↔
      DfaBuild.EdgeChar nfaW entW.2.closures c) :=
  claim_C5 nfaW (DfaBuild.idOrd 1) 0 ctxW [0] (DfaBuild.idOrd_lawful 1)
    (by decide) entW (by decide)

/-- C6 amended: for every node emitted by `constructSubset` (under any
lawful map-iteration oracle), every transition's target node carries a
non-empty closure slice, and the transition list is sorted by the
comparator the code actually uses: the state id of the FIRST element of
the target's stored `closures` slice (the fallback comparison of
assigned state ids is never taken, because closure slices are never
empty).  The key is NOT the smallest closure state id, and the order is
not independent of map iteration order, since the first element of the
target's closure slice depends on it. -/
theorem claim_C6_amended {n : Nat} (g : Nfa n) (ord : DfaBuild.MapOrd n)
    (root : Fin n) (ctx : DfaBuild.BCtx n) (rootLab : List Nat)
    (hlaw : DfaBuild.Lawful ord)
    (hbuild : DfaBuild.newFromNFA g ord root = some (ctx, rootLab))
    (e : List Nat × DfaBuild.BNode n) (he : e ∈ ctx.nodes) :
    (∀ t ∈ e.2.transitions,
      (DfaBuild.nodeOf ctx t.2).closures ≠ []) ∧
    List.Pairwise (fun t1 t2 : List Int × List Nat =>
      DfaBuild.goLess (DfaBuild.nodeOf ctx t2.2)
        (DfaBuild.nodeOf ctx t1.2) = false) e.2.transitions := by
  obtain ⟨hwf, hdone⟩ := DfaBuild.newFromNFA_done hlaw hbuild
  obtain ⟨_, _, _, d4, d5⟩ := hdone e he
  exact ⟨fun t ht => (d4 t ht).2, d5⟩

theorem claim_C6_amended_witness :
    (∀ t ∈ entW.2.transitions,
      (DfaBuild.nodeOf ctxW t.2).closures ≠ []) ∧
    List.Pairwise (fun t1 t2 : List Int × List Nat =>
      DfaBuild.goLess (DfaBuild.nodeOf ctxW t2.2)
        (DfaBuild.nodeOf ctxW t1.2) = false) entW.2.transitions :=
  claim_C6_amended nfaW (DfaBuild.idOrd 1) 0 ctxW [0]
    (DfaBuild.idOrd_lawful 1) (by decide) entW (by decide)

/-- A one-state DFA accepting `a`, used as the C10 witness instance. -/
def dfaC10 : Dfa 1 :=
  ⟨fun _ => true, fun _ => [([97, 97], ⟨0, Nat.zero_lt_one⟩)]⟩

/-- C10 witness: on a concrete DFA the matching transition is found. -/
theorem claim_C10_witness :
    Dfa.nextState dfaC10 ⟨0, Nat.zero_lt_one⟩ [97, 97] =
      some ⟨0, Nat.zero_lt_one⟩ :=
  (claim_C10 dfaC10 ⟨0, Nat.zero_lt_one⟩ 97 (by decide)).2
    ([97, 97], ⟨0, Nat.zero_lt_one⟩) (by decide) (by decide)

end Reinter
